import Mathlib

/-!
# xv6 with stride scheduling: a shallow embedding of `proc.c` and `kalloc.c`

The process list (`ptable.queue_head`, an intrusive circular doubly-linked
list) is a Lean list in traversal order (`head->next` first); a list node is
identified by its position.  Pointers are natural numbers, `0` is `NULL`.
`int` and `long long` fields are integers; where the code computes on them,
in `pass_value += stride` (a `long long`) and in `nextpid++` (an `int`), the
result wraps in two's complement (`wrap64`, `wrap32`).
-/

namespace Stride

/-- The constant `STRIDE_LARGE_NUMBER` of proc.c and proc.h. -/
def STRIDE_LARGE_NUMBER : Int := 10000

/-- The enum `procstate` of proc.h, in declaration order. -/
inductive procstate where
  | UNUSED
  | EMBRYO
  | SLEEPING
  | RUNNABLE
  | RUNNING
  | ZOMBIE
deriving DecidableEq, Repr

open procstate

/-- The struct `stride_info` of proc.h. -/
structure stride_info where
  stride : Int
  tickets : Int
  pass_value : Int
deriving DecidableEq, Repr

/-- Saved user registers.  The struct is declared in x86.h (not part of the
sources at hand); the fields are the ones proc.c names. -/
structure trapframe where
  eax : Nat
  cs : Nat
  ds : Nat
  es : Nat
  ss : Nat
  eflags : Nat
  esp : Nat
  eip : Nat
deriving DecidableEq, Repr

/-- The struct `context` of proc.h. -/
structure context where
  edi : Nat
  esi : Nat
  ebx : Nat
  ebp : Nat
  eip : Nat
deriving DecidableEq, Repr

/-- The struct `proc` of proc.h.  `addr` is the address of the slot itself (what
a `struct proc *` holds); `parent` and `chan` hold such addresses.  `tf` and
`context` are `none` for a null pointer and otherwise carry the pointed-to
record.  `queue_elem` is the position in the process list. -/
structure proc where
  addr : Nat
  sz : Nat
  pgdir : Nat
  kstack : Nat
  state : procstate
  pid : Int
  parent : Nat
  tf : Option trapframe
  context : Option context
  chan : Nat
  killed : Int
  ofile : List Nat
  cwd : Nat
  name : List Nat
  stride_info : stride_info
deriving DecidableEq, Repr

/-- The loop of `remove_min` (proc.c 44-65): `i` is the position of the current
item, `m` the value of `minProcess` (position and entry). -/
def remove_min_scan : List proc → Nat → Option (Nat × proc) → Option (Nat × proc)
  | [], _, m => m
  | t :: rest, i, m =>
    if t.state ≠ RUNNABLE then remove_min_scan rest (i + 1) m
    else
      match m with
      | none => remove_min_scan rest (i + 1) (some (i, t))
      | some (j, mp) =>
        if mp.stride_info.pass_value > t.stride_info.pass_value then
          remove_min_scan rest (i + 1) (some (i, t))
        else remove_min_scan rest (i + 1) (some (j, mp))

/-- The function `remove_min` (proc.c 37-79): the returned process (or `none` for
`NULL`) and the list after `list_del_init`. -/
def remove_min (head : List proc) : Option proc × List proc :=
  match remove_min_scan head 0 none with
  | none => (none, head)
  | some (i, p) => (some p, head.eraseIdx i)

/-- A value stored in an `int`: two's complement, modulo 2^32. -/
def wrap32 (x : Int) : Int := (x + 2147483648) % 4294967296 - 2147483648

/-- A value stored in a `long long`: two's complement, modulo 2^64. -/
def wrap64 (x : Int) : Int :=
  (x + 9223372036854775808) % 18446744073709551616 - 9223372036854775808

/-- The function `update_pass_value` (proc.c 84-87): the sum is stored in a
`long long`. -/
def update_pass_value (p : proc) : proc :=
  { p with stride_info :=
      { p.stride_info with
        pass_value := wrap64 (p.stride_info.pass_value + p.stride_info.stride) } }

/-- The loop of `update_min_pass_value` (proc.c 103-125) over the remaining
items, from the current `isFirst` and `minPassValue`. -/
def min_pass_scan : List proc → Bool → Int → Int
  | [], _, minPassValue => minPassValue
  | t :: rest, isFirst, minPassValue =>
    if t.state ≠ RUNNABLE then min_pass_scan rest isFirst minPassValue
    else if isFirst then min_pass_scan rest false t.stride_info.pass_value
    else if minPassValue > t.stride_info.pass_value then
      min_pass_scan rest false t.stride_info.pass_value
    else min_pass_scan rest false minPassValue

/-- The function `insert` (proc.c 134-138): `list_add_tail`. -/
def insert (head : List proc) (current : proc) : List proc :=
  head ++ [current]

/-! ## Physical memory and the two allocators of kalloc.c -/

/-- The page size `PGSIZE` (mmu.h; 4096 in the specification). -/
def PGSIZE : Nat := 4096

/-- Addresses the sources at hand use but do not define: `end` (linker
script), `KERNBASE` and `PHYSTOP` (memlayout.h). -/
structure layout where
  kend : Nat
  KERNBASE : Nat
  PHYSTOP : Nat

/-- What a call does: it returns, or the kernel stops (`panic`, or a store through
a null pointer), or the walk of a list does not end within the step bound. -/
inductive outcome (α : Type) where
  | ret (a : α)
  | fault
  | out_of_fuel

/-- Sequencing of calls. -/
def outcome.bind {α β : Type} (x : outcome α) (f : α → outcome β) : outcome β :=
  match x with
  | outcome.ret a => f a
  | outcome.fault => outcome.fault
  | outcome.out_of_fuel => outcome.out_of_fuel

/-- Byte-addressed memory. -/
abbrev Mem := Nat → Nat

/-- A 32-bit little-endian load. -/
def read32 (m : Mem) (a : Nat) : Nat :=
  m a % 256 + 256 * (m (a + 1) % 256) + 65536 * (m (a + 2) % 256)
    + 16777216 * (m (a + 3) % 256)

/-- A 32-bit little-endian store. -/
def write32 (m : Mem) (a v : Nat) : Mem := fun x =>
  if x = a then v % 256
  else if x = a + 1 then v / 256 % 256
  else if x = a + 2 then v / 65536 % 256
  else if x = a + 3 then v / 16777216 % 256
  else m x

/-- The call `memset(dst, c, n)`. -/
def memset (m : Mem) (dst c n : Nat) : Mem := fun x =>
  if dst ≤ x ∧ x < dst + n then c % 256 else m x

/-- Arithmetic on `uint` and on pointers is modulo 2^32. -/
def u32 (x : Nat) : Nat := x % 4294967296

/-- The field `s.ptr` of the `Header` at address `a` (offset 0). -/
def hdr_ptr (m : Mem) (a : Nat) : Nat := read32 m a

/-- The field `s.size` of the `Header` at address `a` (offset 4). -/
def hdr_size (m : Mem) (a : Nat) : Nat := read32 m (a + 4)

/-- Store to `s.ptr`. -/
def set_ptr (m : Mem) (a v : Nat) : Mem := write32 m a v

/-- Store to `s.size`. -/
def set_size (m : Mem) (a v : Nat) : Mem := write32 m (a + 4) v

/-- The value of `sizeof(Header)`: a pointer and a `uint` on a 32-bit target. -/
def HEADER : Nat := 8

/-- Pointer arithmetic `p + n` on `Header *`. -/
def hdr_add (p n : Nat) : Nat := u32 (p + HEADER * n)

/-- Memory together with the globals of kalloc.c: `kmem.freelist`, `base_p`,
`sbrk_addr`, `freep` and the static `first` of `kmorecore`. -/
structure memstate where
  mem : Mem
  freelist : Nat
  base_p : Nat
  sbrk_addr : Nat
  freep : Nat
  first : Bool

/-- The macro `V2P` on a `uint`. -/
def V2P (cfg : layout) (v : Nat) : Nat := u32 (v + 4294967296 - cfg.KERNBASE)

/-- The function `kfree` (kalloc.c 58-75); locking is not modelled. -/
def kfree (cfg : layout) (v : Nat) (M : memstate) : outcome memstate :=
  if v % PGSIZE ≠ 0 ∨ v < cfg.kend ∨ V2P cfg v ≥ cfg.PHYSTOP then outcome.fault
  else
    let m1 := memset M.mem v 1 PGSIZE
    outcome.ret { M with mem := write32 m1 v M.freelist, freelist := v }

/-- The function `kalloc` (kalloc.c 80-93): the returned pointer (`0` when the
free list is empty) and the state after. -/
def kalloc (M : memstate) : Nat × memstate :=
  let r := M.freelist
  if r ≠ 0 then (r, { M with freelist := read32 M.mem r }) else (r, M)

/-- The loop of `k_free` (kalloc.c 119-121) from the current `p`. -/
def k_free_find (m : Mem) (bp : Nat) : Nat → Nat → Option Nat
  | 0, _ => none
  | fuel + 1, p =>
    if bp > p ∧ bp < hdr_ptr m p then some p
    else if p ≥ hdr_ptr m p ∧ (bp > p ∨ bp < hdr_ptr m p) then some p
    else k_free_find m bp fuel (hdr_ptr m p)

/-- The body of `k_free` after the loop (kalloc.c 122-136), `p` being found. -/
def k_free_link (bp p : Nat) (M : memstate) : memstate :=
  let m0 := M.mem
  let m1 :=
    if hdr_add bp (hdr_size m0 bp) = hdr_ptr m0 p then
      let ma := set_size m0 bp (u32 (hdr_size m0 bp + hdr_size m0 (hdr_ptr m0 p)))
      set_ptr ma bp (hdr_ptr ma (hdr_ptr ma p))
    else set_ptr m0 bp (hdr_ptr m0 p)
  let m2 :=
    if hdr_add p (hdr_size m1 p) = bp then
      let mb := set_size m1 p (u32 (hdr_size m1 p + hdr_size m1 bp))
      set_ptr mb p (hdr_ptr mb bp)
    else set_ptr m1 p bp
  { M with mem := m2, freep := p }

/-- The function `k_free` (kalloc.c 114-137) with a bound on the steps of its loop. -/
def k_free_fuel (fuel : Nat) (ap : Nat) (M : memstate) : outcome memstate :=
  let bp := u32 (ap + 4294967296 - HEADER)
  match k_free_find M.mem bp fuel M.freep with
  | none => outcome.out_of_fuel
  | some p => outcome.ret (k_free_link bp p M)

/-- The number of steps a walk of the heap free list is given.  A pointer has
2^32 values and the memory does not change during a walk (in `k_malloc` it
changes once, at the one call of `kmorecore` that succeeds), so a walk that
takes more steps than this has come back to a position it has left and never
ends. -/
def HEAP_STEPS : Nat := 17179869184

/-- The function `k_free` (kalloc.c 114-137). -/
def k_free (ap : Nat) (M : memstate) : outcome memstate :=
  k_free_fuel HEAP_STEPS ap M

/-- The function `kmorecore` (kalloc.c 139-163): the returned pointer and the state. -/
def kmorecore (nu : Nat) (M : memstate) : outcome (Nat × memstate) :=
  if M.first then
    let M1 := { M with first := false }
    let nu1 := if nu < 4096 then 4096 else nu
    let p := M1.sbrk_addr
    if p = 4294967295 then outcome.ret (0, M1)
    else if p = 0 then outcome.fault
    else
      let M2 := { M1 with mem := set_size M1.mem p nu1 }
      (k_free (hdr_add p 1) M2).bind fun M3 => outcome.ret (M3.freep, M3)
  else outcome.ret (0, M)

/-- The nine calls of `kalloc` in `k_malloc` (kalloc.c 175-182), from index `i`,
`n` calls remaining. -/
def k_malloc_frames : Nat → Nat → memstate → memstate
  | 0, _, M => M
  | n + 1, i, M =>
    let r := kalloc M
    let M1 := r.2
    let M2 := if i = 7 then { M1 with sbrk_addr := r.1 } else M1
    let M3 := if i = 8 then { M2 with base_p := r.1 } else M2
    k_malloc_frames n (i + 1) M3

/-- The first-time initialisation in `k_malloc` (kalloc.c 173-185). -/
def k_malloc_init (M : memstate) : outcome memstate :=
  let M1 := k_malloc_frames 9 0 M
  if M1.base_p = 0 then outcome.fault
  else
    let m1 := set_ptr M1.mem M1.base_p M1.base_p
    outcome.ret { M1 with freep := M1.base_p, mem := set_size m1 M1.base_p 0 }

/-- The value of `nunits` (kalloc.c 171), in `uint` arithmetic. -/
def nunits_of (nbytes : Nat) : Nat := u32 (u32 (nbytes + HEADER - 1) / HEADER + 1)

/-- The loop of `k_malloc` (kalloc.c 186-204) from the current `prevp` and `p`. -/
def k_malloc_loop (nunits : Nat) : Nat → Nat → Nat → memstate → outcome (Nat × memstate)
  | 0, _, _, _ => outcome.out_of_fuel
  | fuel + 1, prevp, p, M =>
    if hdr_size M.mem p ≥ nunits then
      if hdr_size M.mem p = nunits then
        outcome.ret (hdr_add p 1,
          { M with mem := set_ptr M.mem prevp (hdr_ptr M.mem p), freep := prevp })
      else
        let m1 := set_size M.mem p (u32 (hdr_size M.mem p + 4294967296 - nunits))
        let p2 := hdr_add p (hdr_size m1 p)
        let m2 := set_size m1 p2 nunits
        outcome.ret (hdr_add p2 1, { M with mem := m2, freep := prevp })
    else if p = M.freep then
      match kmorecore nunits M with
      | outcome.ret (p1, M1) =>
        if p1 = 0 then outcome.ret (0, M1)
        else k_malloc_loop nunits fuel p1 (hdr_ptr M1.mem p1) M1
      | outcome.fault => outcome.fault
      | outcome.out_of_fuel => outcome.out_of_fuel
    else k_malloc_loop nunits fuel p (hdr_ptr M.mem p) M

/-- The function `k_malloc` (kalloc.c 165-205): the returned pointer (`0` when
the heap is exhausted) and the state after. -/
def k_malloc (nbytes : Nat) (M : memstate) : outcome (Nat × memstate) :=
  let nunits := nunits_of nbytes
  let start : outcome memstate := if M.freep = 0 then k_malloc_init M else outcome.ret M
  start.bind fun M1 =>
    k_malloc_loop nunits HEAP_STEPS M1.freep (hdr_ptr M1.mem M1.freep) M1

/-! ## The process table and the operations of proc.c -/

/-- Constants and collaborators the sources at hand use but do not define:
`sizeof(struct proc)` and `NOFILE` (param.h), the entry point `forkret`, the
segment and flag constants of mmu.h, and the functions `copyuvm`, `setupkvm`,
`inituvm` (vm.c; each may use the page allocator, a returned page directory is
`0` on failure), `filedup` (file.c), `idup` and `namei` (fs.c) and
`safestrcpy` (string.c; destination buffer, source, size). -/
structure config where
  lay : layout
  sizeof_proc : Nat
  NOFILE : Nat
  forkret : Nat
  SEG_UCODE : Nat
  SEG_UDATA : Nat
  DPL_USER : Nat
  FL_IF : Nat
  copyuvm : memstate → Nat → Nat → Nat × memstate
  setupkvm : memstate → Nat × memstate
  inituvm : memstate → Nat → memstate
  filedup : Nat → Nat
  idup : Nat → Nat
  namei_root : Nat
  safestrcpy : List Nat → List Nat → Nat → List Nat

/-- The state all CPUs share: memory and the allocators, the process list
`ptable.queue_head`, `ptable.min_pass_value`, `nextpid` and `initproc`.  A
process that is dispatched is not in the list (`remove_min` unlinks it). -/
structure kernel where
  M : memstate
  queue : List proc
  min_pass_value : Int
  nextpid : Int
  initproc : Nat

/-- A CPU: `proc` is `mycpu()->proc` with the record it points to (`none` for a
null pointer), `k` the shared state. -/
structure cpu where
  proc : Option proc
  k : kernel

/-- The function `update_min_pass_value` (proc.c 93-129). -/
def update_min_pass_value (k : kernel) : kernel :=
  { k with min_pass_value := min_pass_scan k.queue true 0 }

/-- The function `assign_min_pass_value` (proc.c 143-146). -/
def assign_min_pass_value (k : kernel) (p : proc) : proc :=
  { p with stride_info := { p.stride_info with pass_value := k.min_pass_value } }

/-- The function `assign_tickets` (proc.c 150-156) on the process `myproc()`
returns.  The division is the one of C (it truncates); dividing by zero stops
the kernel. -/
def assign_tickets (tickets : Int) (c : cpu) : outcome cpu :=
  match c.proc with
  | none => outcome.fault
  | some p =>
    let p1 := { p with stride_info := { p.stride_info with tickets := tickets } }
    if tickets = 0 then outcome.fault
    else
      let p2 := { p1 with stride_info :=
        { p1.stride_info with stride := Int.tdiv STRIDE_LARGE_NUMBER tickets } }
      outcome.ret { c with proc := some p2 }

/-- The function `initialize_stride_info` (proc.c 162-168). -/
def initialize_stride_info (p : proc) : proc :=
  let p1 := { p with stride_info := { p.stride_info with tickets := 100 } }
  let p2 := { p1 with stride_info := { p1.stride_info with pass_value := 0 } }
  { p2 with stride_info :=
      { p2.stride_info with stride := Int.tdiv STRIDE_LARGE_NUMBER p2.stride_info.tickets } }

/-- The slot at address `a` after `memset(p, 0, sizeof(struct proc))`. -/
def zero_proc (cfg : config) (a : Nat) : proc :=
  { addr := a, sz := 0, pgdir := 0, kstack := 0, state := UNUSED, pid := 0, parent := 0,
    tf := none, context := none, chan := 0, killed := 0,
    ofile := List.replicate cfg.NOFILE 0, cwd := 0, name := List.replicate 16 0,
    stride_info := { stride := 0, tickets := 0, pass_value := 0 } }

/-- The function `allocproc` (proc.c 222-275): the new slot (`none` for a null
return) and the state after; a slot that was linked is the last of the list.
The trap frame of a fresh kernel stack has no content yet (`tf = none`). -/
def allocproc (cfg : config) (k : kernel) : outcome (Option proc × kernel) :=
  (k_malloc cfg.sizeof_proc k.M).bind fun r =>
    if r.1 = 0 then outcome.ret (none, { k with M := r.2 })
    else
      let p0 := zero_proc cfg r.1
      let p1 := initialize_stride_info p0
      let p2 := { p1 with state := EMBRYO, pid := k.nextpid }
      let ka := kalloc r.2
      let p3 := { p2 with kstack := ka.1 }
      if ka.1 = 0 then
        let p4 := { p3 with state := UNUSED }
        outcome.ret (none,
          { k with M := ka.2, queue := k.queue ++ [p4], nextpid := wrap32 (k.nextpid + 1) })
      else
        let p4 := { p3 with
          context := some { edi := 0, esi := 0, ebx := 0, ebp := 0, eip := cfg.forkret } }
        outcome.ret (some p4,
          { k with M := ka.2, queue := k.queue ++ [p4], nextpid := wrap32 (k.nextpid + 1) })

/-- Store the record `p` into the slot `allocproc` linked last. -/
def set_last (l : List proc) (p : proc) : List proc :=
  l.set (l.length - 1) p

/-- The function `userinit` (proc.c 279-314). -/
def userinit (cfg : config) (k : kernel) : outcome kernel :=
  (allocproc cfg { k with queue := [] }).bind fun r =>
    match r.1 with
    | none => outcome.fault
    | some p =>
      let k1 := { r.2 with initproc := p.addr }
      let pg := cfg.setupkvm k1.M
      if pg.1 = 0 then outcome.fault
      else
        let M2 := cfg.inituvm pg.2 pg.1
        let ds := (cfg.SEG_UDATA <<< 3) ||| cfg.DPL_USER
        let cs := (cfg.SEG_UCODE <<< 3) ||| cfg.DPL_USER
        let tf : trapframe :=
          { eax := 0, cs := cs, ds := ds, es := ds, ss := ds, eflags := cfg.FL_IF,
            esp := PGSIZE, eip := 0 }
        let initcode := [105, 110, 105, 116, 99, 111, 100, 101, 0]
        let p1 := { p with pgdir := pg.1, sz := PGSIZE, tf := some tf }
        let p2 := { p1 with name := cfg.safestrcpy p1.name initcode 16, cwd := cfg.namei_root }
        let p3 := { p2 with state := RUNNABLE }
        outcome.ret { k1 with M := M2, queue := set_last k1.queue p3 }

/-- The function `fork` (proc.c 342-388): the value returned to the caller and
the state after. -/
def fork (cfg : config) (c : cpu) : outcome (Int × cpu) :=
  match c.proc with
  | none => outcome.fault
  | some curproc =>
    (allocproc cfg c.k).bind fun r =>
      match r.1 with
      | none => outcome.ret (-1, { c with k := r.2 })
      | some np =>
        let k1 := r.2
        let cu := cfg.copyuvm k1.M curproc.pgdir curproc.sz
        let np1 := { np with pgdir := cu.1 }
        if cu.1 = 0 then
          (kfree cfg.lay np1.kstack cu.2).bind fun M3 =>
            let np2 := { np1 with kstack := 0 }
            let np3 := { np2 with state := UNUSED }
            outcome.ret (-1, { c with k := { k1 with M := M3, queue := set_last k1.queue np3 } })
        else
          match curproc.tf with
          | none => outcome.fault
          | some t =>
            let np2 := { np1 with sz := curproc.sz, parent := curproc.addr }
            let np3 := { np2 with tf := some { t with eax := 0 } }
            let files := List.zipWith (fun f g => if f ≠ 0 then cfg.filedup f else g)
              curproc.ofile np3.ofile
            let np4 := { np3 with ofile := files, cwd := cfg.idup curproc.cwd }
            let np5 := { np4 with name := cfg.safestrcpy np4.name curproc.name 16 }
            let pid := np5.pid
            let np6 := assign_min_pass_value k1 { np5 with state := RUNNABLE }
            outcome.ret (pid, { c with k := { k1 with M := cu.2, queue := set_last k1.queue np6 } })

/-- The first half of an iteration of `scheduler` (proc.c 525-538): `remove_min`,
and the chosen process is marked RUNNING; `none` when nothing is RUNNABLE. -/
def scheduler_pick (k : kernel) : Option (proc × kernel) :=
  match remove_min k.queue with
  | (none, _) => none
  | (some p, q) => some ({ p with state := RUNNING }, { k with queue := q })

/-- The second half of an iteration of `scheduler` (proc.c 539-549), after the
switch back: `update_pass_value`, `insert`, `update_min_pass_value`. -/
def scheduler_back (p : proc) (k : kernel) : kernel :=
  update_min_pass_value { k with queue := insert k.queue (update_pass_value p) }

/-- One iteration of the loop of `scheduler` (proc.c 516-553).  The quantum `run`
is what happens between `swtch` and the switch back: the dispatched process
`p` runs on the shared state, and `run` gives its record and the shared state at
the switch back. -/
def scheduler_iter (run : proc → kernel → proc × kernel) (k : kernel) : kernel :=
  match scheduler_pick k with
  | none => k
  | some (p, k1) => scheduler_back (run p k1).1 (run p k1).2

/-- The function `yield` (proc.c 582-588) as a quantum: the process marks itself
RUNNABLE and switches back. -/
def yield (p : proc) (k : kernel) : proc × kernel :=
  ({ p with state := RUNNABLE }, k)

/-- The scheduler loop run for `n` iterations. -/
def scheduler_loop (run : proc → kernel → proc × kernel) : Nat → kernel → kernel
  | 0, k => k
  | n + 1, k => scheduler_loop run n (scheduler_iter run k)

/-- The processes dispatched by `n` iterations of the scheduler loop, by the
address of their slot, first dispatch first. -/
def scheduler_trace (run : proc → kernel → proc × kernel) : Nat → kernel → List Nat
  | 0, _ => []
  | n + 1, k =>
    match scheduler_pick k with
    | none => scheduler_trace run n (scheduler_iter run k)
    | some (p, _) => p.addr :: scheduler_trace run n (scheduler_iter run k)

/-- The function `sleep` (proc.c 613-638) as a quantum, up to its call of `sched`:
the process records the channel, marks itself SLEEPING and switches back. -/
def sleep (chan : Nat) (p : proc) (k : kernel) : proc × kernel :=
  ({ p with chan := chan, state := SLEEPING }, k)

/-- The function `wakeup1` (proc.c 654-671). -/
def wakeup1 (chan : Nat) (k : kernel) : kernel :=
  { k with queue := k.queue.map fun p =>
      if p.state = SLEEPING ∧ p.chan = chan then
        assign_min_pass_value k { p with state := RUNNABLE }
      else p }

/-- The loop of `kill` (proc.c 691-704): the list after, or `none` when no entry
has the pid. -/
def kill_scan (pid : Int) : List proc → Option (List proc)
  | [] => none
  | p :: rest =>
    if p.pid = pid then
      let p1 := { p with killed := 1 }
      some ((if p1.state = SLEEPING then { p1 with state := RUNNABLE } else p1) :: rest)
    else (kill_scan pid rest).map fun r => p :: r

/-- The function `kill` (proc.c 684-707). -/
def kill (pid : Int) (k : kernel) : Int × kernel :=
  match kill_scan pid k.queue with
  | some q => (0, { k with queue := q })
  | none => (-1, k)

/-- The shared state at boot, before `userinit`: nothing is in the process list. -/
def boot (M0 : memstate) : kernel :=
  { M := M0, queue := [], min_pass_value := 0, nextpid := 1, initproc := 0 }

/-- The states of a CPU that boot and the operations of proc.c reach: `userinit`
once, then `allocproc`, `fork` by the running process, the two halves of a
scheduler iteration (at the switch back the process has left RUNNING and may
have set its channel), and `assign_tickets n` by the running process for the
arguments `n` that `ok` admits. -/
inductive reachable (cfg : config) (ok : Int → Prop) (M0 : memstate) : cpu → Prop
  | init (k1 : kernel) :
      userinit cfg (boot M0) = outcome.ret k1 → reachable cfg ok M0 { proc := none, k := k1 }
  | alloc (c : cpu) (r : Option proc × kernel) :
      reachable cfg ok M0 c → allocproc cfg c.k = outcome.ret r →
      reachable cfg ok M0 { c with k := r.2 }
  | fork (c : cpu) (r : Int × cpu) :
      reachable cfg ok M0 c → fork cfg c = outcome.ret r → reachable cfg ok M0 r.2
  | pick (c : cpu) (p : proc) (k1 : kernel) :
      reachable cfg ok M0 c → c.proc = none → scheduler_pick c.k = some (p, k1) →
      reachable cfg ok M0 { proc := some p, k := k1 }
  | back (c : cpu) (p : proc) (st : procstate) (chan : Nat) :
      reachable cfg ok M0 c → c.proc = some p → st ≠ RUNNING →
      reachable cfg ok M0
        { proc := none, k := scheduler_back { p with state := st, chan := chan } c.k }
  | tickets (c c1 : cpu) (n : Int) :
      reachable cfg ok M0 c → ok n → assign_tickets n c = outcome.ret c1 →
      reachable cfg ok M0 c1

/-- The invariant on a slot: `stride == LARGE / tickets` and `tickets >= 1`. -/
def stride_ok (p : proc) : Prop :=
  p.stride_info.stride = Int.tdiv STRIDE_LARGE_NUMBER p.stride_info.tickets ∧
    1 ≤ p.stride_info.tickets

/-- Every RUNNABLE or RUNNING process, in the list or dispatched, has `stride_ok`. -/
def stride_inv (c : cpu) : Prop :=
  (∀ p ∈ c.k.queue, p.state = RUNNABLE ∨ p.state = RUNNING → stride_ok p) ∧
    ∀ p, c.proc = some p → p.state = RUNNABLE ∨ p.state = RUNNING → stride_ok p

/-- The heap free list from chunk `p` on, as (address, size in units), up to the
chunk whose successor is `stop`. -/
def heap_walk (m : Mem) (stop : Nat) : Nat → Nat → List (Nat × Nat)
  | 0, _ => []
  | fuel + 1, p =>
    (p, hdr_size m p) ::
      (if hdr_ptr m p = stop then [] else heap_walk m stop fuel (hdr_ptr m p))

/-- The chunks of the circular heap free list, starting at `freep`; none before
the first `k_malloc`.  At most `fuel` chunks are listed. -/
def free_chunks (fuel : Nat) (M : memstate) : List (Nat × Nat) :=
  if M.freep = 0 then [] else heap_walk M.mem M.freep fuel M.freep

/-- The number of free units on the heap free list. -/
def free_units (fuel : Nat) (M : memstate) : Nat :=
  ((free_chunks fuel M).map fun c => c.2).sum

/-- The frames of the page free list from `r` on, head first (at most `fuel`). -/
def free_frames (m : Mem) : Nat → Nat → List Nat
  | 0, _ => []
  | fuel + 1, r => if r = 0 then [] else r :: free_frames m fuel (read32 m r)

/-- The macro `PGROUNDUP` (mmu.h): the next multiple of the page size. -/
def PGROUNDUP (a : Nat) : Nat := (a + PGSIZE - 1) / PGSIZE * PGSIZE

/-- The loop of `freerange` (kalloc.c 50-51) from the current `p`; `n` bounds the
number of pages left below `vend`. -/
def freerange_loop (cfg : layout) (vend : Nat) : Nat → Nat → memstate → outcome memstate
  | 0, _, M => outcome.ret M
  | n + 1, p, M =>
    if p + PGSIZE ≤ vend then
      (kfree cfg p M).bind fun M1 => freerange_loop cfg vend n (p + PGSIZE) M1
    else outcome.ret M

/-- The function `freerange` (kalloc.c 46-52). -/
def freerange (cfg : layout) (vstart vend : Nat) (M : memstate) : outcome memstate :=
  freerange_loop cfg vend ((vend - PGROUNDUP vstart) / PGSIZE) (PGROUNDUP vstart) M

/-- Whether the call returned. -/
def outcome.returns {α : Type} (x : outcome α) : Bool :=
  match x with
  | outcome.ret _ => true
  | _ => false

/-- The value returned, `d` when the call did not return. -/
def outcome.get_or {α : Type} (x : outcome α) (d : α) : α :=
  match x with
  | outcome.ret a => a
  | _ => d

/-! ## Concrete machines, for the statements at concrete inputs -/

/-- A memory layout with the kernel ending at 0x80100000. -/
def ex_lay : layout := { kend := 2148532224, KERNBASE := 2147483648, PHYSTOP := 234881024 }

/-- A string copy in the manner of `safestrcpy`: at most `n - 1` characters up to
the first NUL, then a NUL; the rest of the buffer stays. -/
def ex_strcpy (dst src : List Nat) (n : Nat) : List Nat :=
  let body := (src.take (n - 1)).takeWhile fun ch => ch ≠ 0
  body ++ 0 :: dst.drop (body.length + 1)

/-- A configuration: 148-byte slots, 16 open files, page directories taken from
the page allocator (so `copyuvm` fails exactly when no frame is left). -/
def ex_cfg : config :=
  { lay := ex_lay, sizeof_proc := 148, NOFILE := 16, forkret := 2148542000,
    SEG_UCODE := 3, SEG_UDATA := 4, DPL_USER := 3, FL_IF := 512,
    copyuvm := fun M _ _ => kalloc M, setupkvm := fun M => kalloc M,
    inituvm := fun M _ => M, filedup := fun f => f, idup := fun i => i, namei_root := 1,
    safestrcpy := ex_strcpy }

/-- Memory before `kinit1`: nothing on the page free list, the heap not set up. -/
def ex_mem0 : memstate :=
  { mem := fun _ => 0, freelist := 0, base_p := 0, sbrk_addr := 0, freep := 0, first := true }

/-- Memory after `freerange` has freed `frames` frames above the kernel. -/
def ex_mem (frames : Nat) : memstate :=
  (freerange ex_lay ex_lay.kend (ex_lay.kend + frames * PGSIZE) ex_mem0).get_or ex_mem0

/-- The shared state after `userinit` on a machine with `frames` free frames. -/
def ex_init (frames : Nat) : kernel :=
  (userinit ex_cfg (boot (ex_mem frames))).get_or (boot (ex_mem frames))

/-- A slot with the given address, pid, state, tickets and pass value, its stride
being `LARGE / tickets`; the other fields are zero. -/
def ex_proc (addr : Nat) (pid : Int) (st : procstate) (tickets pass : Int) : proc :=
  { addr := addr, sz := 0, pgdir := 0, kstack := 0, state := st, pid := pid, parent := 0,
    tf := none, context := none, chan := 0, killed := 0, ofile := [], cwd := 0, name := [],
    stride_info :=
      { stride := Int.tdiv STRIDE_LARGE_NUMBER tickets, tickets := tickets, pass_value := pass } }

/-- The first half of the first scheduler iteration after `userinit`. -/
def ex_pick (frames : Nat) : proc × kernel :=
  (scheduler_pick (ex_init frames)).getD (ex_proc 0 0 UNUSED 1 0, ex_init frames)

/-- The CPU after the scheduler has dispatched the first process. -/
def ex_run (frames : Nat) : cpu :=
  { proc := some (ex_pick frames).1, k := (ex_pick frames).2 }

/-- The CPU after the first process has asked for 300 tickets. -/
def ex_caller (frames : Nat) : cpu :=
  (assign_tickets 300 (ex_run frames)).get_or (ex_run frames)

/-- The result of `fork` called by that process. -/
def ex_fork (frames : Nat) : Int × cpu :=
  (fork ex_cfg (ex_caller frames)).get_or (0, ex_caller frames)

/-- The CPU after the first process has called `assign_tickets(-5)`. -/
def ex_neg : cpu :=
  (assign_tickets (-5) (ex_run 14)).get_or (ex_run 14)

/-- Three RUNNABLE processes with 100, 200 and 300 tickets and pass value 0. -/
def ex_three : kernel :=
  { M := ex_mem0,
    queue := [ex_proc 1000 2 RUNNABLE 100 0, ex_proc 2000 3 RUNNABLE 200 0,
      ex_proc 3000 4 RUNNABLE 300 0],
    min_pass_value := 0, nextpid := 5, initproc := 0 }

/-- Three RUNNABLE processes with 100, 200 and 300 tickets and the pass value
`2^63 - 51`, which is 50 below the largest `long long`. -/
def ex_high : kernel :=
  { M := ex_mem0,
    queue := [ex_proc 1000 2 RUNNABLE 100 9223372036854775757,
      ex_proc 2000 3 RUNNABLE 200 9223372036854775757,
      ex_proc 3000 4 RUNNABLE 300 9223372036854775757],
    min_pass_value := 9223372036854775757, nextpid := 5, initproc := 0 }

/-- One RUNNABLE process with 100 tickets and pass value 0. -/
def ex_one : kernel :=
  { M := ex_mem0, queue := [ex_proc 1000 1 RUNNABLE 100 0],
    min_pass_value := 0, nextpid := 2, initproc := 1000 }

/-- The state after the process of `ex_one` ran one quantum and went to sleep on
channel 7. -/
def ex_asleep : kernel := scheduler_iter (sleep 7) ex_one

instance stride_ok_decidable (p : proc) : Decidable (stride_ok p) := by
  unfold stride_ok
  exact inferInstance

/-! ## Predicates on memory, for the statements about the two allocators -/

/-- The page free list that starts at `r` holds exactly the frames `L`, head first:
each frame's first word is the address of the next one, and the last one's is 0. -/
def is_free_list (m : Mem) : Nat → List Nat → Prop
  | r, [] => r = 0
  | r, f :: t => r = f ∧ f ≠ 0 ∧ is_free_list m (read32 m f) t

/-- The address passes the check of `kfree` (kalloc.c 62): page-aligned, not below
`end`, physical address below `PHYSTOP`. -/
def valid_frame (cfg : layout) (v : Nat) : Prop :=
  v % PGSIZE = 0 ∧ cfg.kend ≤ v ∧ V2P cfg v < cfg.PHYSTOP

instance valid_frame_decidable (cfg : layout) (v : Nat) : Decidable (valid_frame cfg v) := by
  unfold valid_frame
  exact inferInstance

/-! ## The rest of the process lifecycle: `exit` and `wait` -/

/-- Collaborators of `exit` and `wait` that the sources at hand use but do not
define: `freevm` (vm.c), `fileclose` (file.c) and `iput` between `begin_op`
and `end_op` (fs.c, log.c); each may use the page allocator. -/
structure collab where
  freevm : memstate → Nat → memstate
  fileclose : memstate → Nat → memstate
  iput : memstate → Nat → memstate

/-- The loop of `exit` that closes the open files (proc.c 403-410). -/
def exit_close (co : collab) : List Nat → memstate → memstate
  | [], M => M
  | f :: rest, M => exit_close co rest (if f ≠ 0 then co.fileclose M f else M)

/-- The loop of `exit` that passes the children to init (proc.c 427-436), from
position `i` of the list, `n` bounding the entries left. -/
def exit_loop (curproc : Nat) : Nat → Nat → kernel → kernel
  | 0, _, k => k
  | n + 1, i, k =>
    match k.queue[i]? with
    | none => k
    | some p =>
      if p.parent = curproc then
        let k1 := { k with queue := k.queue.set i { p with parent := k.initproc } }
        exit_loop curproc n (i + 1) (if p.state = ZOMBIE then wakeup1 k.initproc k1 else k1)
      else exit_loop curproc n (i + 1) k

/-- The function `exit` (proc.c 393-442) as a quantum, up to its call of `sched`:
the record of the caller and the shared state at the switch back. -/
def exit (co : collab) (curproc : proc) (k : kernel) : outcome (proc × kernel) :=
  if curproc.addr = k.initproc then outcome.fault
  else
    let M1 := exit_close co curproc.ofile k.M
    let p1 := { curproc with ofile := curproc.ofile.map fun _ => 0 }
    let M2 := co.iput M1 p1.cwd
    let p2 := { p1 with cwd := 0 }
    let k1 := wakeup1 p2.parent { k with M := M2 }
    let k2 := exit_loop p2.addr k1.queue.length 0 k1
    outcome.ret ({ p2 with state := ZOMBIE }, k2)

/-- The scan of `wait` (proc.c 458-486) from position `i`: the position and the
record of the first child found ZOMBIE, and the value of `havekids`. -/
def wait_scan (curproc : Nat) : List proc → Nat → Bool → Option (Nat × proc) × Bool
  | [], _, havekids => (none, havekids)
  | p :: rest, i, havekids =>
    if p.parent ≠ curproc then wait_scan curproc rest (i + 1) havekids
    else if p.state = ZOMBIE then (some (i, p), true)
    else wait_scan curproc rest (i + 1) true

/-- The slot of a reaped child as `wait` leaves it (proc.c 470-477), before it
is unlinked and given back to the heap. -/
def wait_reap (p : proc) : proc :=
  { p with kstack := 0, pid := 0, parent := 0, name := p.name.set 0 0, killed := 0,
           state := UNUSED }

/-- One pass of the loop of `wait` (proc.c 446-498).  The value is `some pid` or
`some (-1)` when `wait` returns, and `none` when the caller goes to sleep on its
own address (`sleep(curproc, &ptable.lock)`); woken, it starts the pass again. -/
def wait (cfg : config) (co : collab) (c : cpu) : outcome (Option Int × cpu) :=
  match c.proc with
  | none => outcome.fault
  | some curproc =>
    match wait_scan curproc.addr c.k.queue 0 false with
    | (some (i, p), _) =>
      (kfree cfg.lay p.kstack c.k.M).bind fun M1 =>
        let M2 := co.freevm M1 p.pgdir
        let p1 := wait_reap p
        (k_free p1.addr M2).bind fun M3 =>
          outcome.ret (some p.pid, { c with k := { c.k with M := M3, queue := c.k.queue.eraseIdx i } })
    | (none, havekids) =>
      if havekids = false ∨ curproc.killed ≠ 0 then outcome.ret (some (-1), c)
      else outcome.ret (none, { c with proc := some (sleep curproc.addr curproc c.k).1 })

/-- The slot that a call of `wait` by the current process reaps: the first child
of the list that its scan finds ZOMBIE (`none` when it finds none). -/
def wait_slot (c : cpu) : Option Nat :=
  match c.proc with
  | none => none
  | some curproc => (wait_scan curproc.addr c.k.queue 0 false).1.map fun x => x.2.addr

/-- The states of a CPU with the slots, by address, that have been allocated and
not reaped since: `userinit`, `allocproc`, `fork`, the two halves of a scheduler
iteration, `exit` followed by the switch back, and `wait`.  A call that links
slots adds their addresses; a `wait` that reaps a slot removes its address. -/
inductive life (cfg : config) (co : collab) (M0 : memstate) : cpu → List Nat → Prop
  | init (k1 : kernel) :
      userinit cfg (boot M0) = outcome.ret k1 →
      life cfg co M0 { proc := none, k := k1 } (k1.queue.map fun p => p.addr)
  | alloc (c : cpu) (live : List Nat) (r : Option proc × kernel) :
      life cfg co M0 c live → allocproc cfg c.k = outcome.ret r →
      life cfg co M0 { c with k := r.2 }
        (live ++ (r.2.queue.drop c.k.queue.length).map fun p => p.addr)
  | fork (c : cpu) (live : List Nat) (r : Int × cpu) :
      life cfg co M0 c live → fork cfg c = outcome.ret r →
      life cfg co M0 r.2 (live ++ (r.2.k.queue.drop c.k.queue.length).map fun p => p.addr)
  | pick (c : cpu) (live : List Nat) (p : proc) (k1 : kernel) :
      life cfg co M0 c live → c.proc = none → scheduler_pick c.k = some (p, k1) →
      life cfg co M0 { proc := some p, k := k1 } live
  | back (c : cpu) (live : List Nat) (p : proc) (st : procstate) (chan : Nat) :
      life cfg co M0 c live → c.proc = some p → st ≠ RUNNING →
      life cfg co M0
        { proc := none, k := scheduler_back { p with state := st, chan := chan } c.k } live
  | exit (c : cpu) (live : List Nat) (p : proc) (r : proc × kernel) :
      life cfg co M0 c live → c.proc = some p → exit co p c.k = outcome.ret r →
      life cfg co M0 { proc := none, k := scheduler_back r.1 r.2 } live
  | wait (c : cpu) (live : List Nat) (r : Option Int × cpu) :
      life cfg co M0 c live → wait cfg co c = outcome.ret r →
      life cfg co M0 r.2
        (match wait_slot c with
          | some a => live.erase a
          | none => live)

/-- Collaborators for the concrete machines: `freevm` gives the page directory
back to the page allocator, files and inodes use no memory. -/
def ex_co : collab :=
  { freevm := fun M pg => (kfree ex_lay pg M).get_or M, fileclose := fun M _ => M,
    iput := fun M _ => M }

/-- The shared state after another CPU has dispatched the child that the first
process forked. -/
def ex_other_cpu : proc × kernel :=
  (scheduler_pick (ex_fork 14).2.k).getD (ex_proc 0 0 UNUSED 1 0, (ex_fork 14).2.k)

/-! ## Predicates on the heap, for the statements about `k_malloc` and `k_free` -/

/-- The address of the first chunk of `l`, or `q` when `l` is empty. -/
def head_addr (l : List (Nat × Nat)) (q : Nat) : Nat :=
  match l with
  | [] => q
  | c :: _ => c.1

/-- The headers of the chunks `l` (address, size in units) are in memory as a
chain: each holds its size and points to the next chunk, the last one to `q`. -/
def chain (m : Mem) : List (Nat × Nat) → Nat → Prop
  | [], _ => True
  | c :: t, q => hdr_ptr m c.1 = head_addr t q ∧ hdr_size m c.1 = c.2 ∧ chain m t q

/-- Chunk `x` lies below chunk `y`, their headers do not overlap, and `x` does
not end where `y` starts (the two are not adjacent). -/
def apart (x y : Nat × Nat) : Prop := x.1 + 8 * x.2 < y.1 ∧ x.1 + 8 ≤ y.1

/-- The chunks `x` and `y` do not overlap. -/
def no_overlap (x y : Nat × Nat) : Prop := x.1 + 8 * x.2 ≤ y.1 ∨ y.1 + 8 * y.2 ≤ x.1

/-- The heap free list is well formed and holds the chunks `F` besides the anchor:
the anchor `base_p` (size 0) lies below the heap memory, which is the `N` units
from `sbrk_addr` on and does not reach the end of the address space;
`kmorecore` has been called; the headers of the anchor and of `F` form a cycle
through memory; the addresses increase along it, with no two chunks adjacent;
every chunk of `F` has at least one unit and lies in the heap memory; and
`freep` is on the cycle. -/
def free_inv (N : Nat) (M : memstate) (F : List (Nat × Nat)) : Prop :=
  0 < M.base_p ∧ M.base_p + 8 ≤ M.sbrk_addr ∧ M.sbrk_addr + 8 * N < 4294967296 ∧
  M.first = false ∧
  chain M.mem ((M.base_p, 0) :: F) M.base_p ∧
  List.Pairwise apart ((M.base_p, 0) :: F) ∧
  (∀ c ∈ F, 1 ≤ c.2 ∧ M.sbrk_addr ≤ c.1 ∧ c.1 + 8 * c.2 ≤ M.sbrk_addr + 8 * N) ∧
  M.freep ∈ ((M.base_p, 0) :: F).map Prod.fst

/-- The heap is well formed with free chunks `F` and with the chunks `A` handed
out: each chunk of `A` has its size in its header, at least one unit, lies in the
heap memory, and overlaps neither a free chunk nor another chunk of `A`. -/
def heap_inv (N : Nat) (M : memstate) (F A : List (Nat × Nat)) : Prop :=
  free_inv N M F ∧
  (∀ a ∈ A, hdr_size M.mem a.1 = a.2 ∧ 1 ≤ a.2 ∧ M.sbrk_addr ≤ a.1 ∧
    a.1 + 8 * a.2 ≤ M.sbrk_addr + 8 * N) ∧
  (∀ a ∈ A, ∀ c ∈ F, no_overlap c a) ∧ List.Pairwise no_overlap A

/-- The free list with chunk `x` linked in front of the chunks `l`: `x` absorbs
the first of them when it ends where that one starts (the tests of `k_free`,
kalloc.c 122 and 129). -/
def merge2 (x : Nat × Nat) (l : List (Nat × Nat)) : List (Nat × Nat) :=
  match l with
  | [] => [x]
  | y :: t => if x.1 + 8 * x.2 = y.1 then (x.1, x.2 + y.2) :: t else x :: y :: t

/-- The memory after one of the two linking steps of `k_free` (kalloc.c 122-128
and 129-135): the chunk at `x` absorbs the chunk at `nxt` when it ends there,
and points to it otherwise. -/
def link_to (m : Mem) (x nxt : Nat) : Mem :=
  if hdr_add x (hdr_size m x) = nxt then
    set_ptr (set_size m x (u32 (hdr_size m x + hdr_size m nxt))) x (hdr_ptr m nxt)
  else set_ptr m x nxt

/-- The number of units in the chunks `F`. -/
def units (F : List (Nat × Nat)) : Nat := (F.map fun c => c.2).sum

/-- The heap as the first-time initialisation of `k_malloc` and the one call of
`kmorecore` that succeeds leave it: the anchor and one free chunk of `N` units
at `sbrk_addr`, `freep` at the anchor. -/
def fresh_heap (N : Nat) (M : memstate) : Prop :=
  free_inv N M [(M.sbrk_addr, N)] ∧ M.freep = M.base_p

/-- The states of the heap reached from `M0` by calls of `k_malloc` and by calls of
`k_free` on pointers that `k_malloc` returned and that were not freed since; the
list holds these pointers. -/
inductive heap_reach (M0 : memstate) : memstate → List Nat → Prop
  | start : heap_reach M0 M0 []
  | malloc (M : memstate) (live : List Nat) (nbytes : Nat) (r : Nat × memstate) :
      heap_reach M0 M live → k_malloc nbytes M = outcome.ret r →
      heap_reach M0 r.2 (if r.1 = 0 then live else r.1 :: live)
  | free (M : memstate) (live : List Nat) (p : Nat) (M1 : memstate) :
      heap_reach M0 M live → p ∈ live → k_free p M = outcome.ret M1 →
      heap_reach M0 M1 (live.erase p)

instance chain_decidable (m : Mem) : (l : List (Nat × Nat)) → (q : Nat) → Decidable (chain m l q)
  | [], _ => isTrue trivial
  | c :: t, q =>
    have : Decidable (chain m t q) := chain_decidable m t q
    if h : hdr_ptr m c.1 = head_addr t q ∧ hdr_size m c.1 = c.2 ∧ chain m t q then isTrue h
    else isFalse h

instance apart_decidable (x y : Nat × Nat) : Decidable (apart x y) := by
  unfold apart
  exact inferInstance

instance no_overlap_decidable (x y : Nat × Nat) : Decidable (no_overlap x y) := by
  unfold no_overlap
  exact inferInstance

instance free_inv_decidable (N : Nat) (M : memstate) (F : List (Nat × Nat)) :
    Decidable (free_inv N M F) := by
  unfold free_inv
  exact inferInstance

instance fresh_heap_decidable (N : Nat) (M : memstate) : Decidable (fresh_heap N M) := by
  unfold fresh_heap
  exact inferInstance

instance heap_inv_decidable (N : Nat) (M : memstate) (F A : List (Nat × Nat)) :
    Decidable (heap_inv N M F A) := by
  unfold heap_inv
  exact inferInstance

/-- The heap of a machine with 14 free frames after the first-time initialisation
of `k_malloc` and the call of `kmorecore` for one unit. -/
def ex_fresh : memstate :=
  ((k_malloc_init (ex_mem 14)).bind fun M =>
    (kmorecore 1 M).bind fun r => outcome.ret r.2).get_or ex_mem0

/-- The heap of that machine after `userinit`: one slot of 20 units is handed out. -/
def ex_heap : memstate := (ex_init 14).M

/-- Successive calls of `wait` by the same process, as in the test (stride.c
56-69): the values returned, in order (`none` for a call that went to sleep). -/
def wait_n (cfg : config) (co : collab) : Nat → cpu → outcome (List (Option Int) × cpu)
  | 0, c => outcome.ret ([], c)
  | n + 1, c =>
    (wait cfg co c).bind fun r =>
      (wait_n cfg co n r.2).bind fun rs => outcome.ret (r.1 :: rs.1, rs.2)

/-- The page at `v` lies outside the memory of the heap: the header of the anchor
at `B` and the `N` units from `S` on. -/
def frame_outside (B S N v : Nat) : Prop :=
  (v + PGSIZE ≤ B ∨ B + 8 ≤ v) ∧ (v + PGSIZE ≤ S ∨ S + 8 * N ≤ v)

instance frame_outside_decidable (B S N v : Nat) : Decidable (frame_outside B S N v) := by
  unfold frame_outside
  exact inferInstance

/-- The state `M1` has the heap of `M`: the globals of the heap and the bytes of
its memory are the same. -/
def heap_same (N : Nat) (M M1 : memstate) : Prop :=
  M1.base_p = M.base_p ∧ M1.sbrk_addr = M.sbrk_addr ∧ M1.freep = M.freep ∧
  M1.first = M.first ∧
  ∀ x, (M.base_p ≤ x ∧ x < M.base_p + 8) ∨ (M.sbrk_addr ≤ x ∧ x < M.sbrk_addr + 8 * N) →
    M1.mem x = M.mem x

/-- The address `v` is page-aligned and below 2^32, and its page lies outside the
memory of the heap (the anchor at `B` and the `N` units from `S` on). -/
def page_ok (B S N v : Nat) : Prop :=
  v % PGSIZE = 0 ∧ v < 4294967296 ∧ frame_outside B S N v

instance page_ok_decidable (B S N v : Nat) : Decidable (page_ok B S N v) := by
  unfold page_ok
  exact inferInstance

/-- The page free list followed from `r` for `n` links: every frame on the way is
a page outside the memory of the heap. -/
def pages_safe (B S N : Nat) (m : Mem) : Nat → Nat → Prop
  | 0, _ => True
  | n + 1, r => r = 0 ∨ (page_ok B S N r ∧ pages_safe B S N m n (read32 m r))

/-- The page allocator keeps off the heap: every frame of the page free list,
however far the list is followed, is a page outside the memory of the heap, and
so is the page at address 0. -/
def pages_ok (B S N : Nat) (M : memstate) : Prop :=
  page_ok B S N 0 ∧ ∀ n, pages_safe B S N M.mem n M.freelist

/-- The state `M1` has the heap of `M`, and its page allocator keeps off the heap. -/
def keeps_heap (B S N : Nat) (M M1 : memstate) : Prop :=
  heap_same N M M1 ∧ pages_ok B S N M1

/-- What is assumed of the collaborators that manage address spaces, files and
inodes, on a state whose heap has the anchor at `B` and its memory at `S` and
whose page allocator keeps off the heap: they leave the heap as it is and keep
the page allocator off it, the page directories they are given being pages
outside the heap, and the page directories they return are such pages (or 0). -/
def collab_ok (cfg : config) (co : collab) (B S N : Nat) : Prop :=
  (∀ M, M.base_p = B → M.sbrk_addr = S → pages_ok B S N M →
    keeps_heap B S N M (cfg.setupkvm M).2 ∧ page_ok B S N (cfg.setupkvm M).1) ∧
  (∀ M pg sz, M.base_p = B → M.sbrk_addr = S → pages_ok B S N M → page_ok B S N pg →
    keeps_heap B S N M (cfg.copyuvm M pg sz).2 ∧ page_ok B S N (cfg.copyuvm M pg sz).1) ∧
  (∀ M pg, M.base_p = B → M.sbrk_addr = S → pages_ok B S N M → page_ok B S N pg →
    keeps_heap B S N M (cfg.inituvm M pg)) ∧
  (∀ M pg, M.base_p = B → M.sbrk_addr = S → pages_ok B S N M → page_ok B S N pg →
    keeps_heap B S N M (co.freevm M pg)) ∧
  (∀ M f, M.base_p = B → M.sbrk_addr = S → pages_ok B S N M →
    keeps_heap B S N M (co.fileclose M f)) ∧
  (∀ M i, M.base_p = B → M.sbrk_addr = S → pages_ok B S N M →
    keeps_heap B S N M (co.iput M i))

/-- The memory of a machine whose heap has the anchor at `B` and its memory at
`S`: the heap is well formed with the chunks `A` in use, and the page allocator
keeps off it. -/
def mem_inv (B S N : Nat) (M : memstate) (A : List (Nat × Nat)) : Prop :=
  (∃ F, heap_inv N M F A) ∧ M.base_p = B ∧ M.sbrk_addr = S ∧ pages_ok B S N M

/-- The kernel stack and the page directory of the slot are pages outside the
memory of the heap (or 0). -/
def slot_ok (B S N : Nat) (p : proc) : Prop :=
  page_ok B S N p.kstack ∧ page_ok B S N p.pgdir

/-- The invariant of the process lifecycle, `live` being the slots allocated and
not reaped: the invariant of memory holds, the chunks in use of the heap are,
up to order, the slots of `live`, these are, up to order, the slots of the list
together with the slot of the dispatched process, and the kernel stacks and page
directories of all of them are pages outside the memory of the heap (or 0). -/
def life_ok (B S N : Nat) (c : cpu) (live : List Nat) : Prop :=
  ∃ A, mem_inv B S N c.k.M A ∧ (A.map fun a => a.1 + 8).Perm live ∧
    (c.k.queue.map (fun p => p.addr) ++ c.proc.toList.map fun p => p.addr).Perm live ∧
    (∀ p ∈ c.k.queue, slot_ok B S N p) ∧ ∀ p, c.proc = some p → slot_ok B S N p

/-- The result of `fork` called by the first process right after its first
dispatch, on the machine with 14 free frames. -/
def ex_fork_run : Int × cpu := (fork ex_cfg (ex_run 14)).get_or (0, ex_run 14)

/-- The machine of `ex_fork` after the child (pid 2) has run on another CPU, has
called `exit` and is back in the list as a ZOMBIE; its parent (pid 1) is the
current process. -/
def ex_zombie : cpu :=
  let r := (exit ex_co ex_other_cpu.1 ex_other_cpu.2).get_or ex_other_cpu
  { proc := (ex_fork 14).2.proc, k := scheduler_back r.1 r.2 }

/-- The current process of `ex_zombie`, the parent (pid 1). -/
def ex_parent : proc := (ex_fork 14).2.proc.getD (ex_proc 0 0 UNUSED 1 0)

/-! ## Theorems -/

theorem remove_min_scan_none (l : List proc) (i : Nat) (m : Option (Nat × proc))
    (h : remove_min_scan l i m = none) : m = none ∧ ∀ q ∈ l, q.state ≠ RUNNABLE := by
  induction l generalizing i m with
  | nil => simpa [remove_min_scan] using h
  | cons t rest ih =>
    unfold remove_min_scan at h
    by_cases ht : t.state = RUNNABLE
    · simp only [ht, ne_eq, not_true_eq_false, if_false] at h
      cases m with
      | none =>
        have := (ih _ _ h).1
        simp at this
      | some jm =>
        obtain ⟨j, mp⟩ := jm
        simp only at h
        split at h
        · have := (ih _ _ h).1
          simp at this
        · have := (ih _ _ h).1
          simp at this
    · simp only [ne_eq, ht, not_false_eq_true, if_true] at h
      obtain ⟨h1, h2⟩ := ih _ _ h
      refine ⟨h1, ?_⟩
      intro q hq
      rcases List.mem_cons.mp hq with rfl | hq
      · exact ht
      · exact h2 q hq

theorem remove_min_scan_some (l : List proc) (i : Nat) (m : Option (Nat × proc)) (j : Nat)
    (p : proc) (h : remove_min_scan l i m = some (j, p)) :
    (m = some (j, p) ∧ ∀ q ∈ l, q.state = RUNNABLE →
        p.stride_info.pass_value ≤ q.stride_info.pass_value) ∨
    (∃ pre post, l = pre ++ p :: post ∧ j = i + pre.length ∧ p.state = RUNNABLE ∧
      (∀ q ∈ pre, q.state = RUNNABLE → p.stride_info.pass_value < q.stride_info.pass_value) ∧
      (∀ q ∈ post, q.state = RUNNABLE → p.stride_info.pass_value ≤ q.stride_info.pass_value) ∧
      (∀ j1 mp, m = some (j1, mp) → p.stride_info.pass_value < mp.stride_info.pass_value)) := by
  induction l generalizing i m with
  | nil =>
    left
    simp only [remove_min_scan] at h
    exact ⟨h, by simp⟩
  | cons t rest ih =>
    unfold remove_min_scan at h
    by_cases ht : t.state = RUNNABLE
    · simp only [ht, ne_eq, not_true_eq_false, if_false] at h
      cases m with
      | none =>
        simp only at h
        right
        rcases ih _ _ h with ⟨h1, h2⟩ | ⟨pre, post, h1, h2, h3, h4, h5, h6⟩
        · simp only [Option.some.injEq, Prod.mk.injEq] at h1
          obtain ⟨rfl, rfl⟩ := h1
          exact ⟨[], rest, rfl, by simp, ht, by simp, h2, by simp⟩
        · refine ⟨t :: pre, post, by simp [h1], by simp [h2]; omega, h3, ?_, h5, by simp⟩
          intro q hq hqs
          rcases List.mem_cons.mp hq with rfl | hq
          · exact h6 _ _ rfl
          · exact h4 q hq hqs
      | some jm =>
        obtain ⟨j0, mp⟩ := jm
        simp only at h
        split at h
        · rename_i hlt
          right
          rcases ih _ _ h with ⟨h1, h2⟩ | ⟨pre, post, h1, h2, h3, h4, h5, h6⟩
          · simp only [Option.some.injEq, Prod.mk.injEq] at h1
            obtain ⟨rfl, rfl⟩ := h1
            refine ⟨[], rest, rfl, by simp, ht, by simp, h2, ?_⟩
            intro j1 mp1 hm
            simp only [Option.some.injEq, Prod.mk.injEq] at hm
            obtain ⟨_, rfl⟩ := hm
            exact hlt
          · refine ⟨t :: pre, post, by simp [h1], by simp [h2]; omega, h3, ?_, h5, ?_⟩
            · intro q hq hqs
              rcases List.mem_cons.mp hq with rfl | hq
              · exact h6 _ _ rfl
              · exact h4 q hq hqs
            · intro j1 mp1 hm
              simp only [Option.some.injEq, Prod.mk.injEq] at hm
              obtain ⟨_, rfl⟩ := hm
              have := h6 _ _ rfl
              omega
        · rename_i hge
          rcases ih _ _ h with ⟨h1, h2⟩ | ⟨pre, post, h1, h2, h3, h4, h5, h6⟩
          · left
            simp only [Option.some.injEq, Prod.mk.injEq] at h1
            obtain ⟨rfl, rfl⟩ := h1
            refine ⟨rfl, ?_⟩
            intro q hq hqs
            rcases List.mem_cons.mp hq with rfl | hq
            · omega
            · exact h2 q hq hqs
          · right
            refine ⟨t :: pre, post, by simp [h1], by simp [h2]; omega, h3, ?_, h5, ?_⟩
            · intro q hq hqs
              rcases List.mem_cons.mp hq with rfl | hq
              · have := h6 _ _ rfl
                omega
              · exact h4 q hq hqs
            · intro j1 mp1 hm
              simp only [Option.some.injEq, Prod.mk.injEq] at hm
              obtain ⟨_, rfl⟩ := hm
              exact h6 _ _ rfl
    · simp only [ne_eq, ht, not_false_eq_true, if_true] at h
      rcases ih _ _ h with ⟨h1, h2⟩ | ⟨pre, post, h1, h2, h3, h4, h5, h6⟩
      · left
        refine ⟨h1, ?_⟩
        intro q hq hqs
        rcases List.mem_cons.mp hq with rfl | hq
        · exact absurd hqs ht
        · exact h2 q hq hqs
      · right
        refine ⟨t :: pre, post, by simp [h1], by simp [h2]; omega, h3, ?_, h5, h6⟩
        intro q hq hqs
        rcases List.mem_cons.mp hq with rfl | hq
        · exact absurd hqs ht
        · exact h4 q hq hqs

/-- What `remove_min` does, in one statement: with no RUNNABLE entry it returns
`NULL` and leaves the list; otherwise it splits the list at the entry it returns. -/
theorem remove_min_split (l : List proc) :
    ((∀ q ∈ l, q.state ≠ RUNNABLE) ∧ remove_min l = (none, l)) ∨
    (∃ pre p post, l = pre ++ p :: post ∧ remove_min l = (some p, pre ++ post) ∧
      p.state = RUNNABLE ∧
      (∀ q ∈ pre, q.state = RUNNABLE → p.stride_info.pass_value < q.stride_info.pass_value) ∧
      (∀ q ∈ post, q.state = RUNNABLE →
        p.stride_info.pass_value ≤ q.stride_info.pass_value)) := by
  cases hs : remove_min_scan l 0 none with
  | none =>
    left
    exact ⟨(remove_min_scan_none l 0 none hs).2, by simp [remove_min, hs]⟩
  | some jp =>
    obtain ⟨j, p⟩ := jp
    right
    rcases remove_min_scan_some l 0 none j p hs with ⟨h1, _⟩ | ⟨pre, post, h1, h2, h3, h4, h5, _⟩
    · simp at h1
    · refine ⟨pre, p, post, h1, ?_, h3, h4, h5⟩
      simp only [remove_min, hs, Prod.mk.injEq, true_and]
      subst h1
      simp only [zero_add] at h2
      subst h2
      simp [List.eraseIdx_append_of_length_le]

/-- The result of the loop of `update_min_pass_value` once an entry has been seen. -/
theorem min_pass_scan_false (l : List proc) (m : Int) :
    min_pass_scan l false m ≤ m ∧
    (∀ q ∈ l, q.state = RUNNABLE → min_pass_scan l false m ≤ q.stride_info.pass_value) ∧
    (min_pass_scan l false m = m ∨
      ∃ q ∈ l, q.state = RUNNABLE ∧ q.stride_info.pass_value = min_pass_scan l false m) := by
  induction l generalizing m with
  | nil => simp [min_pass_scan]
  | cons t rest ih =>
    unfold min_pass_scan
    by_cases ht : t.state = RUNNABLE
    · simp only [ht, ne_eq, not_true_eq_false, if_false, Bool.false_eq_true]
      split
      · rename_i hlt
        obtain ⟨h1, h2, h3⟩ := ih t.stride_info.pass_value
        refine ⟨by omega, ?_, ?_⟩
        · intro q hq hqs
          rcases List.mem_cons.mp hq with rfl | hq
          · exact h1
          · exact h2 q hq hqs
        · right
          rcases h3 with h3 | ⟨q, hq, hqs, hqv⟩
          · exact ⟨t, List.mem_cons_self _ _, ht, h3.symm⟩
          · exact ⟨q, List.mem_cons_of_mem _ hq, hqs, hqv⟩
      · rename_i hge
        obtain ⟨h1, h2, h3⟩ := ih m
        refine ⟨h1, ?_, ?_⟩
        · intro q hq hqs
          rcases List.mem_cons.mp hq with rfl | hq
          · omega
          · exact h2 q hq hqs
        · rcases h3 with h3 | ⟨q, hq, hqs, hqv⟩
          · exact Or.inl h3
          · exact Or.inr ⟨q, List.mem_cons_of_mem _ hq, hqs, hqv⟩
    · simp only [ne_eq, ht, not_false_eq_true, if_true]
      obtain ⟨h1, h2, h3⟩ := ih m
      refine ⟨h1, ?_, ?_⟩
      · intro q hq hqs
        rcases List.mem_cons.mp hq with rfl | hq
        · exact absurd hqs ht
        · exact h2 q hq hqs
      · rcases h3 with h3 | ⟨q, hq, hqs, hqv⟩
        · exact Or.inl h3
        · exact Or.inr ⟨q, List.mem_cons_of_mem _ hq, hqs, hqv⟩

/-- The result of the loop of `update_min_pass_value` from its start. -/
theorem min_pass_scan_true (l : List proc) (v : Int) :
    ((∀ q ∈ l, q.state ≠ RUNNABLE) ∧ min_pass_scan l true v = v) ∨
    ((∃ q ∈ l, q.state = RUNNABLE ∧ q.stride_info.pass_value = min_pass_scan l true v) ∧
      ∀ q ∈ l, q.state = RUNNABLE → min_pass_scan l true v ≤ q.stride_info.pass_value) := by
  induction l with
  | nil => simp [min_pass_scan]
  | cons t rest ih =>
    unfold min_pass_scan
    by_cases ht : t.state = RUNNABLE
    · simp only [ht, ne_eq, not_true_eq_false, if_false, if_true]
      right
      obtain ⟨h1, h2, h3⟩ := min_pass_scan_false rest t.stride_info.pass_value
      refine ⟨?_, ?_⟩
      · rcases h3 with h3 | ⟨q, hq, hqs, hqv⟩
        · exact ⟨t, List.mem_cons_self _ _, ht, h3.symm⟩
        · exact ⟨q, List.mem_cons_of_mem _ hq, hqs, hqv⟩
      · intro q hq hqs
        rcases List.mem_cons.mp hq with rfl | hq
        · exact h1
        · exact h2 q hq hqs
    · simp only [ne_eq, ht, not_false_eq_true, if_true]
      rcases ih with ⟨h1, h2⟩ | ⟨⟨q, hq, hqs, hqv⟩, h2⟩
      · left
        refine ⟨?_, h2⟩
        intro q hq
        rcases List.mem_cons.mp hq with rfl | hq
        · exact ht
        · exact h1 q hq
      · right
        refine ⟨⟨q, List.mem_cons_of_mem _ hq, hqs, hqv⟩, ?_⟩
        intro q hq hqs
        rcases List.mem_cons.mp hq with rfl | hq
        · exact absurd hqs ht
        · exact h2 q hq hqs

/-- After `update_min_pass_value` the floor is below every RUNNABLE entry. -/
theorem update_min_pass_value_le (k : kernel) :
    ∀ q ∈ (update_min_pass_value k).queue, q.state = RUNNABLE →
      (update_min_pass_value k).min_pass_value ≤ q.stride_info.pass_value := by
  intro q hq hqs
  simp only [update_min_pass_value] at hq ⊢
  rcases min_pass_scan_true k.queue 0 with ⟨h1, _⟩ | ⟨_, h2⟩
  · exact absurd hqs (h1 q hq)
  · exact h2 q hq hqs

/-- C1: `remove_min` returns `NULL` exactly when the list has no RUNNABLE process;
otherwise the process it returns is RUNNABLE, every RUNNABLE process before it in
the list has a strictly larger pass value and every RUNNABLE process after it
has a pass value at least as large: it is the first, in traversal order, of the
RUNNABLE processes of minimal pass value. -/
theorem C1_remove_min_selects (l : List proc) :
    ((remove_min l).1 = none ↔ ∀ q ∈ l, q.state ≠ RUNNABLE) ∧
    ∀ p, (remove_min l).1 = some p →
      p.state = RUNNABLE ∧
      ∃ pre post, l = pre ++ p :: post ∧
        (∀ q ∈ pre, q.state = RUNNABLE →
          p.stride_info.pass_value < q.stride_info.pass_value) ∧
        (∀ q ∈ post, q.state = RUNNABLE →
          p.stride_info.pass_value ≤ q.stride_info.pass_value) := by
  rcases remove_min_split l with ⟨h1, h2⟩ | ⟨pre, p, post, h1, h2, h3, h4, h5⟩
  · refine ⟨⟨fun _ => h1, fun _ => by rw [h2]⟩, ?_⟩
    intro p hp
    rw [h2] at hp
    simp at hp
  · refine ⟨⟨?_, ?_⟩, ?_⟩
    · intro h
      rw [h2] at h
      simp at h
    · intro h
      exact absurd h3 (h p (by simp [h1]))
    · intro p1 hp
      rw [h2] at hp
      simp only [Option.some.injEq] at hp
      subst hp
      exact ⟨h3, pre, post, h1, h4, h5⟩

/-- C3: `remove_min` changes the list only by unlinking the process it returns.
When it returns `NULL` the list is as before; when it returns `p`, the list was
`pre ++ p :: post`, with `p` at the selected position (no RUNNABLE entry of
`pre` has a pass value as small), and the list after is `pre ++ post`: the
other entries, in their order, with every field as before. -/
theorem C3_remove_min_unlinks (l : List proc) :
    ((remove_min l).1 = none → (remove_min l).2 = l) ∧
    ∀ p, (remove_min l).1 = some p →
      ∃ pre post, l = pre ++ p :: post ∧ (remove_min l).2 = pre ++ post ∧
        ∀ q ∈ pre, q.state = RUNNABLE →
          p.stride_info.pass_value < q.stride_info.pass_value := by
  rcases remove_min_split l with ⟨_, h2⟩ | ⟨pre, p, post, h1, h2, _, h4, _⟩
  · refine ⟨fun _ => by rw [h2], ?_⟩
    intro p hp
    rw [h2] at hp
    simp at hp
  · refine ⟨?_, ?_⟩
    · intro h
      rw [h2] at h
      simp at h
    · intro p1 hp
      rw [h2] at hp
      simp only [Option.some.injEq] at hp
      subst hp
      exact ⟨pre, post, h1, by rw [h2], h4⟩

/-- C4: `update_min_pass_value` writes `ptable.min_pass_value` and nothing else;
the value written is 0 when the list has no RUNNABLE process, and otherwise it
is the pass value of a RUNNABLE process of the list and is at most the pass
value of every RUNNABLE process of the list. -/
theorem C4_update_min_pass_value (k : kernel) :
    update_min_pass_value k =
      { k with min_pass_value := (update_min_pass_value k).min_pass_value } ∧
    ((∀ q ∈ k.queue, q.state ≠ RUNNABLE) → (update_min_pass_value k).min_pass_value = 0) ∧
    ((∃ q ∈ k.queue, q.state = RUNNABLE) →
      (∃ q ∈ k.queue, q.state = RUNNABLE ∧
        q.stride_info.pass_value = (update_min_pass_value k).min_pass_value) ∧
      ∀ q ∈ k.queue, q.state = RUNNABLE →
        (update_min_pass_value k).min_pass_value ≤ q.stride_info.pass_value) := by
  refine ⟨rfl, ?_, ?_⟩
  · intro h
    simp only [update_min_pass_value]
    rcases min_pass_scan_true k.queue 0 with ⟨_, h2⟩ | ⟨⟨q, hq, hqs, _⟩, _⟩
    · exact h2
    · exact absurd hqs (h q hq)
  · rintro ⟨q, hq, hqs⟩
    simp only [update_min_pass_value]
    rcases min_pass_scan_true k.queue 0 with ⟨h1, _⟩ | h
    · exact absurd hqs (h1 q hq)
    · exact h

/-- C5: after an iteration of the scheduler loop, whatever the quantum `run` did
to the dispatched process and to the table, and also when nothing was
dispatched, `ptable.min_pass_value` is at most the pass value of every RUNNABLE
process of the list. -/
theorem C5_min_pass_value_floor (run : proc → kernel → proc × kernel) (k : kernel) :
    ∀ p ∈ (scheduler_iter run k).queue, p.state = RUNNABLE →
      (scheduler_iter run k).min_pass_value ≤ p.stride_info.pass_value := by
  intro p hp hps
  unfold scheduler_iter at hp ⊢
  cases hpick : scheduler_pick k with
  | none =>
    rw [hpick] at hp
    simp only at hp ⊢
    unfold scheduler_pick at hpick
    rcases remove_min_split k.queue with ⟨h1, _⟩ | ⟨pre, p0, post, _, h2, _⟩
    · exact absurd hps (h1 p hp)
    · rw [h2] at hpick
      simp at hpick
  | some r =>
    obtain ⟨p0, k1⟩ := r
    rw [hpick] at hp
    simp only at hp ⊢
    exact update_min_pass_value_le _ p hp hps

/-- A dispatched RUNNABLE process that yields has its record back. -/
theorem yield_running (p : proc) (h : p.state = RUNNABLE) :
    ({ ({ p with state := RUNNING } : proc) with state := RUNNABLE } : proc) = p := by
  cases p
  simp_all

/-- One iteration of the scheduler loop when every process is RUNNABLE and every
quantum ends in `yield`: the first process of minimal pass value is moved to
the tail with its pass value advanced by its stride. -/
theorem scheduler_iter_yield (k : kernel) (hall : ∀ q ∈ k.queue, q.state = RUNNABLE) :
    (k.queue = [] ∧ scheduler_iter yield k = k ∧ scheduler_pick k = none) ∨
    ∃ pre p post, k.queue = pre ++ p :: post ∧
      (∀ q ∈ k.queue, p.stride_info.pass_value ≤ q.stride_info.pass_value) ∧
      (scheduler_iter yield k).queue = pre ++ post ++ [update_pass_value p] ∧
      ∃ k1, scheduler_pick k = some ({ p with state := RUNNING }, k1) := by
  rcases remove_min_split k.queue with ⟨h1, h2⟩ | ⟨pre, p, post, h1, h2, h3, h4, h5⟩
  · left
    have hnil : k.queue = [] := by
      cases hq : k.queue with
      | nil => rfl
      | cons a l =>
        exact absurd (hall a (by simp [hq])) (h1 a (by simp [hq]))
    refine ⟨hnil, ?_, ?_⟩
    · simp [scheduler_iter, scheduler_pick, h2]
    · simp [scheduler_pick, h2]
  · right
    refine ⟨pre, p, post, h1, ?_, ?_, ⟨_, by simp [scheduler_pick, h2]; rfl⟩⟩
    · intro q hq
      rw [h1] at hq
      have hqs := hall q (by rw [h1]; exact hq)
      rcases List.mem_append.mp hq with hq | hq
      · exact le_of_lt (h4 q hq hqs)
      · rcases List.mem_cons.mp hq with rfl | hq
        · exact le_refl _
        · exact h5 q hq hqs
    · simp only [scheduler_iter, scheduler_pick, h2, scheduler_back, update_min_pass_value,
        insert, yield]
      rw [yield_running p h3]

theorem update_pass_value_fields (p : proc) :
    (update_pass_value p).addr = p.addr ∧ (update_pass_value p).state = p.state ∧
    (update_pass_value p).stride_info.tickets = p.stride_info.tickets ∧
    (update_pass_value p).stride_info.stride = p.stride_info.stride ∧
    (update_pass_value p).stride_info.pass_value =
      wrap64 (p.stride_info.pass_value + p.stride_info.stride) := by
  simp [update_pass_value]

/-- A value in the range of `long long` is stored as it is. -/
theorem wrap64_eq (x : Int) (h1 : -9223372036854775808 ≤ x) (h2 : x ≤ 9223372036854775807) :
    wrap64 x = x := by
  unfold wrap64
  omega

/-- A value in the range of `int` is stored as it is. -/
theorem wrap32_eq (x : Int) (h1 : -2147483648 ≤ x) (h2 : x ≤ 2147483647) :
    wrap32 x = x := by
  unfold wrap32
  omega

/-- The invariant of stride scheduling, carried along `n` iterations of the loop
with `yield` quanta; `c` counts the quanta each process had before. -/
theorem fair_loop (n : Nat) : ∀ (k : kernel) (c : Nat → Nat) (v0 lo hi : Int),
    -9223372036854775808 ≤ lo → hi + 10000 * (n : Int) ≤ 9223372036854775807 →
    (∀ q ∈ k.queue, lo ≤ q.stride_info.pass_value ∧ q.stride_info.pass_value ≤ hi) →
    (∀ q ∈ k.queue, q.state = RUNNABLE) →
    (∀ q ∈ k.queue, 0 ≤ q.stride_info.stride ∧ q.stride_info.stride ≤ 10000) →
    (∀ p ∈ k.queue, ∀ q ∈ k.queue,
      p.stride_info.pass_value ≤ q.stride_info.pass_value + p.stride_info.stride) →
    (∀ p ∈ k.queue, p.stride_info.pass_value = v0 + (c p.addr : Int) * p.stride_info.stride) →
    (k.queue.map fun p => p.addr).Nodup →
    (∀ p ∈ (scheduler_loop yield n k).queue, ∀ q ∈ (scheduler_loop yield n k).queue,
      p.stride_info.pass_value ≤ q.stride_info.pass_value + p.stride_info.stride) ∧
    (∀ p ∈ (scheduler_loop yield n k).queue,
      p.stride_info.pass_value =
        v0 + ((c p.addr + (scheduler_trace yield n k).count p.addr : Nat) : Int)
          * p.stride_info.stride) ∧
    ((scheduler_loop yield n k).queue.map
        fun p => (p.addr, p.state, p.stride_info.tickets, p.stride_info.stride)).Perm
      (k.queue.map fun p => (p.addr, p.state, p.stride_info.tickets, p.stride_info.stride)) := by
  induction n with
  | zero =>
    intro k c v0 lo hi _ _ _ _ _ h3 h4 _
    refine ⟨h3, ?_, List.Perm.refl _⟩
    intro p hp
    simpa [scheduler_trace] using h4 p hp
  | succ n ih =>
    intro k c v0 lo hi hlo hhi hb h1 h2 h3 h4 h5
    have hhi2 : hi + 10000 * (n : Int) ≤ 9223372036854775807 := by
      push_cast at hhi
      omega
    rcases scheduler_iter_yield k h1 with ⟨_, hit, hpk⟩ | ⟨pre, p, post, hq, hmin, hnew, k1, hpk⟩
    · simp only [scheduler_loop, scheduler_trace, hpk, hit]
      exact ih k c v0 lo hi hlo hhi2 hb h1 h2 h3 h4 h5
    · obtain ⟨fa, fs, ft, fst, fp0⟩ := update_pass_value_fields p
      have hold : ∀ q, q ∈ k.queue ↔ (q ∈ pre ∨ q ∈ post) ∨ q = p := by
        intro q
        rw [hq]
        simp only [List.mem_append, List.mem_cons]
        tauto
      have hnewm : ∀ q, q ∈ (scheduler_iter yield k).queue ↔
          (q ∈ pre ∨ q ∈ post) ∨ q = update_pass_value p := by
        intro q
        rw [hnew]
        simp only [List.mem_append, List.mem_singleton]
      have hpin : p ∈ k.queue := (hold p).2 (Or.inr rfl)
      have hsp : 0 ≤ p.stride_info.stride := (h2 p hpin).1
      have hsp2 : p.stride_info.stride ≤ 10000 := (h2 p hpin).2
      have hbp := hb p hpin
      have fp : (update_pass_value p).stride_info.pass_value =
          p.stride_info.pass_value + p.stride_info.stride := by
        rw [fp0]
        apply wrap64_eq
        · omega
        · push_cast at hhi
          omega
      have HB : ∀ q ∈ (scheduler_iter yield k).queue,
          lo ≤ q.stride_info.pass_value ∧ q.stride_info.pass_value ≤ hi + 10000 := by
        intro q hqm
        rcases (hnewm q).1 hqm with h | rfl
        · have := hb q ((hold q).2 (Or.inl h))
          omega
        · rw [fp]
          omega
      have hperm : (k.queue).Perm (p :: (pre ++ post)) := by
        rw [hq]
        exact List.perm_middle
      have hnd : (p.addr :: (pre ++ post).map fun p => p.addr).Nodup := by
        have := (hperm.map fun p => p.addr).nodup_iff.mp h5
        simpa using this
      have hne : ∀ q, q ∈ pre ∨ q ∈ post → q.addr ≠ p.addr := by
        intro q hqm heq
        have h := (List.nodup_cons.mp hnd).1
        apply h
        rw [← heq]
        exact List.mem_map_of_mem _ (by simpa using hqm)
      have H1 : ∀ q ∈ (scheduler_iter yield k).queue, q.state = RUNNABLE := by
        intro q hqm
        rcases (hnewm q).1 hqm with h | rfl
        · exact h1 q ((hold q).2 (Or.inl h))
        · rw [fs]
          exact h1 p hpin
      have H2 : ∀ q ∈ (scheduler_iter yield k).queue,
          0 ≤ q.stride_info.stride ∧ q.stride_info.stride ≤ 10000 := by
        intro q hqm
        rcases (hnewm q).1 hqm with h | rfl
        · exact h2 q ((hold q).2 (Or.inl h))
        · rw [fst]
          exact ⟨hsp, hsp2⟩
      have H3 : ∀ a ∈ (scheduler_iter yield k).queue, ∀ b ∈ (scheduler_iter yield k).queue,
          a.stride_info.pass_value ≤ b.stride_info.pass_value + a.stride_info.stride := by
        intro a ha b hb
        rcases (hnewm a).1 ha with ha | rfl
        · have ha1 := (hold a).2 (Or.inl ha)
          rcases (hnewm b).1 hb with hb | rfl
          · exact h3 a ha1 b ((hold b).2 (Or.inl hb))
          · have := h3 a ha1 p hpin
            rw [fp]
            omega
        · rcases (hnewm b).1 hb with hb | rfl
          · have := hmin b ((hold b).2 (Or.inl hb))
            rw [fp, fst]
            omega
          · rw [fst]
            omega
      have H4 : ∀ q ∈ (scheduler_iter yield k).queue, q.stride_info.pass_value =
          v0 + ((c q.addr + (if q.addr = p.addr then 1 else 0) : Nat) : Int)
            * q.stride_info.stride := by
        intro q hqm
        rcases (hnewm q).1 hqm with h | rfl
        · rw [if_neg (hne q h)]
          exact h4 q ((hold q).2 (Or.inl h))
        · rw [fp, fst, fa, if_pos rfl, h4 p hpin]
          push_cast
          ring
      have hperm2 : ((scheduler_iter yield k).queue).Perm (update_pass_value p :: (pre ++ post)) := by
        rw [hnew]
        exact List.perm_append_singleton _ _
      have H5 : ((scheduler_iter yield k).queue.map fun p => p.addr).Nodup := by
        refine (hperm2.map fun p => p.addr).nodup_iff.mpr ?_
        simpa [fa] using hnd
      obtain ⟨r1, r2, r3⟩ := ih (scheduler_iter yield k)
        (fun a => c a + (if a = p.addr then 1 else 0)) v0 lo (hi + 10000) hlo
        (by push_cast at hhi; omega) HB H1 H2 H3 H4 H5
      simp only [scheduler_loop, scheduler_trace, hpk]
      refine ⟨r1, ?_, ?_⟩
      · intro q hqm
        rw [r2 q hqm]
        congr 2
        by_cases hqa : q.addr = p.addr
        · simp [hqa]
          omega
        · have : p.addr ≠ q.addr := fun h => hqa h.symm
          simp [hqa, List.count_cons, this]
      · refine r3.trans ?_
        refine ((hperm2.map _).trans ?_).trans (hperm.map _).symm
        simp [fa, fs, ft, fst]

/-- The stride of a process with at least one ticket: the truncated quotient
`LARGE / tickets`. -/
theorem stride_bounds (t : Int) (ht : 1 ≤ t) :
    0 ≤ Int.tdiv STRIDE_LARGE_NUMBER t ∧
    Int.tdiv STRIDE_LARGE_NUMBER t * t ≤ 10000 ∧
    10000 < (Int.tdiv STRIDE_LARGE_NUMBER t + 1) * t := by
  have h0 : (0 : Int) ≤ 10000 := by norm_num
  have e : Int.tdiv STRIDE_LARGE_NUMBER t = 10000 / t := by
    unfold STRIDE_LARGE_NUMBER
    exact Int.tdiv_eq_ediv h0 (by omega)
  rw [e]
  exact ⟨Int.ediv_nonneg h0 (by omega), Int.ediv_mul_le _ (by omega),
    Int.lt_ediv_add_one_mul_self _ (by omega)⟩

/-- C2 (amended): stride fairness on one CPU, as long as no pass value leaves the
range of `long long`.  The processes of the list are all RUNNABLE, have distinct
slots, at least one ticket and `stride = LARGE / tickets`, and start with the
same pass value `v0`, which is in the range of `long long`; every quantum ends
in `yield`; and `v0 + 10000 * n` is at most `2^63 - 1`.  After `n` scheduler
iterations: the set of processes is the same; the pass value of a process is
`v0` plus its stride times the number of quanta it had; the pass value of every
process is at most the pass value of any other plus its own stride (so at most
the minimum plus its stride); for two processes the products quanta times
stride differ by at most the larger stride; and a process with at least as many
tickets as another (whose tickets are at most `LARGE`) is never more than one
quantum behind it. -/
theorem C2_stride_fairness (k : kernel) (v0 : Int) (n : Nat)
    (hlo : -9223372036854775808 ≤ v0) (hhi : v0 + 10000 * (n : Int) ≤ 9223372036854775807)
    (hrun : ∀ q ∈ k.queue, q.state = RUNNABLE)
    (hok : ∀ q ∈ k.queue, stride_ok q)
    (hv : ∀ q ∈ k.queue, q.stride_info.pass_value = v0)
    (hnd : (k.queue.map fun p => p.addr).Nodup) :
    ((scheduler_loop yield n k).queue.map
        fun p => (p.addr, p.state, p.stride_info.tickets, p.stride_info.stride)).Perm
      (k.queue.map fun p => (p.addr, p.state, p.stride_info.tickets, p.stride_info.stride)) ∧
    (∀ p ∈ (scheduler_loop yield n k).queue,
      p.stride_info.pass_value =
        v0 + ((scheduler_trace yield n k).count p.addr : Int) * p.stride_info.stride) ∧
    (∀ p ∈ (scheduler_loop yield n k).queue, ∀ q ∈ (scheduler_loop yield n k).queue,
      p.stride_info.pass_value ≤ q.stride_info.pass_value + p.stride_info.stride) ∧
    (∀ p ∈ (scheduler_loop yield n k).queue, ∀ q ∈ (scheduler_loop yield n k).queue,
      |((scheduler_trace yield n k).count p.addr : Int) * p.stride_info.stride
        - ((scheduler_trace yield n k).count q.addr : Int) * q.stride_info.stride|
        ≤ max p.stride_info.stride q.stride_info.stride) ∧
    (∀ p ∈ (scheduler_loop yield n k).queue, ∀ q ∈ (scheduler_loop yield n k).queue,
      q.stride_info.tickets ≤ p.stride_info.tickets → q.stride_info.tickets ≤ 10000 →
      (scheduler_trace yield n k).count q.addr ≤ (scheduler_trace yield n k).count p.addr + 1) := by
  have h2 : ∀ q ∈ k.queue, 0 ≤ q.stride_info.stride ∧ q.stride_info.stride ≤ 10000 := by
    intro q hq
    obtain ⟨e, ht⟩ := hok q hq
    rw [e]
    obtain ⟨b1, b2, _⟩ := stride_bounds _ ht
    refine ⟨b1, ?_⟩
    have e1 : Int.tdiv STRIDE_LARGE_NUMBER q.stride_info.tickets * 1 ≤
        Int.tdiv STRIDE_LARGE_NUMBER q.stride_info.tickets * q.stride_info.tickets :=
      mul_le_mul_of_nonneg_left ht b1
    omega
  have h3 : ∀ p ∈ k.queue, ∀ q ∈ k.queue,
      p.stride_info.pass_value ≤ q.stride_info.pass_value + p.stride_info.stride := by
    intro p hp q hq
    have := (h2 p hp).1
    rw [hv p hp, hv q hq]
    omega
  have hb : ∀ q ∈ k.queue, v0 ≤ q.stride_info.pass_value ∧ q.stride_info.pass_value ≤ v0 := by
    intro q hq
    rw [hv q hq]
    exact ⟨le_refl _, le_refl _⟩
  have h4 : ∀ p ∈ k.queue,
      p.stride_info.pass_value = v0 + (((fun _ => 0) p.addr : Nat) : Int) * p.stride_info.stride := by
    intro p hp
    simp [hv p hp]
  obtain ⟨r1, r2, r3⟩ := fair_loop n k (fun _ => 0) v0 v0 v0 hlo hhi hb hrun h2 h3 h4 hnd
  have r2a : ∀ p ∈ (scheduler_loop yield n k).queue,
      p.stride_info.pass_value =
        v0 + ((scheduler_trace yield n k).count p.addr : Int) * p.stride_info.stride := by
    intro p hp
    simpa using r2 p hp
  have hok2 : ∀ p ∈ (scheduler_loop yield n k).queue, stride_ok p := by
    intro p hp
    have hm : (p.addr, p.state, p.stride_info.tickets, p.stride_info.stride) ∈
        (k.queue.map fun p => (p.addr, p.state, p.stride_info.tickets, p.stride_info.stride)) :=
      r3.subset (List.mem_map_of_mem _ hp)
    obtain ⟨q, hq, he⟩ := List.mem_map.mp hm
    simp only [Prod.mk.injEq] at he
    obtain ⟨_, _, e1, e2⟩ := he
    have := hok q hq
    unfold stride_ok at this ⊢
    rw [e1, e2] at this
    exact this
  refine ⟨r3, r2a, r1, ?_, ?_⟩
  · intro p hp q hq
    have a1 := r1 p hp q hq
    have a2 := r1 q hq p hp
    rw [r2a p hp, r2a q hq] at a1 a2
    rw [abs_le]
    constructor
    · have := le_max_right p.stride_info.stride q.stride_info.stride
      omega
    · have := le_max_left p.stride_info.stride q.stride_info.stride
      omega
  · intro p hp q hq hle h10
    obtain ⟨ep, tp⟩ := hok2 p hp
    obtain ⟨eq, tq⟩ := hok2 q hq
    obtain ⟨sp0, sp1, _⟩ := stride_bounds _ tp
    obtain ⟨sq0, _, sq2⟩ := stride_bounds _ tq
    rw [← ep] at sp0 sp1
    rw [← eq] at sq0 sq2
    have hsq : 1 ≤ q.stride_info.stride := by
      by_contra hc
      have : q.stride_info.stride = 0 := by omega
      rw [this] at sq2
      omega
    have hspq : p.stride_info.stride ≤ q.stride_info.stride := by
      by_contra hc
      have h1 : q.stride_info.stride + 1 ≤ p.stride_info.stride := by omega
      have h2 : (q.stride_info.stride + 1) * q.stride_info.tickets ≤
          p.stride_info.stride * p.stride_info.tickets :=
        mul_le_mul h1 hle (by omega) (by omega)
      omega
    have a2 := r1 q hq p hp
    rw [r2a p hp, r2a q hq] at a2
    have h5 : ((scheduler_trace yield n k).count p.addr : Int) * p.stride_info.stride ≤
        ((scheduler_trace yield n k).count p.addr : Int) * q.stride_info.stride :=
      mul_le_mul_of_nonneg_left hspq (by positivity)
    have h6 : ((scheduler_trace yield n k).count q.addr : Int) * q.stride_info.stride ≤
        (((scheduler_trace yield n k).count p.addr : Int) + 1) * q.stride_info.stride := by
      rw [add_mul]
      omega
    have h7 := le_of_mul_le_mul_right h6 (by omega : (0 : Int) < q.stride_info.stride)
    exact_mod_cast h7

theorem stride_default : Int.tdiv STRIDE_LARGE_NUMBER 100 = 100 := by decide

/-- What `allocproc` leaves behind when it returns. -/
theorem allocproc_ret (cfg : config) (k : kernel) (r : Option proc × kernel)
    (h : allocproc cfg k = outcome.ret r) :
    r.2.min_pass_value = k.min_pass_value ∧ r.2.initproc = k.initproc ∧
    ((r.1 = none ∧ r.2.queue = k.queue ∧ r.2.nextpid = k.nextpid) ∨
     ∃ p, r.2.queue = k.queue ++ [p] ∧ r.2.nextpid = wrap32 (k.nextpid + 1) ∧ p.pid = k.nextpid ∧
       p.stride_info = { stride := 100, tickets := 100, pass_value := 0 } ∧
       p.parent = 0 ∧ p.tf = none ∧ p.pgdir = 0 ∧
       ((r.1 = none ∧ p.state = UNUSED ∧ p.kstack = 0) ∨
        (r.1 = some p ∧ p.state = EMBRYO ∧ p.kstack ≠ 0))) := by
  unfold allocproc at h
  cases hm : k_malloc cfg.sizeof_proc k.M with
  | fault => rw [hm] at h; simp [outcome.bind] at h
  | out_of_fuel => rw [hm] at h; simp [outcome.bind] at h
  | ret a =>
    rw [hm] at h
    simp only [outcome.bind] at h
    split at h
    · simp only [outcome.ret.injEq] at h
      subst h
      exact ⟨rfl, rfl, Or.inl ⟨rfl, rfl, rfl⟩⟩
    · split at h
      · rename_i hk
        simp only [outcome.ret.injEq] at h
        subst h
        refine ⟨rfl, rfl, Or.inr ⟨_, rfl, rfl, rfl, ?_, rfl, rfl, rfl, Or.inl ⟨rfl, rfl, hk⟩⟩⟩
        simp [initialize_stride_info, zero_proc, stride_default]
      · rename_i hk
        simp only [outcome.ret.injEq] at h
        subst h
        refine ⟨rfl, rfl, Or.inr ⟨_, rfl, rfl, rfl, ?_, rfl, rfl, rfl, Or.inr ⟨rfl, rfl, hk⟩⟩⟩
        simp [initialize_stride_info, zero_proc, stride_default]

theorem set_last_append (l : List proc) (p q : proc) : set_last (l ++ [p]) q = l ++ [q] := by
  simp [set_last]

/-- What `fork` leaves behind when it returns. -/
theorem fork_ret (cfg : config) (c : cpu) (r : Int × cpu) (h : fork cfg c = outcome.ret r) :
    r.2.proc = c.proc ∧ r.2.k.min_pass_value = c.k.min_pass_value ∧
    ∃ cur, c.proc = some cur ∧
    ((r.1 = -1 ∧ r.2.k.queue = c.k.queue ∧ r.2.k.nextpid = c.k.nextpid) ∨
     ∃ p, r.2.k.queue = c.k.queue ++ [p] ∧ r.2.k.nextpid = wrap32 (c.k.nextpid + 1) ∧
       p.pid = c.k.nextpid ∧
       p.stride_info.tickets = 100 ∧ p.stride_info.stride = 100 ∧
       ((r.1 = -1 ∧ p.state = UNUSED ∧ p.kstack = 0) ∨
        (r.1 = p.pid ∧ p.state = RUNNABLE ∧ p.parent = cur.addr ∧
          p.stride_info.pass_value = c.k.min_pass_value ∧
          ∃ t, p.tf = some t ∧ t.eax = 0))) := by
  unfold fork at h
  cases hc : c.proc with
  | none => rw [hc] at h; simp at h
  | some cur =>
    rw [hc] at h
    simp only at h
    cases ha : allocproc cfg c.k with
    | fault => rw [ha] at h; simp [outcome.bind] at h
    | out_of_fuel => rw [ha] at h; simp [outcome.bind] at h
    | ret ar =>
      rw [ha] at h
      simp only [outcome.bind] at h
      obtain ⟨e1, e2, hcase⟩ := allocproc_ret cfg c.k ar ha
      rcases hcase with ⟨hn, hq, hp⟩ | ⟨p, hq, hnp, hpid, hsi, hpar, htf, hpg, hcase2⟩
      · rw [hn] at h
        simp only [outcome.ret.injEq] at h
        subst h
        exact ⟨rfl, e1, cur, rfl, Or.inl ⟨rfl, hq, hp⟩⟩
      · rcases hcase2 with ⟨hn, hst, hks⟩ | ⟨hn, hst, hks⟩
        · rw [hn] at h
          simp only [outcome.ret.injEq] at h
          subst h
          refine ⟨rfl, e1, cur, rfl, Or.inr ⟨p, hq, hnp, hpid, ?_, ?_, Or.inl ⟨rfl, hst, hks⟩⟩⟩
          · rw [hsi]
          · rw [hsi]
        · rw [hn] at h
          simp only at h
          split at h
          · cases hf : kfree cfg.lay p.kstack (cfg.copyuvm ar.2.M cur.pgdir cur.sz).2 with
            | fault => rw [hf] at h; simp [outcome.bind] at h
            | out_of_fuel => rw [hf] at h; simp [outcome.bind] at h
            | ret M3 =>
              rw [hf] at h
              simp only [outcome.bind, outcome.ret.injEq] at h
              subst h
              refine ⟨rfl, e1, cur, rfl, Or.inr ?_⟩
              simp only [hq, set_last_append]
              refine ⟨_, rfl, ?_⟩
              simp [hsi, hnp, hpid]
          · cases ht : cur.tf with
            | none => rw [ht] at h; simp at h
            | some t =>
              rw [ht] at h
              simp only [outcome.ret.injEq] at h
              subst h
              refine ⟨rfl, e1, cur, rfl, Or.inr ?_⟩
              simp only [hq, set_last_append]
              refine ⟨_, rfl, ?_⟩
              simp [assign_min_pass_value, hsi, hnp, hpid, e1]

theorem stride_ok_default (p : proc)
    (h : p.stride_info = { stride := 100, tickets := 100, pass_value := 0 }) : stride_ok p := by
  unfold stride_ok
  rw [h]
  exact ⟨stride_default.symm, by decide⟩

theorem stride_ok_of_fields (p q : proc) (h1 : q.stride_info.tickets = p.stride_info.tickets)
    (h2 : q.stride_info.stride = p.stride_info.stride) (h : stride_ok p) : stride_ok q := by
  unfold stride_ok at h ⊢
  rw [h1, h2]
  exact h

/-- What `userinit` leaves behind when it returns: one slot, with the default
tickets and stride. -/
theorem userinit_ret (cfg : config) (k k1 : kernel) (h : userinit cfg k = outcome.ret k1) :
    ∃ p, k1.queue = [p] ∧ stride_ok p ∧ p.pid = k.nextpid ∧ k1.nextpid = wrap32 (k.nextpid + 1) := by
  unfold userinit at h
  cases ha : allocproc cfg { k with queue := [] } with
  | fault => rw [ha] at h; simp [outcome.bind] at h
  | out_of_fuel => rw [ha] at h; simp [outcome.bind] at h
  | ret ar =>
    rw [ha] at h
    simp only [outcome.bind] at h
    obtain ⟨_, _, hcase⟩ := allocproc_ret cfg _ ar ha
    rcases hcase with ⟨hn, _, _⟩ | ⟨p, hq, hnp, hpid, hsi, _, _, _, hcase2⟩
    · rw [hn] at h
      simp at h
    · rcases hcase2 with ⟨hn, _, _⟩ | ⟨hn, _, _⟩
      · rw [hn] at h
        simp at h
      · rw [hn] at h
        simp only at h
        split at h
        · simp at h
        · simp only [outcome.ret.injEq] at h
          subst h
          simp only [List.nil_append] at hq
          simp only [hq]
          refine ⟨_, set_last_append [] p _, ?_, ?_, ?_⟩
          · exact stride_ok_default _ hsi
          · exact hpid
          · exact hnp

/-- The slots of a reachable state all have `stride == LARGE / tickets` and at
least one ticket, when `assign_tickets` is only called with `n >= 1`. -/
theorem reachable_stride_ok (cfg : config) (M0 : memstate) (c : cpu)
    (h : reachable cfg (fun n => 1 ≤ n) M0 c) :
    (∀ p ∈ c.k.queue, stride_ok p) ∧ ∀ p, c.proc = some p → stride_ok p := by
  induction h with
  | init k1 h1 =>
    obtain ⟨p, hq, hp, _, _⟩ := userinit_ret cfg _ k1 h1
    refine ⟨?_, by simp⟩
    intro q hqm
    rw [hq] at hqm
    simp only [List.mem_singleton] at hqm
    rw [hqm]
    exact hp
  | alloc c r _ ha ih =>
    refine ⟨?_, ih.2⟩
    obtain ⟨_, _, hcase⟩ := allocproc_ret cfg c.k r ha
    rcases hcase with ⟨_, hq, _⟩ | ⟨p, hq, _, _, hsi, _⟩
    · intro q hqm
      simp only at hqm
      rw [hq] at hqm
      exact ih.1 q hqm
    · intro q hqm
      simp only at hqm
      rw [hq] at hqm
      rcases List.mem_append.mp hqm with hqm | hqm
      · exact ih.1 q hqm
      · simp only [List.mem_singleton] at hqm
        rw [hqm]
        exact stride_ok_default _ hsi
  | fork c r _ hf ih =>
    obtain ⟨e1, _, cur, _, hcase⟩ := fork_ret cfg c r hf
    refine ⟨?_, by rw [e1]; exact ih.2⟩
    rcases hcase with ⟨_, hq, _⟩ | ⟨p, hq, _, _, ht, hs, _⟩
    · intro q hqm
      rw [hq] at hqm
      exact ih.1 q hqm
    · intro q hqm
      rw [hq] at hqm
      rcases List.mem_append.mp hqm with hqm | hqm
      · exact ih.1 q hqm
      · simp only [List.mem_singleton] at hqm
        rw [hqm]
        unfold stride_ok
        rw [ht, hs]
        exact ⟨stride_default.symm, by decide⟩
  | pick c p k1 _ hn hp ih =>
    unfold scheduler_pick at hp
    rcases remove_min_split c.k.queue with ⟨_, h2⟩ | ⟨pre, p0, post, h1, h2, _⟩
    · rw [h2] at hp
      simp at hp
    · rw [h2] at hp
      simp only [Option.some.injEq, Prod.mk.injEq] at hp
      obtain ⟨e1, e2⟩ := hp
      subst e1 e2
      have hin : ∀ q, q ∈ pre ++ post → q ∈ c.k.queue := by
        intro q hq
        rw [h1]
        simp only [List.mem_append, List.mem_cons] at hq ⊢
        tauto
      refine ⟨fun q hq => ih.1 q (hin q hq), ?_⟩
      intro q hq
      simp only [Option.some.injEq] at hq
      subst hq
      exact stride_ok_of_fields p0 _ rfl rfl (ih.1 p0 (by rw [h1]; simp))
  | back c p st chan _ hp _ ih =>
    refine ⟨?_, by simp⟩
    intro q hq
    simp only [scheduler_back, update_min_pass_value, insert, List.mem_append,
      List.mem_singleton] at hq
    rcases hq with hq | hq
    · exact ih.1 q hq
    · rw [hq]
      exact stride_ok_of_fields p _ rfl rfl (ih.2 p hp)
  | tickets c c1 n _ hn ha ih =>
    unfold assign_tickets at ha
    cases hc : c.proc with
    | none => rw [hc] at ha; simp at ha
    | some p =>
      rw [hc] at ha
      simp only at ha
      split at ha
      · simp at ha
      · simp only [outcome.ret.injEq] at ha
        subst ha
        refine ⟨ih.1, ?_⟩
        intro q hq
        simp only [Option.some.injEq] at hq
        subst hq
        exact ⟨rfl, hn⟩

/-- In a reachable state `nextpid` is positive and above every pid in use, as long
as `nextpid` has not reached the largest `int`: either the state has the
property, or some reachable state has `nextpid = 2^31 - 1`, after which
`nextpid++` wraps. -/
theorem reachable_pids (cfg : config) (ok : Int → Prop) (M0 : memstate) (c : cpu)
    (h : reachable cfg ok M0 c) :
    (0 < c.k.nextpid ∧ c.k.nextpid ≤ 2147483647 ∧ (∀ p ∈ c.k.queue, p.pid < c.k.nextpid) ∧
      ∀ p, c.proc = some p → p.pid < c.k.nextpid) ∨
    ∃ c0, reachable cfg ok M0 c0 ∧ c0.k.nextpid = 2147483647 := by
  induction h with
  | init k1 h1 =>
    left
    obtain ⟨p, hq, _, hpid, hnp⟩ := userinit_ret cfg _ k1 h1
    simp only [boot] at hpid hnp
    rw [wrap32_eq _ (by omega) (by omega)] at hnp
    refine ⟨by simp only; omega, by simp only; omega, ?_, by simp⟩
    intro q hqm
    simp only at hqm
    rw [hq] at hqm
    simp only [List.mem_singleton] at hqm
    subst hqm
    simp only
    omega
  | alloc c r hr ha ih =>
    rcases ih with ih | ih
    · obtain ⟨_, _, hcase⟩ := allocproc_ret cfg c.k r ha
      obtain ⟨i1, i0, i2, i3⟩ := ih
      rcases hcase with ⟨_, hq, hn⟩ | ⟨p, hq, hn, hpid, _⟩
      · left
        simp only
        rw [hq, hn]
        exact ⟨i1, i0, i2, i3⟩
      · by_cases hmax : c.k.nextpid = 2147483647
        · exact Or.inr ⟨c, hr, hmax⟩
        · left
          rw [wrap32_eq _ (by omega) (by omega)] at hn
          simp only
          rw [hq, hn]
          refine ⟨by omega, by omega, ?_, fun q hq => by have := i3 q hq; omega⟩
          intro q hqm
          rcases List.mem_append.mp hqm with hqm | hqm
          · have := i2 q hqm
            omega
          · simp only [List.mem_singleton] at hqm
            subst hqm
            omega
    · exact Or.inr ih
  | fork c r hr hf ih =>
    rcases ih with ih | ih
    · obtain ⟨e1, _, cur, _, hcase⟩ := fork_ret cfg c r hf
      obtain ⟨i1, i0, i2, i3⟩ := ih
      rcases hcase with ⟨_, hq, hn⟩ | ⟨p, hq, hn, hpid, _⟩
      · left
        rw [e1, hq, hn]
        exact ⟨i1, i0, i2, i3⟩
      · by_cases hmax : c.k.nextpid = 2147483647
        · exact Or.inr ⟨c, hr, hmax⟩
        · left
          rw [wrap32_eq _ (by omega) (by omega)] at hn
          rw [e1, hq, hn]
          refine ⟨by omega, by omega, ?_, fun q hq => by have := i3 q hq; omega⟩
          intro q hqm
          rcases List.mem_append.mp hqm with hqm | hqm
          · have := i2 q hqm
            omega
          · simp only [List.mem_singleton] at hqm
            subst hqm
            omega
    · exact Or.inr ih
  | pick c p k1 _ hn hp ih =>
    rcases ih with ih | ih
    · left
      obtain ⟨i1, i0, i2, _⟩ := ih
      unfold scheduler_pick at hp
      rcases remove_min_split c.k.queue with ⟨_, h2⟩ | ⟨pre, p0, post, h1, h2, _⟩
      · rw [h2] at hp
        simp at hp
      · rw [h2] at hp
        simp only [Option.some.injEq, Prod.mk.injEq] at hp
        obtain ⟨e1, e2⟩ := hp
        subst e1 e2
        have hin : ∀ q, q ∈ pre ++ post → q ∈ c.k.queue := by
          intro q hq
          rw [h1]
          simp only [List.mem_append, List.mem_cons] at hq ⊢
          tauto
        refine ⟨i1, i0, fun q hq => i2 q (hin q hq), ?_⟩
        intro q hq
        simp only [Option.some.injEq] at hq
        subst hq
        exact i2 p0 (by rw [h1]; simp)
    · exact Or.inr ih
  | back c p st chan _ hp _ ih =>
    rcases ih with ih | ih
    · left
      obtain ⟨i1, i0, i2, i3⟩ := ih
      refine ⟨i1, i0, ?_, by simp⟩
      intro q hq
      simp only [scheduler_back, update_min_pass_value, insert, List.mem_append,
        List.mem_singleton] at hq ⊢
      rcases hq with hq | hq
      · exact i2 q hq
      · subst hq
        exact i3 p hp
    · exact Or.inr ih
  | tickets c c1 n _ _ ha ih =>
    rcases ih with ih | ih
    · left
      obtain ⟨i1, i0, i2, i3⟩ := ih
      unfold assign_tickets at ha
      cases hc : c.proc with
      | none => rw [hc] at ha; simp at ha
      | some p =>
        rw [hc] at ha
        simp only at ha
        split at ha
        · simp at ha
        · simp only [outcome.ret.injEq] at ha
          subst ha
          refine ⟨i1, i0, i2, ?_⟩
          intro q hq
          simp only [Option.some.injEq] at hq
          subst hq
          exact i3 p hc
    · exact Or.inr ih

/-- C7 (amended): in every state reached from boot through `userinit`,
`allocproc`, `fork`, the scheduler loop and `assign_tickets(n)` called with
`n >= 1`, every RUNNABLE or RUNNING process has `stride == LARGE / tickets` and
`tickets >= 1`. -/
theorem C7_stride_invariant (cfg : config) (M0 : memstate) (c : cpu)
    (h : reachable cfg (fun n => 1 ≤ n) M0 c) : stride_inv c := by
  obtain ⟨h1, h2⟩ := reachable_stride_ok cfg M0 c h
  exact ⟨fun p hp _ => h1 p hp, fun p hp _ => h2 p hp⟩

theorem outcome_returns {α : Type} (o : outcome α) (d : α) (h : o.returns = true) :
    o = outcome.ret (o.get_or d) := by
  cases o <;> simp_all [outcome.returns, outcome.get_or]

theorem option_getD_some {α : Type} (o : Option α) (d : α) (h : o.isSome = true) :
    o = some (o.getD d) := by
  cases o <;> simp_all

theorem kill_scan_pass (pid : Int) (l r : List proc) (h : kill_scan pid l = some r) :
    r.map (fun p => p.stride_info.pass_value) = l.map fun p => p.stride_info.pass_value := by
  induction l generalizing r with
  | nil => simp [kill_scan] at h
  | cons a rest ih =>
    unfold kill_scan at h
    split at h
    · simp only [Option.some.injEq] at h
      subst h
      split <;> simp
    · cases hr : kill_scan pid rest with
      | none => rw [hr] at h; simp at h
      | some r1 =>
        rw [hr] at h
        simp only [Option.map_some', Option.some.injEq] at h
        subst h
        simp [ih r1 hr]

/-- C2, the claim as stated fails: three RUNNABLE processes with 100, 200 and 300
tickets start with the same pass value `2^63 - 51`; the first quantum goes to
the process with stride 100, whose pass value wraps to `-2^63 + 49`, and the
pass value of the process with stride 50 is then above the minimum plus 50. -/
theorem C2_counterexample :
    ¬ ∀ (k : kernel) (v0 : Int) (n : Nat),
      (∀ q ∈ k.queue, q.state = RUNNABLE) → (∀ q ∈ k.queue, stride_ok q) →
      (∀ q ∈ k.queue, q.stride_info.pass_value = v0) →
      (k.queue.map fun p => p.addr).Nodup →
      ∀ p ∈ (scheduler_loop yield n k).queue, ∀ q ∈ (scheduler_loop yield n k).queue,
        p.stride_info.pass_value ≤ q.stride_info.pass_value + p.stride_info.stride := by
  intro h
  have := h ex_high 9223372036854775757 1 (by decide) (by decide) (by decide) (by decide)
    (ex_proc 2000 3 RUNNABLE 200 9223372036854775757) (by decide)
    (ex_proc 1000 2 RUNNABLE 100 (-9223372036854775759)) (by decide)
  revert this
  decide

/-- C2 (amended), at a concrete input: three processes with 100, 200 and 300
tickets (strides 100, 50, 33) after 12 scheduler iterations. -/
theorem C2_stride_fairness_witness :
    (ex_three.queue.map fun p => (p.stride_info.tickets, p.stride_info.stride))
      = [(100, 100), (200, 50), (300, 33)] ∧
    ((scheduler_loop yield 12 ex_three).queue.map
        fun p => (p.addr, p.state, p.stride_info.tickets, p.stride_info.stride)).Perm
      (ex_three.queue.map fun p => (p.addr, p.state, p.stride_info.tickets, p.stride_info.stride)) ∧
    (∀ p ∈ (scheduler_loop yield 12 ex_three).queue,
      p.stride_info.pass_value =
        0 + ((scheduler_trace yield 12 ex_three).count p.addr : Int) * p.stride_info.stride) ∧
    (∀ p ∈ (scheduler_loop yield 12 ex_three).queue,
      ∀ q ∈ (scheduler_loop yield 12 ex_three).queue,
      p.stride_info.pass_value ≤ q.stride_info.pass_value + p.stride_info.stride) ∧
    (∀ p ∈ (scheduler_loop yield 12 ex_three).queue,
      ∀ q ∈ (scheduler_loop yield 12 ex_three).queue,
      |((scheduler_trace yield 12 ex_three).count p.addr : Int) * p.stride_info.stride
        - ((scheduler_trace yield 12 ex_three).count q.addr : Int) * q.stride_info.stride|
        ≤ max p.stride_info.stride q.stride_info.stride) ∧
    (∀ p ∈ (scheduler_loop yield 12 ex_three).queue,
      ∀ q ∈ (scheduler_loop yield 12 ex_three).queue,
      q.stride_info.tickets ≤ p.stride_info.tickets → q.stride_info.tickets ≤ 10000 →
      (scheduler_trace yield 12 ex_three).count q.addr
        ≤ (scheduler_trace yield 12 ex_three).count p.addr + 1) :=
  ⟨by decide, C2_stride_fairness ex_three 0 12 (by decide) (by decide) (by decide) (by decide)
    (by decide) (by decide)⟩

/-- C5, at a concrete input: after one iteration over `ex_three` the first
process is back in the list with pass value 100 and the floor is below it. -/
theorem C5_min_pass_value_floor_witness :
    (scheduler_iter yield ex_three).min_pass_value
      ≤ (ex_proc 1000 2 RUNNABLE 100 100).stride_info.pass_value :=
  C5_min_pass_value_floor yield ex_three (ex_proc 1000 2 RUNNABLE 100 100)
    (by decide) (by decide)

/-- C6: for `n >= 1`, `assign_tickets(n)` returns, and the state after differs
from the state before only in the tickets (now `n`) and the stride (now the
truncated quotient `LARGE / n`) of the current process: its pass value and its
other fields, the process list and `ptable.min_pass_value` are as before.  The
quotient `s` is the integer with `s * n <= 10000 < (s + 1) * n`; it is 100, 50
and 33 for 100, 200 and 300 tickets. -/
theorem C6_assign_tickets (n : Int) (hn : 1 ≤ n) (c : cpu) (p : proc) (hp : c.proc = some p) :
    assign_tickets n c = outcome.ret
      { proc := some { p with stride_info :=
          { stride := Int.tdiv STRIDE_LARGE_NUMBER n, tickets := n,
            pass_value := p.stride_info.pass_value } },
        k := c.k } ∧
    Int.tdiv STRIDE_LARGE_NUMBER n * n ≤ 10000 ∧
    10000 < (Int.tdiv STRIDE_LARGE_NUMBER n + 1) * n ∧
    Int.tdiv STRIDE_LARGE_NUMBER 100 = 100 ∧ Int.tdiv STRIDE_LARGE_NUMBER 200 = 50 ∧
    Int.tdiv STRIDE_LARGE_NUMBER 300 = 33 := by
  refine ⟨?_, (stride_bounds n hn).2.1, (stride_bounds n hn).2.2, by decide, by decide, by decide⟩
  unfold assign_tickets
  rw [hp]
  have : n ≠ 0 := by omega
  simp [this]

/-- C6, at a concrete input: the first process of a booted machine asks for 300
tickets. -/
theorem C6_assign_tickets_witness :
    assign_tickets 300 (ex_run 14) = outcome.ret
      { proc := some { (ex_pick 14).1 with stride_info :=
          { stride := Int.tdiv STRIDE_LARGE_NUMBER 300, tickets := 300,
            pass_value := (ex_pick 14).1.stride_info.pass_value } },
        k := (ex_run 14).k } ∧
    Int.tdiv STRIDE_LARGE_NUMBER 300 * 300 ≤ 10000 ∧
    10000 < (Int.tdiv STRIDE_LARGE_NUMBER 300 + 1) * 300 ∧
    Int.tdiv STRIDE_LARGE_NUMBER 100 = 100 ∧ Int.tdiv STRIDE_LARGE_NUMBER 200 = 50 ∧
    Int.tdiv STRIDE_LARGE_NUMBER 300 = 33 :=
  C6_assign_tickets 300 (by decide) (ex_run 14) (ex_pick 14).1 rfl

/-- C7, the claim as stated fails: after boot the first process is dispatched and
calls `assign_tickets(-5)`; it is RUNNING with -5 tickets. -/
theorem C7_counterexample :
    ¬ ∀ c, reachable ex_cfg (fun _ => True) (ex_mem 14) c → stride_inv c := by
  intro h
  have r0 : reachable ex_cfg (fun _ => True) (ex_mem 14) { proc := none, k := ex_init 14 } :=
    reachable.init _ (outcome_returns _ _ (by decide))
  have r1 : reachable ex_cfg (fun _ => True) (ex_mem 14) (ex_run 14) :=
    reachable.pick _ (ex_pick 14).1 (ex_pick 14).2 r0 rfl
      (option_getD_some (scheduler_pick (ex_init 14)) (ex_proc 0 0 UNUSED 1 0, ex_init 14)
        (by decide))
  have r2 : reachable ex_cfg (fun _ => True) (ex_mem 14) ex_neg :=
    reachable.tickets (ex_run 14) ex_neg (-5) r1 trivial (outcome_returns _ _ (by decide))
  have hm : ex_neg.proc.map (fun p => (p.state, p.stride_info.tickets)) = some (RUNNING, -5) := by
    decide
  cases hp : ex_neg.proc with
  | none => rw [hp] at hm; simp at hm
  | some p =>
    rw [hp] at hm
    simp only [Option.map_some', Option.some.injEq, Prod.mk.injEq] at hm
    have := ((h ex_neg r2).2 p hp (Or.inr hm.1)).2
    rw [hm.2] at this
    omega

/-- C7 (amended), at a concrete input: the state after `userinit` on a machine
with 14 free frames. -/
theorem C7_stride_invariant_witness : stride_inv { proc := none, k := ex_init 14 } :=
  C7_stride_invariant ex_cfg (ex_mem 14) _ (reachable.init _ (outcome_returns _ _ (by decide)))

/-- C8, the claim as stated fails: a process that went to sleep with pass value
100 while nothing else was RUNNABLE (the floor is then 0) is woken by `wakeup1`
with pass value 0. -/
theorem C8_counterexample :
    ¬ ∀ (k : kernel) (chan : Nat) (i : Nat) (p q : proc),
      k.queue[i]? = some p → (wakeup1 chan k).queue[i]? = some q →
      p.stride_info.pass_value ≤ q.stride_info.pass_value := by
  intro h
  have := h ex_asleep 7 0 { ex_proc 1000 1 SLEEPING 100 100 with chan := 7 }
    { ex_proc 1000 1 RUNNABLE 100 0 with chan := 7 }
    (by decide) (by decide)
  revert this
  decide

/-- C8 (amended): `update_pass_value` does not lower the pass value of a process
with `tickets >= 1` and `stride == LARGE / tickets` whose pass value is in the
range of `long long` and at most `2^63 - 1 - stride` (above that the sum wraps);
`assign_tickets` leaves every pass value as it is, that of the caller and those
of the list, and so does `kill`; `assign_min_pass_value` (at `fork` and at
`wakeup1`) overwrites the pass value with `ptable.min_pass_value`, whatever it
was: `wakeup1` does so for exactly the processes sleeping on the channel. -/
theorem C8_pass_value_steps :
    (∀ p, stride_ok p → -9223372036854775808 ≤ p.stride_info.pass_value →
      p.stride_info.pass_value + p.stride_info.stride ≤ 9223372036854775807 →
      p.stride_info.pass_value ≤ (update_pass_value p).stride_info.pass_value ∧
      (update_pass_value p).stride_info.pass_value
        = p.stride_info.pass_value + p.stride_info.stride) ∧
    (∀ n c c1, assign_tickets n c = outcome.ret c1 →
      c1.proc.map (fun p => p.stride_info.pass_value)
        = c.proc.map (fun p => p.stride_info.pass_value) ∧
      c1.k.queue = c.k.queue ∧ c1.k.min_pass_value = c.k.min_pass_value) ∧
    (∀ pid k, (kill pid k).2.queue.map (fun p => p.stride_info.pass_value)
      = k.queue.map fun p => p.stride_info.pass_value) ∧
    (∀ k p, (assign_min_pass_value k p).stride_info.pass_value = k.min_pass_value) ∧
    (∀ chan k, (wakeup1 chan k).queue.map (fun p => p.stride_info.pass_value)
      = k.queue.map fun p =>
          if p.state = SLEEPING ∧ p.chan = chan then k.min_pass_value
          else p.stride_info.pass_value) := by
  refine ⟨?_, ?_, ?_, ?_, ?_⟩
  · intro p hp hlo hhi
    have := (stride_bounds _ hp.2).1
    rw [← hp.1] at this
    have e : (update_pass_value p).stride_info.pass_value
        = p.stride_info.pass_value + p.stride_info.stride := by
      simp only [update_pass_value]
      exact wrap64_eq _ (by omega) hhi
    rw [e]
    exact ⟨by omega, rfl⟩
  · intro n c c1 h
    unfold assign_tickets at h
    cases hc : c.proc with
    | none => rw [hc] at h; simp at h
    | some p =>
      rw [hc] at h
      simp only at h
      split at h
      · simp at h
      · simp only [outcome.ret.injEq] at h
        subst h
        simp
  · intro pid k
    unfold kill
    cases hk : kill_scan pid k.queue with
    | none => rfl
    | some r => exact kill_scan_pass pid _ r hk
  · intro k p
    rfl
  · intro chan k
    simp only [wakeup1, List.map_map]
    apply List.map_congr_left
    intro p _
    simp only [Function.comp]
    split <;> simp [assign_min_pass_value]

/-- C8 (amended), at a concrete input: the process with 100 tickets and the pass
value `2^63 - 101`, the largest from which the sum does not wrap. -/
theorem C8_pass_value_steps_witness :
    (ex_proc 1000 2 RUNNABLE 100 9223372036854775707).stride_info.pass_value
      ≤ (update_pass_value (ex_proc 1000 2 RUNNABLE 100 9223372036854775707)).stride_info.pass_value ∧
    (update_pass_value (ex_proc 1000 2 RUNNABLE 100 9223372036854775707)).stride_info.pass_value
      = (ex_proc 1000 2 RUNNABLE 100 9223372036854775707).stride_info.pass_value
        + (ex_proc 1000 2 RUNNABLE 100 9223372036854775707).stride_info.stride :=
  C8_pass_value_steps.1 (ex_proc 1000 2 RUNNABLE 100 9223372036854775707) (by decide) (by decide)
    (by decide)

/-- C10, the code at the failing inputs.  With 11 frames at boot none is left when
the first process forks: `kalloc` fails in `allocproc`, `fork` returns -1, and
the slot stays linked (UNUSED, with pid 2) and keeps its 20 heap units.  With 12
frames the kernel stack is allocated and `copyuvm` fails: `fork` returns -1,
the frame is back on the page free list, and again the slot stays linked and
keeps its heap units. -/
theorem C10_fork_failure_leaks :
    ((fork ex_cfg (ex_caller 11)).returns = true ∧ (ex_fork 11).1 = -1 ∧
      (ex_caller 11).k.queue = [] ∧
      (ex_fork 11).2.k.queue.map (fun p => (p.pid, p.state, p.kstack)) = [(2, UNUSED, 0)] ∧
      free_units 8 (ex_caller 11).k.M = 4076 ∧ free_units 8 (ex_fork 11).2.k.M = 4056) ∧
    ((fork ex_cfg (ex_caller 12)).returns = true ∧ (ex_fork 12).1 = -1 ∧
      (ex_caller 12).k.queue = [] ∧
      (ex_fork 12).2.k.queue.map (fun p => (p.pid, p.state, p.kstack)) = [(2, UNUSED, 0)] ∧
      free_units 8 (ex_caller 12).k.M = 4076 ∧ free_units 8 (ex_fork 12).2.k.M = 4056 ∧
      free_frames (ex_fork 12).2.k.M.mem 8 (ex_fork 12).2.k.M.freelist
        = free_frames (ex_caller 12).k.M.mem 8 (ex_caller 12).k.M.freelist) := by
  decide

theorem read32_lt (m : Mem) (a : Nat) : read32 m a < 4294967296 := by
  unfold read32
  omega

theorem read32_write32_same (m : Mem) (a v : Nat) (hv : v < 4294967296) :
    read32 (write32 m a v) a = v := by
  unfold read32 write32
  have h1 : ¬ (a + 1 = a) := by omega
  have h2 : ¬ (a + 2 = a) := by omega
  have h3 : ¬ (a + 2 = a + 1) := by omega
  have h4 : ¬ (a + 3 = a) := by omega
  have h5 : ¬ (a + 3 = a + 1) := by omega
  have h6 : ¬ (a + 3 = a + 2) := by omega
  simp only [h1, h2, h3, h4, h5, h6, if_false, if_true]
  omega

theorem read32_write32_ne (m : Mem) (a b v : Nat) (h : b + 4 ≤ a ∨ a + 4 ≤ b) :
    read32 (write32 m a v) b = read32 m b := by
  unfold read32 write32
  have e0 : ¬ (b = a) := by omega
  have e1 : ¬ (b = a + 1) := by omega
  have e2 : ¬ (b = a + 2) := by omega
  have e3 : ¬ (b = a + 3) := by omega
  have f0 : ¬ (b + 1 = a) := by omega
  have f1 : ¬ (b + 1 = a + 1) := by omega
  have f2 : ¬ (b + 1 = a + 2) := by omega
  have f3 : ¬ (b + 1 = a + 3) := by omega
  have g0 : ¬ (b + 2 = a) := by omega
  have g1 : ¬ (b + 2 = a + 1) := by omega
  have g2 : ¬ (b + 2 = a + 2) := by omega
  have g3 : ¬ (b + 2 = a + 3) := by omega
  have k0 : ¬ (b + 3 = a) := by omega
  have k1 : ¬ (b + 3 = a + 1) := by omega
  have k2 : ¬ (b + 3 = a + 2) := by omega
  have k3 : ¬ (b + 3 = a + 3) := by omega
  simp only [e0, e1, e2, e3, f0, f1, f2, f3, g0, g1, g2, g3, k0, k1, k2, k3, if_false]

theorem read32_memset_out (m : Mem) (dst c n b : Nat) (h : b + 4 ≤ dst ∨ dst + n ≤ b) :
    read32 (memset m dst c n) b = read32 m b := by
  unfold read32 memset
  have e0 : ¬ (dst ≤ b ∧ b < dst + n) := by omega
  have e1 : ¬ (dst ≤ b + 1 ∧ b + 1 < dst + n) := by omega
  have e2 : ¬ (dst ≤ b + 2 ∧ b + 2 < dst + n) := by omega
  have e3 : ¬ (dst ≤ b + 3 ∧ b + 3 < dst + n) := by omega
  simp only [e0, e1, e2, e3, if_false]

/-- A page free list is determined by its head. -/
theorem is_free_list_unique (m : Mem) (L1 : List Nat) : ∀ (r : Nat) (L2 : List Nat),
    is_free_list m r L1 → is_free_list m r L2 → L1 = L2 := by
  induction L1 with
  | nil =>
    intro r L2 h1 h2
    cases L2 with
    | nil => rfl
    | cons f t =>
      simp only [is_free_list] at h1 h2
      omega
  | cons f t ih =>
    intro r L2 h1 h2
    cases L2 with
    | nil =>
      simp only [is_free_list] at h1 h2
      omega
    | cons g u =>
      simp only [is_free_list] at h1 h2
      obtain ⟨e1, _, h1⟩ := h1
      obtain ⟨e2, _, h2⟩ := h2
      have : f = g := by omega
      subst this
      rw [ih _ u h1 h2]

/-- A frame is not on the rest of the list that follows it. -/
theorem is_free_list_not_mem (m : Mem) (f : Nat) (t : List Nat)
    (h : is_free_list m (read32 m f) t) : f ∉ t := by
  intro hf
  obtain ⟨t1, t2, e⟩ := List.append_of_mem hf
  have hsuf : ∀ (s : List Nat) (r : Nat), is_free_list m r (s ++ f :: t2) →
      is_free_list m (read32 m f) t2 := by
    intro s
    induction s with
    | nil =>
      intro r hr
      simp only [List.nil_append, is_free_list] at hr
      exact hr.2.2
    | cons g s ih =>
      intro r hr
      simp only [List.cons_append, is_free_list] at hr
      exact ih _ hr.2.2
  have h2 := hsuf t1 _ (e ▸ h)
  have := is_free_list_unique m t _ t2 h h2
  rw [e] at this
  have hl := congrArg List.length this
  simp at hl
  omega

/-- A page free list is still one when memory changes outside the first word of
each of its frames. -/
theorem is_free_list_frame (m m1 : Mem) (L : List Nat) : ∀ (r : Nat),
    (∀ f ∈ L, read32 m1 f = read32 m f) → is_free_list m r L → is_free_list m1 r L := by
  induction L with
  | nil =>
    intro r _ h
    exact h
  | cons f t ih =>
    intro r hm h
    simp only [is_free_list] at h ⊢
    refine ⟨h.1, h.2.1, ?_⟩
    rw [hm f (List.mem_cons_self _ _)]
    exact ih _ (fun g hg => hm g (List.mem_cons_of_mem _ hg)) h.2.2

/-- C14: `wakeup1(chan)` keeps the list order and length, `ptable.min_pass_value`
and everything outside the list; the entry at each position that was SLEEPING
with that channel is the same record made RUNNABLE with pass value
`ptable.min_pass_value` (its other fields as before), and every other entry is
the record it was. -/
theorem C14_wakeup1 (chan : Nat) (k : kernel) :
    wakeup1 chan k = { k with queue := (wakeup1 chan k).queue } ∧
    (wakeup1 chan k).queue.length = k.queue.length ∧
    ∀ (i : Nat) (p : proc), k.queue[i]? = some p →
      (p.state = SLEEPING ∧ p.chan = chan →
        (wakeup1 chan k).queue[i]? = some
          { p with state := RUNNABLE,
                   stride_info := { p.stride_info with pass_value := k.min_pass_value } }) ∧
      (¬ (p.state = SLEEPING ∧ p.chan = chan) → (wakeup1 chan k).queue[i]? = some p) := by
  refine ⟨rfl, by simp [wakeup1], ?_⟩
  intro i p hp
  simp only [wakeup1, List.getElem?_map, hp, Option.map_some']
  constructor
  · intro h
    rw [if_pos h]
    rfl
  · intro h
    rw [if_neg h]

/-- C16: on a page free list holding the valid frames `L`, `kalloc` returns 0 and
changes nothing when `L` is empty; otherwise it returns the head of `L`, leaves
memory as it is and the list holding the tail, and `kfree` of that frame then
returns and leaves the list holding `L` again, in the same order. -/
theorem C16_kalloc_kfree (cfg : layout) (M : memstate) (L : List Nat)
    (hL : is_free_list M.mem M.freelist L) (hv : ∀ f ∈ L, valid_frame cfg f) :
    (L = [] → kalloc M = (0, M)) ∧
    ∀ f t, L = f :: t →
      (kalloc M).1 = f ∧ (kalloc M).2.mem = M.mem ∧
      is_free_list (kalloc M).2.mem (kalloc M).2.freelist t ∧
      ∃ M2, kfree cfg f (kalloc M).2 = outcome.ret M2 ∧
        is_free_list M2.mem M2.freelist L ∧
        (M2.base_p, M2.sbrk_addr, M2.freep, M2.first)
          = (M.base_p, M.sbrk_addr, M.freep, M.first) := by
  constructor
  · intro e
    subst e
    simp only [is_free_list] at hL
    simp [kalloc, hL]
  · intro f t e
    subst e
    simp only [is_free_list] at hL
    obtain ⟨e1, hf, ht⟩ := hL
    have hk : kalloc M = (f, { M with freelist := read32 M.mem f }) := by
      simp [kalloc, e1, hf]
    rw [hk]
    refine ⟨rfl, rfl, ht, ?_⟩
    obtain ⟨v1, v2, v3⟩ := hv f (List.mem_cons_self _ _)
    have hno : ¬ (f % PGSIZE ≠ 0 ∨ f < cfg.kend ∨ V2P cfg f ≥ cfg.PHYSTOP) := by
      omega
    refine ⟨{ mem := write32 (memset M.mem f 1 PGSIZE) f (read32 M.mem f), freelist := f,
              base_p := M.base_p, sbrk_addr := M.sbrk_addr, freep := M.freep,
              first := M.first }, by simp only [kfree, hno, if_false], ?_, rfl⟩
    simp only [is_free_list]
    refine ⟨trivial, hf, ?_⟩
    rw [read32_write32_same _ _ _ (read32_lt _ _)]
    apply is_free_list_frame M.mem _ t _ _ ht
    intro g hg
    have hgf : g ≠ f := fun e => is_free_list_not_mem M.mem f t ht (e ▸ hg)
    have hgv := (hv g (List.mem_cons_of_mem _ hg)).1
    unfold PGSIZE at hgv v1
    have hsep : g + 4096 ≤ f ∨ f + 4096 ≤ g := by omega
    rw [read32_write32_ne _ _ _ _ (by omega), read32_memset_out _ _ _ _ _ (by unfold PGSIZE; omega)]

/-- C17, the claim as stated fails: a frame freed onto the empty list and
allocated again has 0, the link to the rest of the list, in its first byte. -/
theorem C17_counterexample :
    ¬ ∀ (cfg : layout) (M : memstate) (f : Nat), valid_frame cfg f →
      ∀ M1, kfree cfg f M = outcome.ret M1 →
        (kalloc M1).1 = f ∧ ∀ i, i < 4096 → (kalloc M1).2.mem (f + i) = 1 := by
  intro h
  have h1 := h ex_lay ex_mem0 ex_lay.kend (by decide) _ (outcome_returns _ ex_mem0 (by decide))
  have h2 := h1.2 0 (by decide)
  revert h2
  decide

/-- C17 (amended): after `kfree(f)` of a valid frame, whatever the frame and the
free list held, the next `kalloc` returns `f`, the bytes 4 to 4095 of the frame
are 0x01, its first word is the previous head of the free list, and the list is
the one it was before the `kfree`. -/
theorem C17_kfree_kalloc (cfg : layout) (M : memstate) (f : Nat)
    (hv : valid_frame cfg f) (hf : f ≠ 0) (hfl : M.freelist < 4294967296) :
    ∃ M1, kfree cfg f M = outcome.ret M1 ∧ (kalloc M1).1 = f ∧
      (∀ i, 4 ≤ i → i < 4096 → (kalloc M1).2.mem (f + i) = 1) ∧
      read32 (kalloc M1).2.mem f = M.freelist ∧
      (kalloc M1).2.freelist = M.freelist := by
  obtain ⟨v1, v2, v3⟩ := hv
  have hno : ¬ (f % PGSIZE ≠ 0 ∨ f < cfg.kend ∨ V2P cfg f ≥ cfg.PHYSTOP) := by
    omega
  refine ⟨{ mem := write32 (memset M.mem f 1 PGSIZE) f M.freelist, freelist := f,
            base_p := M.base_p, sbrk_addr := M.sbrk_addr, freep := M.freep,
            first := M.first }, by simp only [kfree, hno, if_false], ?_⟩
  simp only [kalloc, ne_eq, hf, not_false_eq_true, if_true]
  refine ⟨trivial, ?_, read32_write32_same _ _ _ hfl, read32_write32_same _ _ _ hfl⟩
  intro i h4 hi
  simp only [write32, memset, PGSIZE]
  have e0 : ¬ (f + i = f) := by omega
  have e1 : ¬ (f + i = f + 1) := by omega
  have e2 : ¬ (f + i = f + 2) := by omega
  have e3 : ¬ (f + i = f + 3) := by omega
  have e4 : f ≤ f + i ∧ f + i < f + 4096 := by omega
  simp only [e0, e1, e2, e3, if_false, e4, and_self, if_true]

/-- C16, at a concrete input: the free list of a machine with three frames. -/
theorem C16_kalloc_kfree_witness :
    (([2148540416, 2148536320, 2148532224] : List Nat) = [] → kalloc (ex_mem 3) = (0, ex_mem 3)) ∧
    ∀ f t, ([2148540416, 2148536320, 2148532224] : List Nat) = f :: t →
      (kalloc (ex_mem 3)).1 = f ∧ (kalloc (ex_mem 3)).2.mem = (ex_mem 3).mem ∧
      is_free_list (kalloc (ex_mem 3)).2.mem (kalloc (ex_mem 3)).2.freelist t ∧
      ∃ M2, kfree ex_lay f (kalloc (ex_mem 3)).2 = outcome.ret M2 ∧
        is_free_list M2.mem M2.freelist [2148540416, 2148536320, 2148532224] ∧
        (M2.base_p, M2.sbrk_addr, M2.freep, M2.first)
          = ((ex_mem 3).base_p, (ex_mem 3).sbrk_addr, (ex_mem 3).freep, (ex_mem 3).first) :=
  C16_kalloc_kfree ex_lay (ex_mem 3) [2148540416, 2148536320, 2148532224]
    (by simp only [is_free_list]; decide) (by decide)

/-- C17 (amended), at a concrete input: the lowest frame of a machine with three
free frames is freed again. -/
theorem C17_kfree_kalloc_witness :
    ∃ M1, kfree ex_lay 2148532224 (ex_mem 3) = outcome.ret M1 ∧ (kalloc M1).1 = 2148532224 ∧
      (∀ i, 4 ≤ i → i < 4096 → (kalloc M1).2.mem (2148532224 + i) = 1) ∧
      read32 (kalloc M1).2.mem 2148532224 = (ex_mem 3).freelist ∧
      (kalloc M1).2.freelist = (ex_mem 3).freelist :=
  C17_kfree_kalloc ex_lay (ex_mem 3) 2148532224 (by decide) (by decide) (by decide)

theorem bind_ret_inv {α β : Type} (x : outcome α) (f : α → outcome β) (r : β)
    (h : x.bind f = outcome.ret r) : ∃ a, x = outcome.ret a ∧ f a = outcome.ret r := by
  cases x with
  | ret a => exact ⟨a, rfl, h⟩
  | fault => simp [outcome.bind] at h
  | out_of_fuel => simp [outcome.bind] at h

/-- The scan of `wait` when it finds a child to reap: the child is the first
ZOMBIE child of the list. -/
theorem wait_scan_some (cur : Nat) (l : List proc) : ∀ (i : Nat) (hk : Bool) (j : Nat)
    (p : proc) (b : Bool), wait_scan cur l i hk = (some (j, p), b) →
    ∃ pre post, l = pre ++ p :: post ∧ j = i + pre.length ∧ p.parent = cur ∧
      p.state = ZOMBIE ∧ ∀ q ∈ pre, q.parent = cur → q.state ≠ ZOMBIE := by
  induction l with
  | nil =>
    intro i hk j p b h
    simp [wait_scan] at h
  | cons a rest ih =>
    intro i hk j p b h
    unfold wait_scan at h
    by_cases hp : a.parent = cur
    · simp only [hp, ne_eq, not_true_eq_false, if_false] at h
      by_cases hz : a.state = ZOMBIE
      · simp only [hz, if_true, Prod.mk.injEq, Option.some.injEq] at h
        obtain ⟨⟨e1, e2⟩, _⟩ := h
        subst e1 e2
        exact ⟨[], rest, rfl, by simp, hp, hz, by simp⟩
      · simp only [hz, if_false] at h
        obtain ⟨pre, post, e, ej, h1, h2, h3⟩ := ih _ _ _ _ _ h
        refine ⟨a :: pre, post, by simp [e], by simp [ej]; omega, h1, h2, ?_⟩
        intro q hq hqp
        rcases List.mem_cons.mp hq with rfl | hq
        · exact hz
        · exact h3 q hq hqp
    · simp only [ne_eq, hp, not_false_eq_true, if_true] at h
      obtain ⟨pre, post, e, ej, h1, h2, h3⟩ := ih _ _ _ _ _ h
      refine ⟨a :: pre, post, by simp [e], by simp [ej]; omega, h1, h2, ?_⟩
      intro q hq hqp
      rcases List.mem_cons.mp hq with rfl | hq
      · exact absurd hqp hp
      · exact h3 q hq hqp

/-- The scan of `wait` when no child is ZOMBIE: nothing is found, and `havekids`
tells whether the list has a child of the caller. -/
theorem wait_scan_none (cur : Nat) (l : List proc) : ∀ (i : Nat) (hk : Bool),
    (∀ q ∈ l, q.parent = cur → q.state ≠ ZOMBIE) →
    wait_scan cur l i hk = (none, hk || l.any fun q => decide (q.parent = cur)) := by
  induction l with
  | nil =>
    intro i hk _
    simp [wait_scan]
  | cons a rest ih =>
    intro i hk h
    unfold wait_scan
    have hrest : ∀ q ∈ rest, q.parent = cur → q.state ≠ ZOMBIE :=
      fun q hq => h q (List.mem_cons_of_mem _ hq)
    by_cases hp : a.parent = cur
    · have hz := h a (List.mem_cons_self _ _) hp
      simp only [hp, ne_eq, not_true_eq_false, if_false, hz]
      rw [ih _ _ hrest]
      simp [hp]
    · simp only [ne_eq, hp, not_false_eq_true, if_true]
      rw [ih _ _ hrest]
      simp [hp]

/-- What `wait` does when the list holds no ZOMBIE child of the caller: it returns
-1 and changes nothing when the list holds no child of the caller at all or the
caller is killed, and otherwise the caller goes to sleep on its own address. -/
theorem wait_no_zombie (cfg : config) (co : collab) (c : cpu) (cur : proc)
    (hc : c.proc = some cur)
    (hz : ∀ q ∈ c.k.queue, q.parent = cur.addr → q.state ≠ ZOMBIE) :
    (((∀ q ∈ c.k.queue, q.parent ≠ cur.addr) ∨ cur.killed ≠ 0) →
      wait cfg co c = outcome.ret (some (-1), c)) ∧
    (¬ ((∀ q ∈ c.k.queue, q.parent ≠ cur.addr) ∨ cur.killed ≠ 0) →
      wait cfg co c = outcome.ret (none,
        { c with proc := some { cur with chan := cur.addr, state := SLEEPING } })) := by
  have hs := wait_scan_none cur.addr c.k.queue 0 false hz
  have hany : (c.k.queue.any fun q => decide (q.parent = cur.addr)) = false ↔
      ∀ q ∈ c.k.queue, q.parent ≠ cur.addr := by
    simp [List.any_eq_false]
  constructor
  · intro h
    unfold wait
    rw [hc]
    simp only [hs, Bool.false_or]
    rcases h with h | h
    · simp [hany.mpr h]
    · simp [h]
  · intro h
    unfold wait
    rw [hc]
    simp only [hs, Bool.false_or]
    have h1 : ¬ ((c.k.queue.any fun q => decide (q.parent = cur.addr)) = false) :=
      fun e => h (Or.inl (hany.mp e))
    have h2 : ¬ (cur.killed ≠ 0) := fun e => h (Or.inr e)
    have h2k : cur.killed = 0 := not_not.mp h2
    rw [if_neg (by simp [h1, h2k])]
    simp only [sleep]

/-- What `wait` leaves behind when it returns or goes to sleep. -/
theorem wait_ret (cfg : config) (co : collab) (c : cpu) (r : Option Int × cpu)
    (h : wait cfg co c = outcome.ret r) :
    ∃ cur, c.proc = some cur ∧ r.2.k.nextpid = c.k.nextpid ∧
      ((∃ pre p post, c.k.queue = pre ++ p :: post ∧ r.2.k.queue = pre ++ post ∧
          r.1 = some p.pid ∧ r.2.proc = c.proc ∧ p.parent = cur.addr ∧ p.state = ZOMBIE ∧
          ∀ q ∈ pre, q.parent = cur.addr → q.state ≠ ZOMBIE) ∨
       (r.2.k = c.k ∧ ((r.1 = some (-1) ∧ r.2.proc = c.proc) ∨
          (r.1 = none ∧
            r.2.proc = some { cur with chan := cur.addr, state := SLEEPING })))) := by
  unfold wait at h
  cases hc : c.proc with
  | none => rw [hc] at h; simp at h
  | some cur =>
    rw [hc] at h
    simp only at h
    refine ⟨cur, rfl, ?_⟩
    cases hs : wait_scan cur.addr c.k.queue 0 false with
    | mk found hk =>
      rw [hs] at h
      cases found with
      | none =>
        simp only at h
        split at h
        · simp only [outcome.ret.injEq] at h
          subst h
          exact ⟨rfl, Or.inr ⟨rfl, Or.inl ⟨rfl, hc⟩⟩⟩
        · simp only [outcome.ret.injEq] at h
          subst h
          exact ⟨rfl, Or.inr ⟨rfl, Or.inr ⟨rfl, rfl⟩⟩⟩
      | some ip =>
        obtain ⟨i, p⟩ := ip
        simp only at h
        obtain ⟨pre, post, e, ej, h1, h2, h3⟩ := wait_scan_some _ _ _ _ _ _ _ hs
        obtain ⟨M1, hf, h⟩ := bind_ret_inv _ _ _ h
        obtain ⟨M3, hg, h⟩ := bind_ret_inv _ _ _ h
        simp only [outcome.ret.injEq] at h
        subst h
        refine ⟨rfl, Or.inl ⟨pre, p, post, e, ?_, rfl, rfl, h1, h2, h3⟩⟩
        simp only [zero_add] at ej
        subst ej
        simp [e, List.eraseIdx_append_of_length_le]

/-- What `kill` does: it returns 0 exactly when an entry of the list has the pid;
then the first such entry gets `killed = 1` and goes from SLEEPING to RUNNABLE,
and nothing else changes; otherwise it returns -1 and changes nothing. -/
theorem kill_spec (pid : Int) (k : kernel) :
    ((∀ q ∈ k.queue, q.pid ≠ pid) ∧ kill pid k = (-1, k)) ∨
    ∃ pre p post, k.queue = pre ++ p :: post ∧ (∀ q ∈ pre, q.pid ≠ pid) ∧ p.pid = pid ∧
      kill pid k = (0, { k with queue := pre ++
        { p with killed := 1, state := if p.state = SLEEPING then RUNNABLE else p.state }
          :: post }) := by
  have key : ∀ l : List proc, ((∀ q ∈ l, q.pid ≠ pid) ∧ kill_scan pid l = none) ∨
      ∃ pre p post, l = pre ++ p :: post ∧ (∀ q ∈ pre, q.pid ≠ pid) ∧ p.pid = pid ∧
        kill_scan pid l = some (pre ++
          { p with killed := 1, state := if p.state = SLEEPING then RUNNABLE else p.state }
            :: post) := by
    intro l
    induction l with
    | nil => left; simp [kill_scan]
    | cons a rest ih =>
      by_cases ha : a.pid = pid
      · right
        refine ⟨[], a, rest, rfl, by simp, ha, ?_⟩
        simp only [kill_scan, ha, if_true, List.nil_append, Option.some.injEq,
          List.cons.injEq, and_true]
        split <;> simp_all
      · rcases ih with ⟨h1, h2⟩ | ⟨pre, p, post, e, h1, h2, h3⟩
        · left
          refine ⟨?_, by simp [kill_scan, ha, h2]⟩
          intro q hq
          rcases List.mem_cons.mp hq with rfl | hq
          · exact ha
          · exact h1 q hq
        · right
          refine ⟨a :: pre, p, post, by simp [e], ?_, h2, by simp [kill_scan, ha, h3]⟩
          intro q hq
          rcases List.mem_cons.mp hq with rfl | hq
          · exact ha
          · exact h1 q hq
  rcases key k.queue with ⟨h1, h2⟩ | ⟨pre, p, post, e, h1, h2, h3⟩
  · left
    exact ⟨h1, by simp [kill, h2]⟩
  · right
    exact ⟨pre, p, post, e, h1, h2, by simp [kill, h3]⟩

/-- C12, the code at the failing input.  The first process has forked a child (pid
2) and is not killed; another CPU runs `scheduler` on the shared table and
dispatches the child, which `remove_min` unlinks.  The child is RUNNING and its
parent is the caller, yet `wait` returns -1.  With the child still in the list,
`wait` puts the caller to sleep on its own address. -/
theorem C12_wait_misses_running_child :
    (ex_fork 14).2.proc.map (fun p => (p.addr, p.killed)) = some (2148589416, 0) ∧
    (ex_other_cpu.1.pid, ex_other_cpu.1.parent, ex_other_cpu.1.state)
      = (2, 2148589416, RUNNING) ∧
    ex_other_cpu.2.queue = [] ∧
    (wait ex_cfg ex_co { proc := (ex_fork 14).2.proc, k := ex_other_cpu.2 }).returns = true ∧
    ((wait ex_cfg ex_co { proc := (ex_fork 14).2.proc, k := ex_other_cpu.2 }).get_or
      (none, ex_run 14)).1 = some (-1) ∧
    ((wait ex_cfg ex_co (ex_fork 14).2).get_or (some 0, ex_run 14)).1 = none ∧
    ((wait ex_cfg ex_co (ex_fork 14).2).get_or (some 0, ex_run 14)).2.proc.map
      (fun p => (p.state, p.chan)) = some (SLEEPING, 2148589416) := by
  decide

/-- C13, the code at the failing input.  The first process (pid 1) is RUNNING, so
`remove_min` has unlinked it; it calls `kill` with its own pid: `kill` returns
-1 and the killed flag stays 0.  The same holds for the forked child once
another CPU has dispatched it. -/
theorem C13_kill_misses_running_process :
    (ex_run 14).proc.map (fun p => (p.pid, p.state, p.killed)) = some (1, RUNNING, 0) ∧
    (kill 1 (ex_run 14).k).1 = -1 ∧
    (kill 1 (ex_run 14).k).2.queue = (ex_run 14).k.queue ∧
    (kill 2 (ex_fork 14).2.k).1 = 0 ∧
    (ex_other_cpu.1.pid, ex_other_cpu.1.state) = (2, RUNNING) ∧
    (kill 2 ex_other_cpu.2).1 = -1 := by
  decide

theorem wakeup1_pids (chan : Nat) (k : kernel) :
    (wakeup1 chan k).queue.map (fun p => p.pid) = k.queue.map (fun p => p.pid) ∧
    (wakeup1 chan k).nextpid = k.nextpid ∧ (wakeup1 chan k).initproc = k.initproc := by
  refine ⟨?_, rfl, rfl⟩
  simp only [wakeup1, List.map_map]
  apply List.map_congr_left
  intro p _
  simp only [Function.comp]
  split <;> simp [assign_min_pass_value]

theorem exit_loop_pids (cur : Nat) (n : Nat) : ∀ (i : Nat) (k : kernel),
    (exit_loop cur n i k).queue.map (fun p => p.pid) = k.queue.map (fun p => p.pid) ∧
    (exit_loop cur n i k).nextpid = k.nextpid := by
  induction n with
  | zero =>
    intro i k
    exact ⟨rfl, rfl⟩
  | succ n ih =>
    intro i k
    unfold exit_loop
    cases hq : k.queue[i]? with
    | none => exact ⟨rfl, rfl⟩
    | some p =>
      simp only
      have hset : (k.queue.set i { p with parent := k.initproc }).map (fun p => p.pid)
          = k.queue.map (fun p => p.pid) := by
        apply List.ext_getElem?
        intro j
        simp only [List.getElem?_map, List.getElem?_set]
        by_cases hij : i = j
        · subst hij
          simp only [if_true, hq, Option.map_some']
          have hlt : i < k.queue.length := by
            rcases Nat.lt_or_ge i k.queue.length with h | h
            · exact h
            · rw [List.getElem?_eq_none h] at hq
              exact absurd hq (by simp)
          simp [hlt]
        · simp [hij]
      split
      · split
        · obtain ⟨a, b⟩ := ih (i + 1) (wakeup1 k.initproc
            { k with queue := k.queue.set i { p with parent := k.initproc } })
          rw [a, b]
          obtain ⟨w1, w2, _⟩ := wakeup1_pids k.initproc
            { k with queue := k.queue.set i { p with parent := k.initproc } }
          rw [w1, w2]
          exact ⟨hset, rfl⟩
        · obtain ⟨a, b⟩ := ih (i + 1)
            { k with queue := k.queue.set i { p with parent := k.initproc } }
          rw [a, b]
          exact ⟨hset, rfl⟩
      · exact ih (i + 1) k

/-- What `exit` leaves behind: the pids of the list, of the caller, and `nextpid`
are as before. -/
theorem exit_ret (co : collab) (p : proc) (k : kernel) (r : proc × kernel)
    (h : exit co p k = outcome.ret r) :
    r.1.pid = p.pid ∧ r.1.state = ZOMBIE ∧
    r.2.queue.map (fun p => p.pid) = k.queue.map (fun p => p.pid) ∧
    r.2.nextpid = k.nextpid := by
  unfold exit at h
  split at h
  · simp at h
  · simp only [outcome.ret.injEq] at h
    subst h
    refine ⟨rfl, rfl, ?_, ?_⟩
    · rw [(exit_loop_pids _ _ _ _).1, (wakeup1_pids _ _).1]
    · rw [(exit_loop_pids _ _ _ _).2, (wakeup1_pids _ _).2.1]

theorem write32_out (m : Mem) (a v x : Nat) (h : x < a ∨ a + 4 ≤ x) :
    write32 m a v x = m x := by
  unfold write32
  have h0 : x ≠ a := by omega
  have h1 : x ≠ a + 1 := by omega
  have h2 : x ≠ a + 2 := by omega
  have h3 : x ≠ a + 3 := by omega
  simp [h0, h1, h2, h3]

theorem read32_congr (m1 m2 : Mem) (a : Nat)
    (h : ∀ x, a ≤ x → x < a + 4 → m1 x = m2 x) : read32 m1 a = read32 m2 a := by
  unfold read32
  rw [h a (by omega) (by omega), h (a + 1) (by omega) (by omega),
    h (a + 2) (by omega) (by omega), h (a + 3) (by omega) (by omega)]

theorem hdr_ptr_lt (m : Mem) (a : Nat) : hdr_ptr m a < 4294967296 := read32_lt m a

theorem hdr_size_lt (m : Mem) (a : Nat) : hdr_size m a < 4294967296 := read32_lt m (a + 4)

theorem hdr_ptr_set_ptr (m : Mem) (a v : Nat) (hv : v < 4294967296) :
    hdr_ptr (set_ptr m a v) a = v := read32_write32_same m a v hv

theorem hdr_size_set_size (m : Mem) (a v : Nat) (hv : v < 4294967296) :
    hdr_size (set_size m a v) a = v := read32_write32_same m (a + 4) v hv

theorem hdr_ptr_set_ptr_ne (m : Mem) (a b v : Nat) (h : b + 4 ≤ a ∨ a + 4 ≤ b) :
    hdr_ptr (set_ptr m a v) b = hdr_ptr m b := read32_write32_ne m a b v h

theorem hdr_ptr_set_size (m : Mem) (a b v : Nat) (h : b ≤ a ∨ a + 8 ≤ b) :
    hdr_ptr (set_size m a v) b = hdr_ptr m b :=
  read32_write32_ne m (a + 4) b v (by omega)

theorem hdr_size_set_ptr (m : Mem) (a b v : Nat) (h : b + 8 ≤ a ∨ a ≤ b) :
    hdr_size (set_ptr m a v) b = hdr_size m b :=
  read32_write32_ne m a (b + 4) v (by omega)

theorem hdr_size_set_size_ne (m : Mem) (a b v : Nat) (h : b + 4 ≤ a ∨ a + 4 ≤ b) :
    hdr_size (set_size m a v) b = hdr_size m b :=
  read32_write32_ne m (a + 4) (b + 4) v (by omega)

theorem set_ptr_out (m : Mem) (a v x : Nat) (h : x < a ∨ a + 8 ≤ x) :
    set_ptr m a v x = m x := write32_out m a v x (by omega)

theorem set_size_out (m : Mem) (a v x : Nat) (h : x < a ∨ a + 8 ≤ x) :
    set_size m a v x = m x := write32_out m (a + 4) v x (by omega)

theorem hdr_congr (m1 m2 : Mem) (a : Nat) (h : ∀ x, a ≤ x → x < a + 8 → m1 x = m2 x) :
    hdr_ptr m1 a = hdr_ptr m2 a ∧ hdr_size m1 a = hdr_size m2 a :=
  ⟨read32_congr m1 m2 a fun x h1 h2 => h x h1 (by omega),
   read32_congr m1 m2 (a + 4) fun x h1 h2 => h x (by omega) (by omega)⟩

theorem head_addr_append (l1 l2 : List (Nat × Nat)) (q : Nat) :
    head_addr (l1 ++ l2) q = head_addr l1 (head_addr l2 q) := by
  cases l1 <;> rfl

theorem chain_append (m : Mem) (l1 l2 : List (Nat × Nat)) (q : Nat) :
    chain m (l1 ++ l2) q ↔ chain m l1 (head_addr l2 q) ∧ chain m l2 q := by
  induction l1 with
  | nil => simp [chain]
  | cons c t ih =>
    constructor
    · intro h
      obtain ⟨h1, h2, h3⟩ := h
      obtain ⟨h4, h5⟩ := ih.mp h3
      exact ⟨⟨(head_addr_append t l2 q) ▸ h1, h2, h4⟩, h5⟩
    · intro h
      obtain ⟨⟨h1, h2, h3⟩, h5⟩ := h
      exact ⟨(head_addr_append t l2 q).symm ▸ h1, h2, ih.mpr ⟨h3, h5⟩⟩

/-- A chain is still one when the headers of its chunks are as before. -/
theorem chain_frame (m1 m2 : Mem) (l : List (Nat × Nat)) (q : Nat)
    (h : ∀ c ∈ l, ∀ x, c.1 ≤ x → x < c.1 + 8 → m2 x = m1 x) (hc : chain m1 l q) :
    chain m2 l q := by
  induction l with
  | nil => trivial
  | cons c t ih =>
    obtain ⟨h1, h2, h3⟩ := hc
    obtain ⟨e1, e2⟩ := hdr_congr m2 m1 c.1 (h c (List.mem_cons_self _ _))
    exact ⟨e1.trans h1, e2.trans h2, ih (fun d hd => h d (List.mem_cons_of_mem _ hd)) h3⟩

theorem chain_mem (m : Mem) (l : List (Nat × Nat)) (q : Nat) (hc : chain m l q)
    (c : Nat × Nat) (h : c ∈ l) : hdr_size m c.1 = c.2 := by
  induction l with
  | nil => simp at h
  | cons a t ih =>
    obtain ⟨_, h2, h3⟩ := hc
    rcases List.mem_cons.mp h with rfl | h
    · exact h2
    · exact ih h3 h

theorem k_free_find_succ (m : Mem) (bp fuel p : Nat) :
    k_free_find m bp (fuel + 1) p =
      if bp > p ∧ bp < hdr_ptr m p then some p
      else if p ≥ hdr_ptr m p ∧ (bp > p ∨ bp < hdr_ptr m p) then some p
      else k_free_find m bp fuel (hdr_ptr m p) := rfl

/-- The loop of `k_free` along chunks that lie below `bp`: it stops at the last of
them, `d`, when the successor of `d` is above `bp` or `d` closes the cycle. -/
theorem k_free_find_low (m : Mem) (bp q : Nat) (d : Nat × Nat) :
    ∀ (t : List (Nat × Nat)) (fuel : Nat), chain m t q →
      List.Pairwise (fun x y => x.1 < y.1) t → (∀ x ∈ t, x.1 < bp) →
      t.getLast? = some d → (bp < q ∨ q ≤ d.1) → t.length ≤ fuel →
      k_free_find m bp fuel (head_addr t q) = some d.1 := by
  intro t
  induction t with
  | nil =>
    intro fuel _ _ _ hl
    simp at hl
  | cons z t ih =>
    intro fuel hc hp hlow hl hq hf
    obtain ⟨h1, _, h3⟩ := hc
    have hz := hlow z (List.mem_cons_self _ _)
    obtain ⟨f, rfl⟩ : ∃ f, fuel = f + 1 := ⟨fuel - 1, by simp at hf; omega⟩
    cases t with
    | nil =>
      simp only [List.getLast?_singleton, Option.some.injEq] at hl
      subst hl
      simp only [head_addr] at h1 ⊢
      rw [k_free_find_succ]
      rw [h1]
      rcases hq with hq | hq
      · rw [if_pos ⟨hz, hq⟩]
      · by_cases h : bp > z.1 ∧ bp < q
        · rw [if_pos h]
        · rw [if_neg h, if_pos ⟨hq, Or.inl hz⟩]
    | cons z2 t2 =>
      have hz2 := hlow z2 (List.mem_cons_of_mem _ (List.mem_cons_self _ _))
      have hlt : z.1 < z2.1 := (List.pairwise_cons.mp hp).1 z2 (List.mem_cons_self _ _)
      simp only [head_addr] at h1 ⊢
      rw [k_free_find_succ]
      rw [h1, if_neg (by omega), if_neg (by omega)]
      have := ih f h3 (List.pairwise_cons.mp hp).2
        (fun x hx => hlow x (List.mem_cons_of_mem _ hx))
        (by simpa using hl) hq (by simp at hf ⊢; omega)
      simpa [head_addr] using this

/-- The loop of `k_free` along chunks that lie above `bp`: it passes all of them. -/
theorem k_free_find_high (m : Mem) (bp q : Nat) :
    ∀ (t : List (Nat × Nat)) (fuel : Nat), chain m t q →
      List.Pairwise (fun x y => x.1 < y.1) t → (∀ x ∈ t, bp < x.1) → q < bp →
      k_free_find m bp (fuel + t.length) (head_addr t q) = k_free_find m bp fuel q := by
  intro t
  induction t with
  | nil =>
    intro fuel _ _ _ _
    rfl
  | cons z t ih =>
    intro fuel hc hp hhigh hq
    obtain ⟨h1, _, h3⟩ := hc
    have hz := hhigh z (List.mem_cons_self _ _)
    have e : fuel + (z :: t).length = (fuel + t.length) + 1 := by simp; omega
    rw [e]
    simp only [head_addr]
    rw [k_free_find_succ]
    have hnx : z.1 < hdr_ptr m z.1 ∨ hdr_ptr m z.1 < bp := by
      rw [h1]
      cases t with
      | nil => exact Or.inr hq
      | cons z2 t2 =>
        exact Or.inl ((List.pairwise_cons.mp hp).1 z2 (List.mem_cons_self _ _))
    rw [if_neg (by omega), if_neg (by omega), h1]
    exact ih fuel h3 (List.pairwise_cons.mp hp).2
      (fun x hx => hhigh x (List.mem_cons_of_mem _ hx)) hq

/-- The loop of `k_free` on a sorted cycle: from any chunk of the cycle it finds
the last chunk below `bp`. -/
theorem k_free_find_spec (m : Mem) (bp B p fuel : Nat) (pre post : List (Nat × Nat))
    (d : Nat × Nat) (hc : chain m (pre ++ d :: post) B)
    (hB : head_addr (pre ++ [d]) B = B)
    (hp : List.Pairwise (fun x y => x.1 < y.1) (pre ++ d :: post))
    (hlow : ∀ x ∈ pre ++ [d], x.1 < bp) (hhigh : ∀ y ∈ post, bp < y.1)
    (hmem : p ∈ (pre ++ d :: post).map Prod.fst)
    (hf : (pre ++ d :: post).length < fuel) :
    k_free_find m bp fuel p = some d.1 := by
  have hG : pre ++ d :: post = (pre ++ [d]) ++ post := by simp
  rw [hG] at hc hp hmem hf
  obtain ⟨hc1, hc2⟩ := (chain_append m _ _ _).mp hc
  obtain ⟨hp1, hp2, hp3⟩ := List.pairwise_append.mp hp
  have hBd : B ≤ d.1 := by
    cases pre with
    | nil => simp only [List.nil_append, head_addr] at hB; omega
    | cons a pre2 =>
      simp only [List.cons_append, head_addr] at hB
      simp only [List.cons_append, List.pairwise_cons] at hp1
      have := hp1.1 d (by simp)
      omega
  have hBlt : B < bp := by
    cases pre with
    | nil =>
      simp only [List.nil_append, head_addr] at hB
      have := hlow d (by simp)
      omega
    | cons a pre2 =>
      simp only [List.cons_append, head_addr] at hB
      have := hlow a (by simp)
      omega
  have hexit : bp < head_addr post B ∨ head_addr post B ≤ d.1 := by
    cases post with
    | nil => exact Or.inr hBd
    | cons e post2 => exact Or.inl (hhigh e (List.mem_cons_self _ _))
  have hwhole : ∀ f, (pre ++ [d]).length ≤ f → k_free_find m bp f B = some d.1 := by
    intro f hf2
    have := k_free_find_low m bp (head_addr post B) d (pre ++ [d]) f hc1 hp1 hlow
      (by simp) hexit hf2
    rw [← this]
    congr 1
    cases pre with
    | nil => simp only [List.nil_append, head_addr] at hB ⊢; omega
    | cons a pre2 => simp only [List.cons_append, head_addr] at hB ⊢; omega
  simp only [List.mem_map] at hmem
  obtain ⟨x, hx, rfl⟩ := hmem
  rcases List.mem_append.mp hx with hx | hx
  · obtain ⟨s, t, hst⟩ := List.append_of_mem hx
    rw [hst] at hc1 hp1 hlow
    obtain ⟨_, hc3⟩ := (chain_append m _ _ _).mp hc1
    have hl : (x :: t).getLast? = some d := by
      have := congrArg List.getLast? hst
      simpa using this.symm
    have := k_free_find_low m bp (head_addr post B) d (x :: t) fuel hc3
      (List.pairwise_append.mp hp1).2.1 (fun y hy => hlow y (List.mem_append_right _ hy))
      hl hexit (by
        have := congrArg List.length hst
        simp at this hf ⊢
        omega)
    simpa [head_addr] using this
  · obtain ⟨s, t, hst⟩ := List.append_of_mem hx
    rw [hst] at hc2 hp2 hhigh hf
    obtain ⟨_, hc3⟩ := (chain_append m _ _ _).mp hc2
    obtain ⟨f, rfl⟩ : ∃ f, fuel = f + (x :: t).length :=
      ⟨fuel - (x :: t).length, by simp at hf ⊢; omega⟩
    have := k_free_find_high m bp B (x :: t) f hc3 (List.pairwise_append.mp hp2).2.1
      (fun y hy => hhigh y (List.mem_append_right _ hy)) hBlt
    simp only [head_addr] at this
    rw [this]
    exact hwhole f (by simp at hf ⊢; omega)

theorem head_addr_merge2 (x : Nat × Nat) (l : List (Nat × Nat)) (q : Nat) :
    head_addr (merge2 x l) q = x.1 := by
  cases l with
  | nil => rfl
  | cons y t =>
    simp only [merge2]
    split <;> rfl

theorem merge2_mem (x : Nat × Nat) (l : List (Nat × Nat)) (z : Nat × Nat)
    (h : z ∈ merge2 x l) :
    z = x ∨ z ∈ l ∨ ∃ e ∈ l, x.1 + 8 * x.2 = e.1 ∧ z = (x.1, x.2 + e.2) := by
  cases l with
  | nil =>
    simp only [merge2, List.mem_singleton] at h
    exact Or.inl h
  | cons y t =>
    simp only [merge2] at h
    split at h
    · rename_i hm
      rcases List.mem_cons.mp h with h | h
      · exact Or.inr (Or.inr ⟨y, List.mem_cons_self _ _, hm, h⟩)
      · exact Or.inr (Or.inl (List.mem_cons_of_mem _ h))
    · rcases List.mem_cons.mp h with h | h
      · exact Or.inl h
      · exact Or.inr (Or.inl h)

theorem merge2_pairwise (x : Nat × Nat) (l : List (Nat × Nat))
    (hp : List.Pairwise apart l)
    (hx : ∀ y ∈ l, x.1 + 8 * x.2 ≤ y.1 ∧ x.1 + 8 ≤ y.1) :
    List.Pairwise apart (merge2 x l) := by
  cases l with
  | nil => simp [merge2]
  | cons y t =>
    obtain ⟨hy, ht⟩ := List.pairwise_cons.mp hp
    simp only [merge2]
    split
    · rename_i hm
      refine List.pairwise_cons.mpr ⟨?_, ht⟩
      intro z hz
      have h1 := hy z hz
      have h2 := hx z (List.mem_cons_of_mem _ hz)
      unfold apart at h1 ⊢
      simp only
      omega
    · rename_i hm
      refine List.pairwise_cons.mpr ⟨?_, hp⟩
      intro z hz
      rcases List.mem_cons.mp hz with rfl | hz
      · have := hx z (List.mem_cons_self _ _)
        unfold apart
        omega
      · have h1 := hy z hz
        have h2 := hx y (List.mem_cons_self _ _)
        unfold apart at h1 ⊢
        omega

theorem link_to_out (m : Mem) (x nxt z : Nat) (h : z < x ∨ x + 8 ≤ z) :
    link_to m x nxt z = m z := by
  unfold link_to
  split
  · rw [set_ptr_out _ _ _ _ h, set_size_out _ _ _ _ h]
  · rw [set_ptr_out _ _ _ _ h]

theorem hdr_add_eq (p n : Nat) (h : p + 8 * n < 4294967296) : hdr_add p n = p + 8 * n := by
  unfold hdr_add u32 HEADER
  exact Nat.mod_eq_of_lt h

/-- One linking step of `k_free` on a chain: the chunk `x`, whose header holds
its size, is put in front of the chain `l`. -/
theorem link_to_chain (m : Mem) (x : Nat × Nat) (l : List (Nat × Nat)) (q : Nat)
    (hc : chain m l q) (hs : hdr_size m x.1 = x.2)
    (hsep : ∀ y ∈ l, x.1 + 8 ≤ y.1)
    (hb : ∀ y ∈ l, y.1 + 8 * y.2 < 4294967296)
    (hx : x.1 + 8 * x.2 < 4294967296)
    (hq : l = [] → x.1 + 8 * x.2 ≠ q) (hqlt : q < 4294967296) :
    chain (link_to m x.1 (head_addr l q)) (merge2 x l) q := by
  unfold link_to
  rw [hs, hdr_add_eq _ _ hx]
  cases l with
  | nil =>
    simp only [head_addr, merge2]
    rw [if_neg (hq rfl)]
    refine ⟨?_, ?_, trivial⟩
    · exact hdr_ptr_set_ptr _ _ _ hqlt
    · rw [hdr_size_set_ptr _ _ _ _ (Or.inr (Nat.le_refl _))]
      exact hs
  | cons y t =>
    obtain ⟨h1, h2, h3⟩ := hc
    have hy := hsep y (List.mem_cons_self _ _)
    have hyb := hb y (List.mem_cons_self _ _)
    simp only [head_addr, merge2]
    by_cases hm : x.1 + 8 * x.2 = y.1
    · rw [if_pos hm, if_pos hm, h1, h2]
      have hsum : x.2 + y.2 < 4294967296 := by omega
      refine ⟨?_, ?_, ?_⟩
      · exact hdr_ptr_set_ptr _ _ _ (h1 ▸ hdr_ptr_lt m y.1)
      · simp only
        rw [hdr_size_set_ptr _ _ _ _ (Or.inr (Nat.le_refl _)),
          hdr_size_set_size _ _ _ (by unfold u32; omega)]
        unfold u32
        exact Nat.mod_eq_of_lt hsum
      · refine chain_frame m _ t q ?_ h3
        intro c hc2 z hz1 hz2
        have := hsep c (List.mem_cons_of_mem _ hc2)
        rw [set_ptr_out _ _ _ _ (by omega), set_size_out _ _ _ _ (by omega)]
    · rw [if_neg hm, if_neg hm]
      refine ⟨?_, ?_, ?_⟩
      · exact hdr_ptr_set_ptr _ _ _ (by omega)
      · rw [hdr_size_set_ptr _ _ _ _ (Or.inr (Nat.le_refl _))]
        exact hs
      · refine chain_frame m _ (y :: t) q ?_ ⟨h1, h2, h3⟩
        intro c hc2 z hz1 hz2
        have := hsep c hc2
        rw [set_ptr_out _ _ _ _ (by omega)]

/-- The body of `k_free` after the loop, as two linking steps. -/
theorem k_free_link_eq (bp p : Nat) (M : memstate) (hp : p + 8 ≤ bp)
    (hn : hdr_ptr M.mem p ≤ bp ∨ bp + 8 ≤ hdr_ptr M.mem p) :
    k_free_link bp p M =
      { M with mem := link_to (link_to M.mem bp (hdr_ptr M.mem p)) p bp, freep := p } := by
  unfold k_free_link link_to
  simp only
  have e1 : ∀ v, hdr_ptr (set_size M.mem bp v) p = hdr_ptr M.mem p :=
    fun v => hdr_ptr_set_size _ _ _ _ (by omega)
  have e2 : ∀ v, hdr_ptr (set_size M.mem bp v) (hdr_ptr M.mem p) = hdr_ptr M.mem (hdr_ptr M.mem p) :=
    fun v => hdr_ptr_set_size _ _ _ _ hn
  have e3 : ∀ m v, hdr_ptr (set_size m p v) bp = hdr_ptr m bp :=
    fun m v => hdr_ptr_set_size _ _ _ _ (by omega)
  simp only [e1, e2, e3]

/-- Addresses that increase strictly and lie below `K` are at most `K` many. -/
theorem sorted_length_le (K : Nat) : ∀ (l : List (Nat × Nat)) (lo : Nat),
    List.Pairwise (fun x y => x.1 < y.1) l → (∀ x ∈ l, lo ≤ x.1 ∧ x.1 < K) →
    l.length ≤ K - lo := by
  intro l
  induction l with
  | nil =>
    intro lo _ _
    simp
  | cons a t ih =>
    intro lo hp h
    obtain ⟨h1, h2⟩ := List.pairwise_cons.mp hp
    have ha := h a (List.mem_cons_self _ _)
    have := ih (a.1 + 1) h2 (fun x hx => ⟨h1 x hx, (h x (List.mem_cons_of_mem _ hx)).2⟩)
    simp only [List.length_cons]
    omega

theorem apart_lt (x y : Nat × Nat) (h : apart x y) : x.1 < y.1 := by
  unfold apart at h
  omega

theorem pairwise_apart_lt (l : List (Nat × Nat)) (h : List.Pairwise apart l) :
    List.Pairwise (fun x y => x.1 < y.1) l :=
  h.imp fun hxy => apart_lt _ _ hxy

theorem merge2_forall (P : Nat × Nat → Prop) (x : Nat × Nat) (l : List (Nat × Nat))
    (hx : P x) (hl : ∀ y ∈ l, P y)
    (hm : ∀ e ∈ l, x.1 + 8 * x.2 = e.1 → P (x.1, x.2 + e.2)) :
    ∀ z ∈ merge2 x l, P z := by
  intro z hz
  rcases merge2_mem x l z hz with rfl | h | ⟨e, he, h1, rfl⟩
  · exact hx
  · exact hl z h
  · exact hm e he h1

theorem merge2_of_ne (x : Nat × Nat) (l : List (Nat × Nat))
    (h : ∀ y ∈ l, x.1 + 8 * x.2 ≠ y.1) : merge2 x l = x :: l := by
  cases l with
  | nil => rfl
  | cons y t =>
    simp only [merge2]
    rw [if_neg (h y (List.mem_cons_self _ _))]

theorem merge2_addr (x : Nat × Nat) (l : List (Nat × Nat)) :
    x.1 ∈ (merge2 x l).map Prod.fst := by
  cases l with
  | nil => simp [merge2]
  | cons y t =>
    simp only [merge2]
    split <;> simp

theorem k_free_fuel_eq (fuel ap : Nat) (M : memstate) (p : Nat)
    (h : k_free_find M.mem (u32 (ap + 4294967296 - HEADER)) fuel M.freep = some p) :
    k_free_fuel fuel ap M
      = outcome.ret (k_free_link (u32 (ap + 4294967296 - HEADER)) p M) := by
  unfold k_free_fuel
  simp only [h]

/-- What `k_free` does on a well-formed free list: the chunk at `bp`, of `u`
units, which lies between the free chunks `d` and the first of `post`, is
linked there and merged with each of the two it touches. -/
theorem k_free_core (N : Nat) (M : memstate) (F pre post : List (Nat × Nat))
    (d : Nat × Nat) (bp u : Nat) (hinv : free_inv N M F)
    (hG : (M.base_p, 0) :: F = pre ++ d :: post)
    (hlow : ∀ x ∈ pre ++ [d], x.1 + 8 ≤ bp ∧ x.1 + 8 * x.2 ≤ bp)
    (hhigh : ∀ y ∈ post, bp + 8 * u ≤ y.1)
    (hs : hdr_size M.mem bp = u) (hu : 1 ≤ u)
    (hbp : M.sbrk_addr ≤ bp ∧ bp + 8 * u ≤ M.sbrk_addr + 8 * N) :
    ∃ M1 F1, k_free (bp + 8) M = outcome.ret M1 ∧
      (M.base_p, 0) :: F1 = pre ++ merge2 d (merge2 (bp, u) post) ∧
      free_inv N M1 F1 ∧ M1.freep = d.1 ∧ M1.base_p = M.base_p ∧
      M1.sbrk_addr = M.sbrk_addr ∧ M1.freelist = M.freelist ∧
      ∀ z, (z < bp ∨ bp + 8 ≤ z) → (z < d.1 ∨ d.1 + 8 ≤ z) → M1.mem z = M.mem z := by
  obtain ⟨hB0, hBS, hSN, hfirst, hchain, hpw, hF, hfreep⟩ := hinv
  -- every chunk of the cycle
  have hQ : ∀ c ∈ pre ++ d :: post, c.1 + 8 * c.2 ≤ M.sbrk_addr + 8 * N ∧
      M.base_p ≤ c.1 ∧ (M.base_p < c.1 → 1 ≤ c.2 ∧ M.sbrk_addr ≤ c.1) := by
    intro c hc
    rw [← hG] at hc
    rcases List.mem_cons.mp hc with rfl | hc
    · simp only
      omega
    · have := hF c hc
      omega
  rw [hG] at hchain hpw hfreep
  have hdlow := hlow d (by simp)
  have hB : head_addr (pre ++ [d]) M.base_p = M.base_p := by
    cases pre with
    | nil =>
      simp only [List.nil_append, List.cons.injEq] at hG
      simp only [List.nil_append, head_addr, ← hG.1]
    | cons a pre2 =>
      simp only [List.cons_append, List.cons.injEq] at hG
      simp only [List.cons_append, head_addr, ← hG.1]
  have hGsplit : pre ++ d :: post = (pre ++ [d]) ++ post := by simp
  have hpw2 := hpw
  rw [hGsplit] at hpw2
  obtain ⟨hpwL, hpwP, hpwX⟩ := List.pairwise_append.mp hpw2
  obtain ⟨hpwpre, _, hpwpd⟩ := List.pairwise_append.mp hpwL
  obtain ⟨hcpre, hcd⟩ := (chain_append M.mem pre (d :: post) M.base_p).mp hchain
  obtain ⟨hd1, hd2, hcpost⟩ := hcd
  -- the loop
  have hlen : (pre ++ d :: post).length < HEAP_STEPS := by
    have := sorted_length_le 4294967296 (pre ++ d :: post) 0 (pairwise_apart_lt _ hpw)
      (fun x hx => ⟨Nat.zero_le _, by have := hQ x hx; omega⟩)
    unfold HEAP_STEPS
    omega
  have hfind := k_free_find_spec M.mem bp M.base_p M.freep HEAP_STEPS pre post d hchain hB
    (pairwise_apart_lt _ hpw) (fun x hx => by have := hlow x hx; omega)
    (fun y hy => by have := hhigh y hy; omega) hfreep hlen
  have hbpv : u32 (bp + 8 + 4294967296 - HEADER) = bp := by
    unfold u32 HEADER
    omega
  have hBbp : M.base_p + 8 ≤ bp := by omega
  have hn : hdr_ptr M.mem d.1 ≤ bp ∨ bp + 8 ≤ hdr_ptr M.mem d.1 := by
    rw [hd1]
    cases post with
    | nil => simp only [head_addr]; omega
    | cons e post2 =>
      have := hhigh e (List.mem_cons_self _ _)
      simp only [head_addr]
      omega
  have hker : k_free (bp + 8) M = outcome.ret
      { M with mem := link_to (link_to M.mem bp (hdr_ptr M.mem d.1)) d.1 bp, freep := d.1 } := by
    have hf2 : k_free_find M.mem (u32 (bp + 8 + 4294967296 - HEADER)) HEAP_STEPS M.freep
        = some d.1 := by
      rw [hbpv]
      exact hfind
    unfold k_free
    rw [k_free_fuel_eq HEAP_STEPS (bp + 8) M d.1 hf2, hbpv,
      k_free_link_eq bp d.1 M hdlow.1 hn]
  -- the two linking steps
  have hBlt : M.base_p < 4294967296 := by omega
  have hc1 : chain (link_to M.mem bp (hdr_ptr M.mem d.1)) (merge2 (bp, u) post) M.base_p := by
    rw [hd1]
    refine link_to_chain M.mem (bp, u) post M.base_p hcpost hs ?_ ?_ ?_ ?_ hBlt
    · intro y hy
      have := hhigh y hy
      simp only
      omega
    · intro y hy
      have := hQ y (by simp [hy])
      omega
    · simp only
      omega
    · intro _
      simp only
      omega
  have hl1 : ∀ y ∈ merge2 (bp, u) post, d.1 + 8 * d.2 ≤ y.1 ∧ d.1 + 8 ≤ y.1 ∧
      y.1 + 8 * y.2 ≤ M.sbrk_addr + 8 * N ∧ 1 ≤ y.2 ∧ M.sbrk_addr ≤ y.1 := by
    apply merge2_forall
    · simp only
      omega
    · intro y hy
      have h1 := hhigh y hy
      have h2 := hQ y (by simp [hy])
      omega
    · intro e he hm
      have h1 := hhigh e he
      have h2 := hQ e (by simp [he])
      simp only at hm ⊢
      omega
  have hsd : hdr_size (link_to M.mem bp (hdr_ptr M.mem d.1)) d.1 = d.2 := by
    rw [← hd2]
    exact (hdr_congr _ _ d.1 fun z h1 h2 => link_to_out _ _ _ _ (by omega)).2
  have hdb : d.1 + 8 * d.2 < 4294967296 := by
    have := hQ d (by simp)
    omega
  have hc2 : chain (link_to (link_to M.mem bp (hdr_ptr M.mem d.1)) d.1 bp)
      (merge2 d (merge2 (bp, u) post)) M.base_p := by
    have := link_to_chain (link_to M.mem bp (hdr_ptr M.mem d.1)) d (merge2 (bp, u) post)
      M.base_p hc1 hsd (fun y hy => (hl1 y hy).2.1)
      (fun y hy => by have := hl1 y hy; omega) hdb
      (fun h => by
        have := merge2_addr (bp, u) post
        rw [h] at this
        simp at this) hBlt
    rw [head_addr_merge2] at this
    exact this
  have hc3 : chain (link_to (link_to M.mem bp (hdr_ptr M.mem d.1)) d.1 bp)
      (pre ++ merge2 d (merge2 (bp, u) post)) M.base_p := by
    refine (chain_append _ _ _ _).mpr ⟨?_, hc2⟩
    rw [head_addr_merge2]
    refine chain_frame M.mem _ pre d.1 ?_ hcpre
    intro c hc z hz1 hz2
    have h1 := hlow c (by simp [hc])
    have h2 := hpwpd c hc d (by simp)
    unfold apart at h2
    rw [link_to_out _ _ _ _ (by omega), link_to_out _ _ _ _ (by omega)]
  -- order
  have hp2 : List.Pairwise apart (pre ++ merge2 d (merge2 (bp, u) post)) := by
    refine List.pairwise_append.mpr ⟨hpwpre, ?_, ?_⟩
    · refine merge2_pairwise d _ (merge2_pairwise (bp, u) post hpwP ?_) ?_
      · intro y hy
        have := hhigh y hy
        simp only
        omega
      · intro y hy
        have := hl1 y hy
        omega
    · intro a ha
      have had := hpwpd a ha d (by simp)
      unfold apart at had
      apply merge2_forall
      · unfold apart
        omega
      · intro y hy
        have := hl1 y hy
        unfold apart
        omega
      · intro e he hm
        unfold apart
        simp only
        omega
  -- the list without the anchor
  have hhead : ∃ F1, (M.base_p, 0) :: F1 = pre ++ merge2 d (merge2 (bp, u) post) := by
    cases pre with
    | nil =>
      simp only [List.nil_append, List.cons.injEq] at hG
      refine ⟨merge2 (bp, u) post, ?_⟩
      rw [List.nil_append, merge2_of_ne d, ← hG.1]
      intro y hy
      have := hl1 y hy
      rw [← hG.1] at this ⊢
      simp only at this ⊢
      omega
    | cons a pre2 =>
      simp only [List.cons_append, List.cons.injEq] at hG
      refine ⟨pre2 ++ merge2 d (merge2 (bp, u) post), ?_⟩
      rw [List.cons_append, ← hG.1]
  obtain ⟨F1, hF1⟩ := hhead
  refine ⟨_, F1, hker, hF1, ?_, rfl, rfl, rfl, rfl, ?_⟩
  · refine ⟨hB0, hBS, hSN, hfirst, ?_, ?_, ?_, ?_⟩
    · simp only
      rw [hF1]
      exact hc3
    · simp only
      rw [hF1]
      exact hp2
    · intro c hc
      simp only
      have hc2 : c ∈ pre ++ merge2 d (merge2 (bp, u) post) := by
        rw [← hF1]
        exact List.mem_cons_of_mem _ hc
      have hcB : M.base_p < c.1 := by
        have hp3 := hp2
        rw [← hF1] at hp3
        have := (List.pairwise_cons.mp hp3).1 c hc
        unfold apart at this
        simp only at this
        omega
      have hall : ∀ z ∈ pre ++ merge2 d (merge2 (bp, u) post),
          z.1 + 8 * z.2 ≤ M.sbrk_addr + 8 * N ∧
            (M.base_p < z.1 → 1 ≤ z.2 ∧ M.sbrk_addr ≤ z.1) := by
        intro z hz
        rcases List.mem_append.mp hz with hz | hz
        · have := hQ z (by simp [hz])
          omega
        · refine merge2_forall (fun z => z.1 + 8 * z.2 ≤ M.sbrk_addr + 8 * N ∧
              (M.base_p < z.1 → 1 ≤ z.2 ∧ M.sbrk_addr ≤ z.1)) d _ ?_ ?_ ?_ z hz
          · have := hQ d (by simp)
            omega
          · intro y hy
            have := hl1 y hy
            omega
          · intro e he hm
            have h1 := hl1 e he
            have h2 := hQ d (by simp)
            simp only
            omega
      have := hall c hc2
      omega
    · simp only
      rw [hF1]
      simp only [List.map_append, List.mem_append]
      exact Or.inr (merge2_addr d _)
  · intro z hz1 hz2
    simp only
    rw [link_to_out _ _ _ _ hz2, link_to_out _ _ _ _ hz1]

/-- A chunk that overlaps no chunk of a sorted list lies between two of them. -/
theorem split_chunks (bp u : Nat) : ∀ (l : List (Nat × Nat)) (a : Nat × Nat),
    (a.1 + 8 ≤ bp ∧ a.1 + 8 * a.2 ≤ bp) →
    (∀ c ∈ l, (c.1 + 8 ≤ bp ∧ c.1 + 8 * c.2 ≤ bp) ∨ bp + 8 * u ≤ c.1) →
    List.Pairwise (fun x y => x.1 < y.1) (a :: l) →
    ∃ pre d post, a :: l = pre ++ d :: post ∧
      (∀ x ∈ pre ++ [d], x.1 + 8 ≤ bp ∧ x.1 + 8 * x.2 ≤ bp) ∧
      ∀ y ∈ post, bp + 8 * u ≤ y.1 := by
  intro l
  induction l with
  | nil =>
    intro a ha _ _
    exact ⟨[], a, [], rfl, by simpa using ha, by simp⟩
  | cons c t ih =>
    intro a ha hl hp
    obtain ⟨hp1, hp2⟩ := List.pairwise_cons.mp hp
    rcases hl c (List.mem_cons_self _ _) with hc | hc
    · obtain ⟨pre, d, post, e, h1, h2⟩ :=
        ih c hc (fun y hy => hl y (List.mem_cons_of_mem _ hy)) hp2
      refine ⟨a :: pre, d, post, by rw [e]; rfl, ?_, h2⟩
      intro x hx
      rcases List.mem_cons.mp hx with rfl | hx
      · exact ha
      · exact h1 x hx
    · refine ⟨[], a, c :: t, rfl, by simpa using ha, ?_⟩
      intro y hy
      rcases List.mem_cons.mp hy with rfl | hy
      · exact hc
      · have h1 := (List.pairwise_cons.mp hp2).1 y hy
        rcases hl y (List.mem_cons_of_mem _ hy) with h2 | h2
        · omega
        · exact h2

/-- The first element of a list that satisfies a test, if any. -/
theorem first_split {α : Type} (P : α → Prop) : ∀ (l : List α),
    (∀ y ∈ l, ¬ P y) ∨ ∃ l1 c l2, l = l1 ++ c :: l2 ∧ P c ∧ ∀ y ∈ l1, ¬ P y := by
  intro l
  induction l with
  | nil => exact Or.inl (by simp)
  | cons a t ih =>
    by_cases ha : P a
    · exact Or.inr ⟨[], a, t, rfl, ha, by simp⟩
    · rcases ih with h | ⟨l1, c, l2, e, hc, h⟩
      · left
        intro y hy
        rcases List.mem_cons.mp hy with rfl | hy
        · exact ha
        · exact h y hy
      · right
        refine ⟨a :: l1, c, l2, by rw [e]; rfl, hc, ?_⟩
        intro y hy
        rcases List.mem_cons.mp hy with rfl | hy
        · exact ha
        · exact h y hy

theorem getLastD_append_singleton {α : Type} (l : List α) (a b : α) :
    (l ++ [a]).getLastD b = a := List.getLastD_concat b a l

/-- In the cycle `s ++ x :: t` walked from the successor of `x`, a chunk `c`
that is met before `x` comes back, and is not the first of `s`, follows its
predecessor of the walk in the list as well. -/
theorem walk_pred_mid {α : Type} (s t l r : List α) (x c : α)
    (h : t ++ s = l ++ c :: r) (hc : ∀ s2, s ≠ c :: s2) :
    ∃ g1 g2, s ++ x :: t = g1 ++ l.getLastD x :: c :: g2 := by
  rcases List.append_eq_append_iff.mp h with ⟨a, e1, e2⟩ | ⟨b, e1, e2⟩
  · -- l = t ++ a, s = a ++ c :: r
    rcases List.eq_nil_or_concat a with rfl | ⟨a2, p, rfl⟩
    · exact absurd (by simpa using e2) (hc r)
    · refine ⟨a2, r ++ x :: t, ?_⟩
      rw [e1, e2, List.concat_eq_append, ← List.append_assoc t, getLastD_append_singleton]
      simp
  · -- t = l ++ b, c :: r = b ++ s
    cases b with
    | nil =>
      exact absurd (by simpa using e2.symm) (hc r)
    | cons b1 b2 =>
      simp only [List.cons_append, List.cons.injEq] at e2
      obtain ⟨rfl, _⟩ := e2
      rcases List.eq_nil_or_concat l with rfl | ⟨l2, p, rfl⟩
      · exact ⟨s, b2, by rw [e1]; rfl⟩
      · refine ⟨s ++ x :: l2, b2, ?_⟩
        rw [e1, List.concat_eq_append, getLastD_append_singleton]
        simp

/-- The chunk `x` itself, met last on the walk, follows the last chunk of `s`. -/
theorem walk_pred_last {α : Type} (s t : List α) (x : α) (hs : s ≠ []) :
    ∃ g1, s ++ x :: t = g1 ++ (t ++ s).getLastD x :: x :: t := by
  rcases List.eq_nil_or_concat s with rfl | ⟨s2, p, rfl⟩
  · exact absurd rfl hs
  · refine ⟨s2, ?_⟩
    rw [List.concat_eq_append, ← List.append_assoc, getLastD_append_singleton]
    simp

theorem k_malloc_loop_succ (nunits fuel prevp p : Nat) (M : memstate) :
    k_malloc_loop nunits (fuel + 1) prevp p M =
      if hdr_size M.mem p ≥ nunits then
        if hdr_size M.mem p = nunits then
          outcome.ret (hdr_add p 1,
            { M with mem := set_ptr M.mem prevp (hdr_ptr M.mem p), freep := prevp })
        else
          let m1 := set_size M.mem p (u32 (hdr_size M.mem p + 4294967296 - nunits))
          let p2 := hdr_add p (hdr_size m1 p)
          let m2 := set_size m1 p2 nunits
          outcome.ret (hdr_add p2 1, { M with mem := m2, freep := prevp })
      else if p = M.freep then
        match kmorecore nunits M with
        | outcome.ret (p1, M1) =>
          if p1 = 0 then outcome.ret (0, M1)
          else k_malloc_loop nunits fuel p1 (hdr_ptr M1.mem p1) M1
        | outcome.fault => outcome.fault
        | outcome.out_of_fuel => outcome.out_of_fuel
      else k_malloc_loop nunits fuel p (hdr_ptr M.mem p) M := rfl

/-- The loop of `k_malloc` passes the chunks that are too small. -/
theorem k_malloc_loop_skip (nunits : Nat) (M : memstate) (q : Nat) :
    ∀ (l : List (Nat × Nat)) (pv : Nat × Nat) (fuel : Nat), chain M.mem l q →
      (∀ y ∈ l, y.2 < nunits ∧ y.1 ≠ M.freep) →
      k_malloc_loop nunits (fuel + l.length) pv.1 (head_addr l q) M
        = k_malloc_loop nunits fuel (l.getLastD pv).1 q M := by
  intro l
  induction l with
  | nil =>
    intro pv fuel _ _
    rfl
  | cons y t ih =>
    intro pv fuel hc hl
    obtain ⟨h1, h2, h3⟩ := hc
    obtain ⟨hy1, hy2⟩ := hl y (List.mem_cons_self _ _)
    have e : fuel + (y :: t).length = (fuel + t.length) + 1 := by
      simp only [List.length_cons]
      omega
    rw [e, k_malloc_loop_succ]
    simp only [head_addr]
    rw [if_neg (by omega), if_neg hy2, h1, List.getLastD_cons]
    exact ih y fuel h3 fun z hz => hl z (List.mem_cons_of_mem _ hz)

/-- The loop of `k_malloc` at a chunk that is large enough. -/
theorem k_malloc_loop_fit (nunits fuel prevp : Nat) (c : Nat × Nat) (M : memstate)
    (hs : hdr_size M.mem c.1 = c.2) (hu : nunits ≤ c.2) (h1 : 1 ≤ nunits)
    (hb : c.1 + 8 * c.2 < 4294967296) :
    k_malloc_loop nunits (fuel + 1) prevp c.1 M =
      if c.2 = nunits then
        outcome.ret (c.1 + 8,
          { M with mem := set_ptr M.mem prevp (hdr_ptr M.mem c.1), freep := prevp })
      else
        outcome.ret (c.1 + 8 * (c.2 - nunits) + 8, { M with mem := set_size (set_size M.mem c.1 (c.2 - nunits)) (c.1 + 8 * (c.2 - nunits)) nunits, freep := prevp }) := by
  rw [k_malloc_loop_succ, hs, if_pos hu]
  have e1 : hdr_add c.1 1 = c.1 + 8 := by
    rw [hdr_add_eq _ _ (by omega)]
  by_cases he : c.2 = nunits
  · rw [if_pos he, if_pos he, e1]
  · rw [if_neg he, if_neg he]
    have e2 : u32 (c.2 + 4294967296 - nunits) = c.2 - nunits := by
      unfold u32
      omega
    simp only [e2]
    rw [hdr_size_set_size _ _ _ (by omega), hdr_add_eq c.1 (c.2 - nunits) (by omega),
      hdr_add_eq (c.1 + 8 * (c.2 - nunits)) 1 (by omega)]

/-- The loop of `k_malloc` back at `freep` with no chunk large enough, `kmorecore`
having been called before. -/
theorem k_malloc_loop_none (nunits fuel prevp p : Nat) (M : memstate)
    (hs : hdr_size M.mem p < nunits) (hp : p = M.freep) (hf : M.first = false) :
    k_malloc_loop nunits (fuel + 1) prevp p M = outcome.ret (0, M) := by
  rw [k_malloc_loop_succ, if_neg (by omega), if_pos hp]
  unfold kmorecore
  simp [hf]

theorem nunits_of_pos (nbytes : Nat) : 1 ≤ nunits_of nbytes := by
  unfold nunits_of u32 HEADER
  omega

theorem k_malloc_eq (nbytes : Nat) (M : memstate) (h : M.freep ≠ 0) :
    k_malloc nbytes M
      = k_malloc_loop (nunits_of nbytes) HEAP_STEPS M.freep (hdr_ptr M.mem M.freep) M := by
  unfold k_malloc
  rw [if_neg h]
  rfl

/-- The loop of `k_malloc` on a well-formed free list, from `freep`: it walks
the cycle from the successor of `freep` and takes the first chunk of at least
`u` units, from its end unless it fits exactly; when no chunk is large enough
it returns 0 and changes nothing. -/
theorem k_malloc_walk (N : Nat) (M : memstate) (F : List (Nat × Nat)) (u fuel : Nat)
    (hinv : free_inv N M F) (hu : 1 ≤ u) (hf : ((M.base_p, 0) :: F).length < fuel) :
    ∃ s x t, (M.base_p, 0) :: F = s ++ x :: t ∧ x.1 = M.freep ∧
      (((∀ c ∈ (M.base_p, 0) :: F, c.2 < u) ∧
          k_malloc_loop u fuel M.freep (hdr_ptr M.mem M.freep) M = outcome.ret (0, M)) ∨
       ∃ l c r g1 g2 pv, t ++ s ++ [x] = l ++ c :: r ∧ (∀ y ∈ l, y.2 < u) ∧ u ≤ c.2 ∧
          (M.base_p, 0) :: F = g1 ++ pv :: c :: g2 ∧
          k_malloc_loop u fuel M.freep (hdr_ptr M.mem M.freep) M =
            if c.2 = u then
              outcome.ret (c.1 + 8, { M with mem := set_ptr M.mem pv.1 (hdr_ptr M.mem c.1), freep := pv.1 })
            else
              outcome.ret (c.1 + 8 * (c.2 - u) + 8, { M with mem := set_size (set_size M.mem c.1 (c.2 - u)) (c.1 + 8 * (c.2 - u)) u, freep := pv.1 })) := by
  obtain ⟨hB0, hBS, hSN, hfirst, hchain, hpw, hF, hfreep⟩ := hinv
  simp only [List.mem_map] at hfreep
  obtain ⟨x, hx, hxf⟩ := hfreep
  obtain ⟨s, t, hst⟩ := List.append_of_mem hx
  refine ⟨s, x, t, hst, hxf, ?_⟩
  have hsize : ∀ c ∈ (M.base_p, 0) :: F, hdr_size M.mem c.1 = c.2 :=
    fun c hc => chain_mem M.mem _ _ hchain c hc
  have hbound : ∀ c ∈ (M.base_p, 0) :: F, c.1 + 8 * c.2 < 4294967296 := by
    intro c hc
    rcases List.mem_cons.mp hc with rfl | hc
    · simp only
      omega
    · have := hF c hc
      omega
  have hlt := pairwise_apart_lt _ hpw
  rw [hst] at hchain hlt hsize hbound hf
  obtain ⟨hcs, hcx⟩ := (chain_append M.mem s (x :: t) M.base_p).mp hchain
  obtain ⟨hx1, hx2, hct⟩ := hcx
  simp only [head_addr] at hcs
  have hhead : head_addr s x.1 = M.base_p := by
    cases s with
    | nil =>
      simp only [List.nil_append, List.cons.injEq] at hst
      simp only [head_addr, ← hst.1]
    | cons a s2 =>
      simp only [List.cons_append, List.cons.injEq] at hst
      simp only [head_addr, ← hst.1]
  have hanchor : ∀ c s2, s = c :: s2 → c.2 = 0 := by
    intro c s2 e
    rw [e] at hst
    simp only [List.cons_append, List.cons.injEq] at hst
    rw [← hst.1]
  have hcts : chain M.mem (t ++ s) x.1 := by
    refine (chain_append _ _ _ _).mpr ⟨?_, hcs⟩
    rw [hhead]
    exact hct
  have hstart : hdr_ptr M.mem M.freep = head_addr (t ++ s) x.1 := by
    rw [← hxf, hx1, head_addr_append, hhead]
  have hne : ∀ y ∈ t ++ s, y.1 ≠ M.freep := by
    intro y hy
    rw [← hxf]
    obtain ⟨h1, h2, h3⟩ := List.pairwise_append.mp hlt
    rcases List.mem_append.mp hy with hy | hy
    · have := (List.pairwise_cons.mp h2).1 y hy
      omega
    · have := h3 y hy x (List.mem_cons_self _ _)
      omega
  have hmemts : ∀ y ∈ t ++ s, y ∈ s ++ x :: t := by
    intro y hy
    rcases List.mem_append.mp hy with hy | hy
    · simp [hy]
    · simp [hy]
  have hlen : (s ++ x :: t).length = (t ++ s).length + 1 := by
    simp only [List.length_append, List.length_cons]
    omega
  rw [hstart, ← hxf]
  rcases first_split (fun y : Nat × Nat => u ≤ y.2) (t ++ s) with hnone | ⟨l, c, r, e, hc, hl⟩
  · -- no chunk of `t ++ s` is large enough
    obtain ⟨f, rfl⟩ : ∃ f, fuel = (f + 1) + (t ++ s).length :=
      ⟨fuel - 1 - (t ++ s).length, by omega⟩
    have hskip := k_malloc_loop_skip u M x.1 (t ++ s) x (f + 1) hcts
      (fun y hy => ⟨by have := hnone y hy; omega, hne y hy⟩)
    rw [hskip]
    by_cases hxu : u ≤ x.2
    · right
      have hs : s ≠ [] := by
        intro e
        rw [e] at hst
        simp only [List.nil_append, List.cons.injEq] at hst
        rw [← hst.1] at hxu
        simp only at hxu
        omega
      obtain ⟨g1, hg⟩ := walk_pred_last s t x hs
      refine ⟨t ++ s, x, [], g1, t, (t ++ s).getLastD x, rfl,
        fun y hy => by have := hnone y hy; omega, hxu, hst.trans hg, ?_⟩
      exact k_malloc_loop_fit u f _ x M hx2 hxu hu (hbound x (by simp))
    · left
      refine ⟨?_, ?_⟩
      · intro c hc
        rw [hst] at hc
        rcases List.mem_append.mp hc with hc | hc
        · have := hnone c (List.mem_append_right _ hc)
          omega
        · rcases List.mem_cons.mp hc with rfl | hc
          · omega
          · have := hnone c (List.mem_append_left _ hc)
            omega
      · exact k_malloc_loop_none u f _ x.1 M (by rw [hx2]; omega) hxf hfirst
  · -- the first chunk of `t ++ s` that is large enough
    right
    have hlen2 : (t ++ s).length = l.length + 1 + r.length := by
      rw [e]
      simp only [List.length_append, List.length_cons]
      omega
    obtain ⟨f, rfl⟩ : ∃ f, fuel = (f + 1) + l.length :=
      ⟨fuel - 1 - l.length, by omega⟩
    have hcl : chain M.mem l c.1 := by
      have := hcts
      rw [e] at this
      exact ((chain_append _ _ _ _).mp this).1
    have hskip := k_malloc_loop_skip u M c.1 l x (f + 1) hcl
      (fun y hy => ⟨by have := hl y hy; omega,
        hne y (by rw [e]; exact List.mem_append_left _ hy)⟩)
    have hh : head_addr (t ++ s) x.1 = head_addr l c.1 := by
      rw [e, head_addr_append]
      rfl
    rw [hh, hskip]
    have hcmem : c ∈ s ++ x :: t := hmemts c (by rw [e]; simp)
    obtain ⟨g1, g2, hg⟩ := walk_pred_mid s t l r x c e (by
      intro s2 es
      have := hanchor c s2 es
      omega)
    refine ⟨l, c, r ++ [x], g1, g2, l.getLastD x, by rw [e]; simp,
      fun y hy => by have := hl y hy; omega, hc, hst.trans hg, ?_⟩
    exact k_malloc_loop_fit u f _ c M (hsize c hcmem) hc hu (hbound c hcmem)

/-- The bounds of the chunks of a well-formed free list, the anchor included. -/
theorem free_inv_bounds (N : Nat) (M : memstate) (F : List (Nat × Nat))
    (hinv : free_inv N M F) :
    ∀ c ∈ (M.base_p, 0) :: F, c.1 + 8 * c.2 ≤ M.sbrk_addr + 8 * N ∧ M.base_p ≤ c.1 ∧
      (M.base_p < c.1 → 1 ≤ c.2 ∧ M.sbrk_addr ≤ c.1) := by
  obtain ⟨hB0, hBS, hSN, hfirst, hchain, hpw, hF, hfreep⟩ := hinv
  intro c hc
  rcases List.mem_cons.mp hc with rfl | hc
  · simp only
    omega
  · have := hF c hc
    omega

/-- A list of chunks that starts with the anchor and has the properties of the
free list gives a well-formed free list. -/
theorem free_inv_mk (N : Nat) (M : memstate) (F : List (Nat × Nat))
    (h0 : 0 < M.base_p ∧ M.base_p + 8 ≤ M.sbrk_addr ∧ M.sbrk_addr + 8 * N < 4294967296 ∧
      M.first = false)
    (hchain : chain M.mem ((M.base_p, 0) :: F) M.base_p)
    (hpw : List.Pairwise apart ((M.base_p, 0) :: F))
    (hb : ∀ c ∈ (M.base_p, 0) :: F, c.1 + 8 * c.2 ≤ M.sbrk_addr + 8 * N ∧
      (M.base_p < c.1 → 1 ≤ c.2 ∧ M.sbrk_addr ≤ c.1))
    (hfreep : M.freep ∈ ((M.base_p, 0) :: F).map Prod.fst) : free_inv N M F := by
  refine ⟨h0.1, h0.2.1, h0.2.2.1, h0.2.2.2, hchain, hpw, ?_, hfreep⟩
  intro c hc
  have h1 := (List.pairwise_cons.mp hpw).1 c hc
  unfold apart at h1
  simp only at h1
  have h2 := hb c (List.mem_cons_of_mem _ hc)
  omega

theorem list_head_split (a : Nat × Nat) (F g1 g2 : List (Nat × Nat)) (pv c : Nat × Nat)
    (hG : a :: F = g1 ++ pv :: c :: g2) (G2 : List (Nat × Nat)) :
    ∃ F1, a :: F1 = g1 ++ pv :: G2 := by
  cases g1 with
  | nil =>
    simp only [List.nil_append, List.cons.injEq] at hG
    exact ⟨G2, by rw [List.nil_append, hG.1]⟩
  | cons b g3 =>
    simp only [List.cons_append, List.cons.injEq] at hG
    exact ⟨g3 ++ pv :: G2, by rw [List.cons_append, hG.1]⟩

/-- The free list after `k_malloc` has unlinked a chunk that fits exactly. -/
theorem malloc_exact_inv (N : Nat) (M : memstate) (F g1 g2 : List (Nat × Nat))
    (pv c : Nat × Nat) (hinv : free_inv N M F)
    (hG : (M.base_p, 0) :: F = g1 ++ pv :: c :: g2) :
    ∃ F1, (M.base_p, 0) :: F1 = g1 ++ pv :: g2 ∧
      free_inv N { M with mem := set_ptr M.mem pv.1 (hdr_ptr M.mem c.1), freep := pv.1 } F1 ∧
      hdr_size (set_ptr M.mem pv.1 (hdr_ptr M.mem c.1)) c.1 = c.2 := by
  have hbd := free_inv_bounds N M F hinv
  obtain ⟨hB0, hBS, hSN, hfirst, hchain, hpw, hF, hfreep⟩ := hinv
  rw [hG] at hchain hpw hbd
  obtain ⟨F1, hF1⟩ := list_head_split _ F g1 g2 pv c hG g2
  obtain ⟨hc1, hc2⟩ := (chain_append M.mem g1 (pv :: c :: g2) M.base_p).mp hchain
  obtain ⟨hpv1, hpv2, hcc1, hcc2, hcg2⟩ := hc2
  obtain ⟨hp1, hp2, hp3⟩ := List.pairwise_append.mp hpw
  obtain ⟨hp4, hp5⟩ := List.pairwise_cons.mp hp2
  obtain ⟨hp6, hp7⟩ := List.pairwise_cons.mp hp5
  have hpvc := hp4 c (List.mem_cons_self _ _)
  unfold apart at hpvc
  refine ⟨F1, hF1, ?_, ?_⟩
  · refine free_inv_mk N _ F1 ⟨hB0, hBS, hSN, hfirst⟩ ?_ ?_ ?_ ?_
    · simp only
      rw [hF1]
      refine (chain_append _ _ _ _).mpr ⟨?_, ?_, ?_, ?_⟩
      · refine chain_frame M.mem _ g1 _ ?_ hc1
        intro y hy z hz1 hz2
        have := hp3 y hy pv (List.mem_cons_self _ _)
        unfold apart at this
        exact set_ptr_out _ _ _ _ (by omega)
      · rw [hdr_ptr_set_ptr _ _ _ (hdr_ptr_lt _ _), hcc1]
      · rw [hdr_size_set_ptr _ _ _ _ (Or.inr (Nat.le_refl _)), hpv2]
      · refine chain_frame M.mem _ g2 _ ?_ hcg2
        intro y hy z hz1 hz2
        have := hp4 y (List.mem_cons_of_mem _ hy)
        unfold apart at this
        exact set_ptr_out _ _ _ _ (by omega)
    · simp only
      rw [hF1]
      refine List.pairwise_append.mpr ⟨hp1, List.pairwise_cons.mpr
        ⟨fun y hy => hp4 y (List.mem_cons_of_mem _ hy), hp7⟩, ?_⟩
      intro a ha b hb
      rcases List.mem_cons.mp hb with rfl | hb
      · exact hp3 a ha b (List.mem_cons_self _ _)
      · exact hp3 a ha b (List.mem_cons_of_mem _ (List.mem_cons_of_mem _ hb))
    · intro y hy
      simp only
      rw [hF1] at hy
      have : y ∈ g1 ++ pv :: c :: g2 := by
        rcases List.mem_append.mp hy with hy | hy
        · exact List.mem_append_left _ hy
        · rcases List.mem_cons.mp hy with rfl | hy
          · simp
          · simp [hy]
      have := hbd y this
      omega
    · simp only
      rw [hF1]
      simp
  · rw [hdr_size_set_ptr _ _ _ _ (by omega)]
    exact hcc2

/-- The free list after `k_malloc` has taken `u` units from the end of a larger
chunk. -/
theorem malloc_split_inv (N : Nat) (M : memstate) (F g1 g2 : List (Nat × Nat))
    (pv c : Nat × Nat) (u : Nat) (hinv : free_inv N M F)
    (hG : (M.base_p, 0) :: F = g1 ++ pv :: c :: g2) (hu : 1 ≤ u) (huc : u < c.2) :
    ∃ F1, (M.base_p, 0) :: F1 = g1 ++ pv :: (c.1, c.2 - u) :: g2 ∧
      free_inv N { M with mem := set_size (set_size M.mem c.1 (c.2 - u)) (c.1 + 8 * (c.2 - u)) u, freep := pv.1 } F1 ∧
      hdr_size (set_size (set_size M.mem c.1 (c.2 - u)) (c.1 + 8 * (c.2 - u)) u)
        (c.1 + 8 * (c.2 - u)) = u := by
  have hbd := free_inv_bounds N M F hinv
  obtain ⟨hB0, hBS, hSN, hfirst, hchain, hpw, hF, hfreep⟩ := hinv
  rw [hG] at hchain hpw hbd
  obtain ⟨F1, hF1⟩ := list_head_split _ F g1 g2 pv c hG ((c.1, c.2 - u) :: g2)
  obtain ⟨hc1, hc2⟩ := (chain_append M.mem g1 (pv :: c :: g2) M.base_p).mp hchain
  obtain ⟨hpv1, hpv2, hcc1, hcc2, hcg2⟩ := hc2
  obtain ⟨hp1, hp2, hp3⟩ := List.pairwise_append.mp hpw
  obtain ⟨hp4, hp5⟩ := List.pairwise_cons.mp hp2
  obtain ⟨hp6, hp7⟩ := List.pairwise_cons.mp hp5
  have hpvc := hp4 c (List.mem_cons_self _ _)
  unfold apart at hpvc
  have hcb := hbd c (by simp)
  have hout : ∀ z, (z < c.1 + 4 ∨ c.1 + 8 * c.2 ≤ z) →
      set_size (set_size M.mem c.1 (c.2 - u)) (c.1 + 8 * (c.2 - u)) u z = M.mem z := by
    intro z hz
    unfold set_size
    rw [write32_out _ _ _ _ (by omega), write32_out _ _ _ _ (by omega)]
  refine ⟨F1, hF1, ?_, ?_⟩
  · refine free_inv_mk N _ F1 ⟨hB0, hBS, hSN, hfirst⟩ ?_ ?_ ?_ ?_
    · simp only
      rw [hF1]
      refine (chain_append _ _ _ _).mpr ⟨?_, ?_, ?_, ?_, ?_, ?_⟩
      · refine chain_frame M.mem _ g1 _ ?_ hc1
        intro y hy z hz1 hz2
        have := hp3 y hy c (by simp)
        unfold apart at this
        exact hout z (by omega)
      · exact ((hdr_congr _ _ pv.1 fun z h1 h2 => hout z (by omega)).1).trans hpv1
      · exact ((hdr_congr _ _ pv.1 fun z h1 h2 => hout z (by omega)).2).trans hpv2
      · exact (read32_congr _ _ c.1 fun z h1 h2 => hout z (by omega)).trans hcc1
      · simp only
        rw [hdr_size_set_size_ne _ _ _ _ (by omega), hdr_size_set_size _ _ _ (by omega)]
      · refine chain_frame M.mem _ g2 _ ?_ hcg2
        intro y hy z hz1 hz2
        have := hp6 y hy
        unfold apart at this
        exact hout z (by omega)
    · simp only
      rw [hF1]
      refine List.pairwise_append.mpr ⟨hp1, List.pairwise_cons.mpr ⟨?_,
        List.pairwise_cons.mpr ⟨?_, hp7⟩⟩, ?_⟩
      · intro y hy
        rcases List.mem_cons.mp hy with rfl | hy
        · unfold apart
          simp only
          omega
        · exact hp4 y (List.mem_cons_of_mem _ hy)
      · intro y hy
        have := hp6 y hy
        unfold apart at this ⊢
        simp only
        omega
      · intro a ha b hb
        rcases List.mem_cons.mp hb with rfl | hb
        · exact hp3 a ha b (List.mem_cons_self _ _)
        · rcases List.mem_cons.mp hb with rfl | hb
          · have := hp3 a ha c (by simp)
            unfold apart at this ⊢
            simp only
            omega
          · exact hp3 a ha b (by simp [hb])
    · intro y hy
      simp only
      rw [hF1] at hy
      rcases List.mem_append.mp hy with hy | hy
      · have := hbd y (List.mem_append_left _ hy)
        omega
      · rcases List.mem_cons.mp hy with rfl | hy
        · have := hbd y (by simp)
          omega
        · rcases List.mem_cons.mp hy with rfl | hy
          · simp only
            omega
          · have := hbd y (by simp [hy])
            omega
    · simp only
      rw [hF1]
      simp
  · exact hdr_size_set_size _ _ _ (by omega)

theorem free_inv_length (N : Nat) (M : memstate) (F : List (Nat × Nat))
    (hinv : free_inv N M F) : ((M.base_p, 0) :: F).length < 4294967297 := by
  have hbd := free_inv_bounds N M F hinv
  obtain ⟨hB0, hBS, hSN, hfirst, hchain, hpw, hF, hfreep⟩ := hinv
  have := sorted_length_le 4294967296 ((M.base_p, 0) :: F) 0 (pairwise_apart_lt _ hpw)
    (fun x hx => ⟨Nat.zero_le _, by have := hbd x hx; omega⟩)
  omega

theorem free_inv_freep (N : Nat) (M : memstate) (F : List (Nat × Nat))
    (hinv : free_inv N M F) : M.freep ≠ 0 := by
  have hbd := free_inv_bounds N M F hinv
  obtain ⟨hB0, hBS, hSN, hfirst, hchain, hpw, hF, hfreep⟩ := hinv
  simp only [List.mem_map] at hfreep
  obtain ⟨x, hx, hxf⟩ := hfreep
  have := hbd x hx
  omega

/-- What `k_malloc` does on a well-formed free list: the result of the loop, as
in `k_malloc_walk`. -/
theorem k_malloc_core (N : Nat) (M : memstate) (F : List (Nat × Nat)) (nbytes : Nat)
    (hinv : free_inv N M F) :
    ∃ s x t, (M.base_p, 0) :: F = s ++ x :: t ∧ x.1 = M.freep ∧
      (((∀ c ∈ (M.base_p, 0) :: F, c.2 < nunits_of nbytes) ∧
          k_malloc nbytes M = outcome.ret (0, M)) ∨
       ∃ l c r g1 g2 pv, t ++ s ++ [x] = l ++ c :: r ∧ (∀ y ∈ l, y.2 < nunits_of nbytes) ∧
          nunits_of nbytes ≤ c.2 ∧ (M.base_p, 0) :: F = g1 ++ pv :: c :: g2 ∧
          k_malloc nbytes M =
            if c.2 = nunits_of nbytes then
              outcome.ret (c.1 + 8, { M with mem := set_ptr M.mem pv.1 (hdr_ptr M.mem c.1), freep := pv.1 })
            else
              outcome.ret (c.1 + 8 * (c.2 - nunits_of nbytes) + 8, { M with mem := set_size (set_size M.mem c.1 (c.2 - nunits_of nbytes)) (c.1 + 8 * (c.2 - nunits_of nbytes)) (nunits_of nbytes), freep := pv.1 })) := by
  have hlen : ((M.base_p, 0) :: F).length < HEAP_STEPS := by
    have := free_inv_length N M F hinv
    unfold HEAP_STEPS
    omega
  have h := k_malloc_walk N M F (nunits_of nbytes) HEAP_STEPS hinv (nunits_of_pos nbytes) hlen
  rw [← k_malloc_eq nbytes M (free_inv_freep N M F hinv)] at h
  exact h

theorem units_cons (c : Nat × Nat) (l : List (Nat × Nat)) : units (c :: l) = c.2 + units l := by
  simp [units]

theorem units_append (l1 l2 : List (Nat × Nat)) : units (l1 ++ l2) = units l1 + units l2 := by
  simp [units]

theorem merge2_of_eq (x y : Nat × Nat) (t : List (Nat × Nat)) (h : x.1 + 8 * x.2 = y.1) :
    merge2 x (y :: t) = (x.1, x.2 + y.2) :: t := by
  simp only [merge2]
  rw [if_pos h]

/-- A successful `k_malloc` on a well-formed free list: the free list after, the
chunk handed out, and what `k_free` of that chunk gives. -/
theorem k_malloc_success (N : Nat) (M : memstate) (F : List (Nat × Nat)) (nbytes : Nat)
    (r : Nat × memstate) (hinv : free_inv N M F)
    (h : k_malloc nbytes M = outcome.ret r) (hp : r.1 ≠ 0) :
    ∃ F1 c, free_inv N r.2 F1 ∧ units F1 + nunits_of nbytes = units F ∧
      c ∈ F ∧ nunits_of nbytes ≤ c.2 ∧ r.1 + 8 * nunits_of nbytes = c.1 + 8 * c.2 + 8 ∧
      hdr_size r.2.mem (r.1 - 8) = nunits_of nbytes ∧
      (∀ z, (∀ y ∈ (M.base_p, 0) :: F, z < y.1 ∨ y.1 + 8 ≤ z ∧ y.1 + 8 * y.2 ≤ z) →
        r.2.mem z = M.mem z) ∧
      (∀ y ∈ F1, no_overlap y (r.1 - 8, nunits_of nbytes) ∧
        ∃ y2 ∈ F, y2.1 ≤ y.1 ∧ y.1 + 8 * y.2 ≤ y2.1 + 8 * y2.2) ∧
      r.2.base_p = M.base_p ∧ r.2.sbrk_addr = M.sbrk_addr ∧ r.2.freelist = M.freelist ∧
      ∃ M2, k_free r.1 r.2 = outcome.ret M2 ∧ free_inv N M2 F := by
  have hbd := free_inv_bounds N M F hinv
  have hpw := hinv.2.2.2.2.2.1
  obtain ⟨s, x, t, hst, hxf, hcase⟩ := k_malloc_core N M F nbytes hinv
  have hu := nunits_of_pos nbytes
  generalize nunits_of nbytes = u at hcase hu ⊢
  rcases hcase with ⟨_, hk⟩ | ⟨l, c, r2, g1, g2, pv, hw, hl, hc, hG, hk⟩
  · have := outcome.ret.inj (h.symm.trans hk)
    rw [this] at hp
    exact absurd rfl hp
  · rw [hG] at hpw hbd
    obtain ⟨hp1, hp2, hp3⟩ := List.pairwise_append.mp hpw
    obtain ⟨hp4, hp5⟩ := List.pairwise_cons.mp hp2
    obtain ⟨hp6, hp7⟩ := List.pairwise_cons.mp hp5
    have hpvc := hp4 c (List.mem_cons_self _ _)
    unfold apart at hpvc
    have hcb := hbd c (by simp)
    have hpvb := hbd pv (by simp)
    have hcF : c ∈ F := by
      have : c ∈ (M.base_p, 0) :: F := by rw [hG]; simp
      rcases List.mem_cons.mp this with e | e
      · rw [e] at hc
        simp only at hc
        omega
      · exact e
    have hlow1 : ∀ y ∈ g1 ++ [pv], y.1 + 8 ≤ c.1 ∧ y.1 + 8 * y.2 ≤ c.1 := by
      intro y hy
      rcases List.mem_append.mp hy with hy | hy
      · have := hp3 y hy c (by simp)
        unfold apart at this
        omega
      · simp only [List.mem_singleton] at hy
        subst hy
        omega
    have hhigh1 : ∀ y ∈ g2, c.1 + 8 * c.2 ≤ y.1 := by
      intro y hy
      have := hp6 y hy
      unfold apart at this
      omega
    have hunits : units ((M.base_p, 0) :: F) = units F := by
      rw [units_cons]
      simp
    by_cases he : c.2 = u
    · rw [if_pos he] at hk
      have hr := outcome.ret.inj (h.symm.trans hk)
      obtain ⟨F1, hF1, hinv1, hsz⟩ := malloc_exact_inv N M F g1 g2 pv c hinv hG
      obtain ⟨M2, F2, hfree, hF2, hinv2, _⟩ := k_free_core N _ F1 g1 g2 pv c.1 c.2 hinv1 hF1
        hlow1 hhigh1 hsz (by omega)
        (by show M.sbrk_addr ≤ c.1 ∧ c.1 + 8 * c.2 ≤ M.sbrk_addr + 8 * N; omega)
      have hm1 : merge2 (c.1, c.2) g2 = c :: g2 := by
        rw [merge2_of_ne]
        intro y hy
        have := hp6 y hy
        unfold apart at this
        simp only
        omega
      have hm2 : merge2 pv (c :: g2) = pv :: c :: g2 := by
        rw [merge2_of_ne]
        intro y hy
        have := hp4 y hy
        unfold apart at this
        omega
      rw [hm1, hm2, ← hG] at hF2
      have hFF : F2 = F := (List.cons.inj hF2).2
      rw [hFF] at hinv2
      rw [hr]
      refine ⟨F1, c, hinv1, ?_, hcF, hc, by simp only; omega, ?_, ?_, ?_, rfl, rfl, rfl,
        M2, hfree, hinv2⟩
      · have e1 := congrArg units hF1
        have e2 := congrArg units hG
        rw [units_cons] at e1
        rw [hunits] at e2
        simp only [units_append, units_cons] at e1 e2
        omega
      · simp only [Nat.add_sub_cancel]
        rw [← he]
        exact hsz
      · intro z hz
        simp only
        have := hz pv (by rw [hG]; simp)
        exact set_ptr_out _ _ _ _ (by omega)
      · intro y hy
        have hyg : y ∈ g1 ++ pv :: g2 := by rw [← hF1]; exact List.mem_cons_of_mem _ hy
        have hy2 : y ∈ (M.base_p, 0) :: F := by
          rw [hG]
          rcases List.mem_append.mp hyg with h1 | h1
          · exact List.mem_append_left _ h1
          · rcases List.mem_cons.mp h1 with h1 | h1
            · simp [h1]
            · simp [h1]
        have hyF : y ∈ F := by
          rcases List.mem_cons.mp hy2 with e | e
          · have := (hinv1.2.2.2.2.2.2.1 y hy).2.1
            rw [e] at this
            simp only at this
            have := hinv.2.1
            omega
          · exact e
        refine ⟨?_, y, hyF, Nat.le_refl _, Nat.le_refl _⟩
        simp only [Nat.add_sub_cancel]
        unfold no_overlap
        simp only
        rcases List.mem_append.mp hyg with h1 | h1
        · have := hlow1 y (List.mem_append_left _ h1)
          omega
        · rcases List.mem_cons.mp h1 with h1 | h1
          · have := hlow1 y (by simp [h1])
            omega
          · have := hhigh1 y h1
            omega
    · rw [if_neg he] at hk
      have hr := outcome.ret.inj (h.symm.trans hk)
      have huc : u < c.2 := by omega
      obtain ⟨F1, hF1, hinv1, hsz⟩ :=
        malloc_split_inv N M F g1 g2 pv c (u) hinv hG hu huc
      have hF1b : (M.base_p, 0) :: F1
          = (g1 ++ [pv]) ++ (c.1, c.2 - u) :: g2 := by
        rw [hF1]
        simp
      obtain ⟨M2, F2, hfree, hF2, hinv2, _⟩ := k_free_core N _ F1 (g1 ++ [pv]) g2
        (c.1, c.2 - u) (c.1 + 8 * (c.2 - u)) (u)
        hinv1 hF1b (by
          intro y hy
          rcases List.mem_append.mp hy with hy | hy
          · have := hlow1 y hy
            omega
          · simp only [List.mem_singleton] at hy
            subst hy
            simp only
            omega) (by
          intro y hy
          have := hhigh1 y hy
          omega) hsz hu (by
          show M.sbrk_addr ≤ c.1 + 8 * (c.2 - u) ∧
            c.1 + 8 * (c.2 - u) + 8 * u ≤ M.sbrk_addr + 8 * N
          omega)
      have hm1 : merge2 (c.1 + 8 * (c.2 - u), u) g2
          = (c.1 + 8 * (c.2 - u), u) :: g2 := by
        rw [merge2_of_ne]
        intro y hy
        have := hp6 y hy
        unfold apart at this
        simp only
        omega
      have hm2 : merge2 (c.1, c.2 - u)
          ((c.1 + 8 * (c.2 - u), u) :: g2) = c :: g2 := by
        rw [merge2_of_eq _ _ _ rfl]
        have e : ((c.1, c.2 - u).1, (c.1, c.2 - u).2 + (c.1 + 8 * (c.2 - u), u).2) = c :=
          Prod.ext rfl (by show c.2 - u + u = c.2; omega)
        rw [e]
      rw [hm1, hm2, List.append_assoc, List.singleton_append, ← hG] at hF2
      have hFF : F2 = F := (List.cons.inj hF2).2
      rw [hFF] at hinv2
      rw [hr]
      refine ⟨F1, c, hinv1, ?_, hcF, hc, by simp only; omega, ?_, ?_, ?_, rfl, rfl, rfl,
        M2, hfree, hinv2⟩
      · have e1 := congrArg units hF1
        have e2 := congrArg units hG
        rw [units_cons] at e1
        rw [hunits] at e2
        simp only [units_append, units_cons] at e1 e2
        omega
      · simp only [Nat.add_sub_cancel]
        exact hsz
      · intro z hz
        simp only
        have := hz c (by rw [hG]; simp)
        unfold set_size
        rw [write32_out _ _ _ _ (by omega), write32_out _ _ _ _ (by omega)]
      · intro y hy
        have hy1 : y ∈ g1 ++ pv :: (c.1, c.2 - u) :: g2 := by
          rw [← hF1]
          exact List.mem_cons_of_mem _ hy
        have hyB := (hinv1.2.2.2.2.2.2.1 y hy).2.1
        have hBS := hinv.2.1
        simp only at hyB
        have hin : ∀ y2 ∈ (M.base_p, 0) :: F, y2 = y → y2 ∈ F := by
          intro y2 h2 e
          rcases List.mem_cons.mp h2 with e2 | e2
          · rw [← e, e2] at hyB
            simp only at hyB
            omega
          · exact e2
        simp only [Nat.add_sub_cancel]
        unfold no_overlap
        simp only
        rcases List.mem_append.mp hy1 with h1 | h1
        · have := hlow1 y (List.mem_append_left _ h1)
          exact ⟨by omega, y, hin y (by rw [hG]; exact List.mem_append_left _ h1) rfl,
            Nat.le_refl _, Nat.le_refl _⟩
        · rcases List.mem_cons.mp h1 with h1 | h1
          · have := hlow1 y (by simp [h1])
            exact ⟨by omega, y, hin y (by rw [hG, h1]; simp) rfl, Nat.le_refl _, Nat.le_refl _⟩
          · rcases List.mem_cons.mp h1 with h1 | h1
            · rw [h1]
              simp only
              exact ⟨by omega, c, hcF, Nat.le_refl _, by omega⟩
            · have := hhigh1 y h1
              exact ⟨by omega, y, hin y (by rw [hG]; simp [h1]) rfl, Nat.le_refl _,
                Nat.le_refl _⟩

theorem units_merge2 (x : Nat × Nat) (l : List (Nat × Nat)) :
    units (merge2 x l) = x.2 + units l := by
  cases l with
  | nil => simp [merge2, units]
  | cons y t =>
    simp only [merge2]
    split
    · simp only [units_cons]
      omega
    · simp only [units_cons]

theorem pairwise_mem_cases {α : Type} (R : α → α → Prop) : ∀ (l : List α),
    List.Pairwise R l → ∀ x ∈ l, ∀ y ∈ l, x = y ∨ R x y ∨ R y x := by
  intro l
  induction l with
  | nil =>
    intro _ x hx
    simp at hx
  | cons a t ih =>
    intro hp x hx y hy
    obtain ⟨h1, h2⟩ := List.pairwise_cons.mp hp
    rcases List.mem_cons.mp hx with ex | hx2
    · rcases List.mem_cons.mp hy with ey | hy2
      · exact Or.inl (ex.trans ey.symm)
      · exact Or.inr (Or.inl (ex ▸ h1 y hy2))
    · rcases List.mem_cons.mp hy with ey | hy2
      · exact Or.inr (Or.inr (ey ▸ h1 x hx2))
      · exact ih h2 x hx2 y hy2

theorem map_erase_ptr (a : Nat × Nat) : ∀ (l : List (Nat × Nat)),
    (∀ b ∈ l, b.1 + 8 = a.1 + 8 → b = a) →
      (l.map fun c => c.1 + 8).erase (a.1 + 8) = (l.erase a).map fun c => c.1 + 8 := by
  intro l
  induction l with
  | nil =>
    intro _
    rfl
  | cons b t ih =>
    intro h
    by_cases hb : b = a
    · subst hb
      simp
    · have hfb : b.1 + 8 ≠ a.1 + 8 := fun e => hb (h b (List.mem_cons_self _ _) e)
      rw [List.map_cons, List.erase_cons_tail (by simpa using hfb),
        List.erase_cons_tail (by simpa using hb), List.map_cons,
        ih fun c hc => h c (List.mem_cons_of_mem _ hc)]

theorem units_erase (a : Nat × Nat) : ∀ (l : List (Nat × Nat)), a ∈ l →
    units (l.erase a) + a.2 = units l := by
  intro l
  induction l with
  | nil =>
    intro h
    simp at h
  | cons b t ih =>
    intro h
    by_cases hb : b = a
    · subst hb
      simp only [List.erase_cons_head, units_cons]
      omega
    · rcases List.mem_cons.mp h with e | e
      · exact absurd e.symm hb
      · rw [List.erase_cons_tail (by simpa using hb), units_cons, units_cons]
        have := ih e
        omega

/-- On a well-formed free list `k_malloc` returns. -/
theorem k_malloc_returns (N : Nat) (M : memstate) (F : List (Nat × Nat)) (nbytes : Nat)
    (hinv : free_inv N M F) : ∃ r, k_malloc nbytes M = outcome.ret r := by
  obtain ⟨s, x, t, _, _, hcase⟩ := k_malloc_core N M F nbytes hinv
  rcases hcase with ⟨_, hk⟩ | ⟨l, c, r2, g1, g2, pv, _, _, _, _, hk⟩
  · exact ⟨_, hk⟩
  · by_cases he : c.2 = nunits_of nbytes
    · rw [if_pos he] at hk
      exact ⟨_, hk⟩
    · rw [if_neg he] at hk
      exact ⟨_, hk⟩

/-- When `k_malloc` returns 0 on a well-formed free list, it has changed nothing. -/
theorem k_malloc_zero (N : Nat) (M : memstate) (F : List (Nat × Nat)) (nbytes : Nat)
    (r : Nat × memstate) (hinv : free_inv N M F) (h : k_malloc nbytes M = outcome.ret r)
    (h0 : r.1 = 0) : r.2 = M ∧ ∀ c ∈ F, c.2 < nunits_of nbytes := by
  obtain ⟨s, x, t, _, _, hcase⟩ := k_malloc_core N M F nbytes hinv
  rcases hcase with ⟨hall, hk⟩ | ⟨l, c, r2, g1, g2, pv, _, _, _, _, hk⟩
  · have := outcome.ret.inj (h.symm.trans hk)
    rw [this]
    exact ⟨rfl, fun c hc => hall c (List.mem_cons_of_mem _ hc)⟩
  · by_cases he : c.2 = nunits_of nbytes
    · rw [if_pos he] at hk
      have := outcome.ret.inj (h.symm.trans hk)
      rw [this] at h0
      simp only at h0
      omega
    · rw [if_neg he] at hk
      have := outcome.ret.inj (h.symm.trans hk)
      rw [this] at h0
      simp only at h0
      omega

/-- A successful `k_malloc` keeps the heap well formed; the chunk handed out joins
the chunks in use. -/
theorem heap_malloc (N : Nat) (M : memstate) (F A : List (Nat × Nat)) (nbytes : Nat)
    (r : Nat × memstate) (hinv : heap_inv N M F A)
    (h : k_malloc nbytes M = outcome.ret r) (hp : r.1 ≠ 0) :
    ∃ F1, heap_inv N r.2 F1 ((r.1 - 8, nunits_of nbytes) :: A) ∧
      units F1 + nunits_of nbytes = units F ∧ 8 ≤ r.1 := by
  obtain ⟨hfree, hA, hFA, hAA⟩ := hinv
  have hbd := free_inv_bounds N M F hfree
  have hFb := hfree.2.2.2.2.2.2.1
  have hBS := hfree.2.1
  obtain ⟨F1, c, hinv1, hun, hcF, hcu, hr, hsz, hframe, hF1, e1, e2, e3, _⟩ :=
    k_malloc_success N M F nbytes r hfree h hp
  have hu := nunits_of_pos nbytes
  generalize nunits_of nbytes = u at hun hcu hr hsz hF1 hu ⊢
  have hcb := hFb c hcF
  refine ⟨F1, ⟨hinv1, ?_, ?_, ?_⟩, hun, by omega⟩
  · intro a ha
    rcases List.mem_cons.mp ha with rfl | ha
    · simp only
      rw [e2]
      exact ⟨hsz, hu, by omega, by omega⟩
    · obtain ⟨a1, a2, a3, a4⟩ := hA a ha
      rw [e2]
      refine ⟨?_, a2, a3, a4⟩
      rw [← a1]
      refine (hdr_congr _ _ a.1 ?_).2
      intro z hz1 hz2
      apply hframe
      intro y hy
      rcases List.mem_cons.mp hy with rfl | hy
      · simp only
        omega
      · have h1 := hFA a ha y hy
        have h2 := hFb y hy
        unfold no_overlap at h1
        omega
  · intro a ha y hy
    obtain ⟨h1, y2, hy2, h3, h4⟩ := hF1 y hy
    rcases List.mem_cons.mp ha with rfl | ha
    · exact h1
    · have h5 := hFA a ha y2 hy2
      unfold no_overlap at h5 ⊢
      omega
  · refine List.pairwise_cons.mpr ⟨?_, hAA⟩
    intro a ha
    have h5 := hFA a ha c hcF
    unfold no_overlap at h5 ⊢
    simp only
    omega

/-- The pointer of a chunk in use can be freed, and `k_free` keeps the heap well
formed; the chunk joins the free list. -/
theorem heap_free (N : Nat) (M : memstate) (F A : List (Nat × Nat)) (a : Nat × Nat)
    (hinv : heap_inv N M F A) (ha : a ∈ A) :
    ∃ M1 F1, k_free (a.1 + 8) M = outcome.ret M1 ∧ heap_inv N M1 F1 (A.erase a) ∧
      units F1 = units F + a.2 ∧ M1.freelist = M.freelist ∧
      (∀ z, (z < M.base_p ∨ M.base_p + 8 ≤ z) →
        (z < M.sbrk_addr ∨ M.sbrk_addr + 8 * N ≤ z) → M1.mem z = M.mem z) ∧
      M1.base_p = M.base_p ∧ M1.sbrk_addr = M.sbrk_addr := by
  obtain ⟨hfree, hA, hFA, hAA⟩ := hinv
  have hbd := free_inv_bounds N M F hfree
  have hFb := hfree.2.2.2.2.2.2.1
  have hBS := hfree.2.1
  have hpw := hfree.2.2.2.2.2.1
  obtain ⟨a1, a2, a3, a4⟩ := hA a ha
  obtain ⟨pre, d, post, hG, hlow, hhigh⟩ := split_chunks a.1 a.2 F (M.base_p, 0)
    (by simp only; omega)
    (by
      intro c hc
      have h1 := hFA a ha c hc
      have h2 := hFb c hc
      unfold no_overlap at h1
      omega)
    (pairwise_apart_lt _ hpw)
  obtain ⟨M1, F1, hk, hF1, hinv1, e1, e2, e3, e4, hframe⟩ :=
    k_free_core N M F pre post d a.1 a.2 hfree hG hlow hhigh a1 a2 ⟨a3, a4⟩
  obtain ⟨l1, l2, hnot, hsplit, herase⟩ := List.exists_erase_eq ha
  have hdG : d ∈ (M.base_p, 0) :: F := by rw [hG]; simp
  have hdb := hbd d hdG
  have hdlow := hlow d (by simp)
  have hAa : ∀ b ∈ A.erase a, b ∈ A ∧ no_overlap a b := by
    intro b hb
    rw [herase] at hb
    rw [hsplit] at hAA ⊢
    obtain ⟨p1, p2, p3⟩ := List.pairwise_append.mp hAA
    rcases List.mem_append.mp hb with hb | hb
    · have := p3 b hb a (List.mem_cons_self _ _)
      unfold no_overlap at this ⊢
      exact ⟨List.mem_append_left _ hb, by omega⟩
    · exact ⟨by simp [hb], (List.pairwise_cons.mp p2).1 b hb⟩
  have hGmem : ∀ y ∈ pre ++ d :: post, ∀ b ∈ A, no_overlap y b ∧
      (y.1 + 8 ≤ b.1 ∨ b.1 + 8 * b.2 ≤ y.1) := by
    intro y hy b hb
    rw [← hG] at hy
    obtain ⟨_, b2, b3, b4⟩ := hA b hb
    rcases List.mem_cons.mp hy with rfl | hy
    · unfold no_overlap
      simp only
      omega
    · have h1 := hFA b hb y hy
      have h2 := hFb y hy
      unfold no_overlap at h1 ⊢
      omega
  refine ⟨M1, F1, hk, ⟨hinv1, ?_, ?_, ?_⟩, ?_, e4, ?_, e2, e3⟩
  · intro b hb
    obtain ⟨hbA, hab⟩ := hAa b hb
    obtain ⟨b1, b2, b3, b4⟩ := hA b hbA
    rw [e3]
    refine ⟨?_, b2, b3, b4⟩
    rw [← b1]
    refine (hdr_congr _ _ b.1 ?_).2
    intro z hz1 hz2
    have hd := (hGmem d (by simp) b hbA).2
    unfold no_overlap at hab
    exact hframe z (by omega) (by omega)
  · intro b hb y hy
    obtain ⟨hbA, hab⟩ := hAa b hb
    obtain ⟨_, b2, _, _⟩ := hA b hbA
    have hy2 : y ∈ pre ++ merge2 d (merge2 (a.1, a.2) post) := by
      rw [← hF1]
      exact List.mem_cons_of_mem _ hy
    rcases List.mem_append.mp hy2 with hy2 | hy2
    · exact (hGmem y (List.mem_append_left _ hy2) b hbA).1
    · refine merge2_forall (fun y => no_overlap y b) d _ ?_ ?_ ?_ y hy2
      · exact (hGmem d (by simp) b hbA).1
      · refine merge2_forall (fun y => no_overlap y b) (a.1, a.2) post ?_ ?_ ?_
        · exact hab
        · intro z hz
          exact (hGmem z (by simp [hz]) b hbA).1
        · intro e he hm
          have h1 := (hGmem e (by simp [he]) b hbA).1
          unfold no_overlap at hab h1 ⊢
          simp only at hm ⊢
          omega
      · intro e he hm
        have h0 := (hGmem d (by simp) b hbA).1
        have h1 : no_overlap e b := by
          refine merge2_forall (fun y => no_overlap y b) (a.1, a.2) post ?_ ?_ ?_ e he
          · exact hab
          · intro z hz
            exact (hGmem z (by simp [hz]) b hbA).1
          · intro e2 he2 hm2
            have h1 := (hGmem e2 (by simp [he2]) b hbA).1
            unfold no_overlap at hab h1 ⊢
            simp only at hm2 ⊢
            omega
        unfold no_overlap at h0 h1 ⊢
        simp only
        omega
  · exact hAA.sublist (List.erase_sublist a A)
  · have h1 := congrArg units hF1
    have h2 := congrArg units hG
    simp only [units_append, units_cons, units_merge2] at h1 h2
    omega
  · intro z hz1 hz2
    refine hframe z (by omega) ?_
    by_cases hdB : M.base_p < d.1
    · have := hdb.2.2 hdB
      omega
    · have : d.1 = M.base_p := by omega
      omega

/-- The invariant of the heap states of `heap_reach`: the heap is well formed, the
pointers handed out are those of the chunks in use, and the units of the free
chunks and of the chunks in use add up to the `N` units of the heap. -/
theorem heap_reach_inv (N : Nat) (M0 M : memstate) (live : List Nat)
    (h0 : fresh_heap N M0) (h : heap_reach M0 M live) :
    ∃ F A, heap_inv N M F A ∧ live = A.map (fun a => a.1 + 8) ∧ units F + units A = N := by
  induction h with
  | start =>
    refine ⟨[(M0.sbrk_addr, N)], [], ⟨h0.1, ?_, ?_, List.Pairwise.nil⟩, rfl, ?_⟩
    · intro a ha
      simp at ha
    · intro a ha
      simp at ha
    · simp [units]
  | malloc M live nbytes r _ hk ih =>
    obtain ⟨F, A, hinv, hl, hun⟩ := ih
    by_cases hr : r.1 = 0
    · rw [if_pos hr, (k_malloc_zero N M F nbytes r hinv.1 hk hr).1]
      exact ⟨F, A, hinv, hl, hun⟩
    · rw [if_neg hr]
      obtain ⟨F1, hinv1, hu1, h8⟩ := heap_malloc N M F A nbytes r hinv hk hr
      refine ⟨F1, _, hinv1, ?_, ?_⟩
      · rw [List.map_cons, ← hl]
        congr 1
        simp only
        omega
      · rw [units_cons]
        simp only
        omega
  | free M live p M1 _ hp hk ih =>
    obtain ⟨F, A, hinv, hl, hun⟩ := ih
    rw [hl] at hp
    obtain ⟨a, ha, hap⟩ := List.mem_map.mp hp
    have hap : a.1 + 8 = p := hap
    obtain ⟨M2, F1, hk2, hinv2, hu2, _⟩ := heap_free N M F A a hinv ha
    rw [hap] at hk2
    have hM : M1 = M2 := outcome.ret.inj (hk.symm.trans hk2)
    rw [hM]
    refine ⟨F1, A.erase a, hinv2, ?_, ?_⟩
    · rw [hl, ← hap]
      refine map_erase_ptr a A ?_
      intro b hb hba
      rcases pairwise_mem_cases no_overlap A hinv.2.2.2 b hb a ha with e | e | e
      · exact e
      · have h1 := (hinv.2.1 b hb).2.1
        have h2 := (hinv.2.1 a ha).2.1
        unfold no_overlap at e
        omega
      · have h1 := (hinv.2.1 b hb).2.1
        have h2 := (hinv.2.1 a ha).2.1
        unfold no_overlap at e
        omega
    · have := units_erase a A ha
      omega

/-- C19: on a well-formed free list (a cycle through the anchor, sorted by
address, no two chunks adjacent), `k_free` of the pointer a successful
`k_malloc` has returned gives a well-formed free list with the same chunks,
address by address and size by size, as before the `k_malloc`. -/
theorem C19_malloc_free (N : Nat) (M : memstate) (F : List (Nat × Nat)) (nbytes : Nat)
    (r : Nat × memstate) (hinv : free_inv N M F)
    (h : k_malloc nbytes M = outcome.ret r) (hp : r.1 ≠ 0) :
    ∃ M2, k_free r.1 r.2 = outcome.ret M2 ∧ free_inv N M2 F := by
  obtain ⟨_, _, _, _, _, _, _, _, _, _, _, _, _, h1⟩ :=
    k_malloc_success N M F nbytes r hinv h hp
  exact h1

/-- C19, at a concrete input: `k_malloc(100)` and `k_free` on the heap after
`userinit`. -/
theorem C19_malloc_free_witness :
    free_inv 4096 ex_heap [(2148556800, 4076)] ∧
    ∃ M2, k_free ((k_malloc 100 ex_heap).get_or (0, ex_mem0)).1
        ((k_malloc 100 ex_heap).get_or (0, ex_mem0)).2 = outcome.ret M2 ∧
      free_inv 4096 M2 [(2148556800, 4076)] :=
  ⟨by decide, C19_malloc_free 4096 ex_heap [(2148556800, 4076)] 100
    ((k_malloc 100 ex_heap).get_or (0, ex_mem0)) (by decide)
    (outcome_returns _ _ (by decide)) (by decide)⟩

/-- C20: in every state reached from the freshly initialised heap by calls of
`k_malloc` and by calls of `k_free` on pointers handed out and not freed since,
the free list is a cycle through the anchor on which `freep` lies, the
addresses increase strictly along it up to the wrap back to the anchor, and no
chunk of it ends where another one starts; moreover every `k_malloc` and every
`k_free` of a pointer handed out returns. -/
theorem C20_free_list_cycle (N : Nat) (M0 M : memstate) (live : List Nat)
    (h0 : fresh_heap N M0) (h : heap_reach M0 M live) :
    ∃ F : List (Nat × Nat),
      chain M.mem ((M.base_p, 0) :: F) M.base_p ∧
      M.freep ∈ ((M.base_p, 0) :: F).map Prod.fst ∧
      List.Pairwise (fun x y => x.1 < y.1) ((M.base_p, 0) :: F) ∧
      (∀ x ∈ (M.base_p, 0) :: F, ∀ y ∈ (M.base_p, 0) :: F, x ≠ y →
        hdr_add x.1 (hdr_size M.mem x.1) ≠ y.1) ∧
      (∀ nbytes, (k_malloc nbytes M).returns = true) ∧
      ∀ p ∈ live, (k_free p M).returns = true := by
  obtain ⟨F, A, hinv, hl, _⟩ := heap_reach_inv N M0 M live h0 h
  have hbd := free_inv_bounds N M F hinv.1
  obtain ⟨hB0, hBS, hSN, hfirst, hchain, hpw, hF, hfreep⟩ := hinv.1
  refine ⟨F, hchain, hfreep, pairwise_apart_lt _ hpw, ?_, ?_, ?_⟩
  · intro x hx y hy hxy
    rw [chain_mem M.mem _ _ hchain x hx, hdr_add_eq _ _ (by have := hbd x hx; omega)]
    rcases pairwise_mem_cases apart _ hpw x hx y hy with e | e | e
    · exact absurd e hxy
    · unfold apart at e
      omega
    · unfold apart at e
      omega
  · intro nbytes
    obtain ⟨r, hr⟩ := k_malloc_returns N M F nbytes hinv.1
    rw [hr]
    rfl
  · intro p hp
    rw [hl] at hp
    obtain ⟨a, ha, hap⟩ := List.mem_map.mp hp
    have hap : a.1 + 8 = p := hap
    obtain ⟨M2, F1, hk2, _⟩ := heap_free N M F A a hinv ha
    rw [← hap, hk2]
    rfl

/-- C20, at a concrete input: the heap of a machine with 14 free frames after one
`k_malloc(100)` on the freshly initialised heap. -/
theorem C20_free_list_cycle_witness :
    fresh_heap 4096 ex_fresh ∧
    ∃ F : List (Nat × Nat),
      chain ((k_malloc 100 ex_fresh).get_or (0, ex_mem0)).2.mem
        ((((k_malloc 100 ex_fresh).get_or (0, ex_mem0)).2.base_p, 0) :: F)
        ((k_malloc 100 ex_fresh).get_or (0, ex_mem0)).2.base_p ∧
      ((k_malloc 100 ex_fresh).get_or (0, ex_mem0)).2.freep ∈
        ((((k_malloc 100 ex_fresh).get_or (0, ex_mem0)).2.base_p, 0) :: F).map Prod.fst ∧
      List.Pairwise (fun x y => x.1 < y.1)
        ((((k_malloc 100 ex_fresh).get_or (0, ex_mem0)).2.base_p, 0) :: F) ∧
      (∀ x ∈ (((k_malloc 100 ex_fresh).get_or (0, ex_mem0)).2.base_p, 0) :: F,
        ∀ y ∈ (((k_malloc 100 ex_fresh).get_or (0, ex_mem0)).2.base_p, 0) :: F, x ≠ y →
          hdr_add x.1 (hdr_size ((k_malloc 100 ex_fresh).get_or (0, ex_mem0)).2.mem x.1)
            ≠ y.1) ∧
      (∀ nbytes,
        (k_malloc nbytes ((k_malloc 100 ex_fresh).get_or (0, ex_mem0)).2).returns = true) ∧
      ∀ p ∈ (if ((k_malloc 100 ex_fresh).get_or (0, ex_mem0)).1 = 0 then []
          else [((k_malloc 100 ex_fresh).get_or (0, ex_mem0)).1]),
        (k_free p ((k_malloc 100 ex_fresh).get_or (0, ex_mem0)).2).returns = true :=
  ⟨by decide, C20_free_list_cycle 4096 ex_fresh _ _ (by decide)
    (heap_reach.malloc ex_fresh [] 100 _ heap_reach.start (outcome_returns _ _ (by decide)))⟩

theorem assign_tickets_ret (n : Int) (hn : 1 ≤ n) (c : cpu) (p : proc) (hp : c.proc = some p) :
    assign_tickets n c = outcome.ret
      { proc := some { p with stride_info :=
          { stride := Int.tdiv STRIDE_LARGE_NUMBER n, tickets := n,
            pass_value := p.stride_info.pass_value } },
        k := c.k } := by
  unfold assign_tickets
  rw [hp]
  have : n ≠ 0 := by omega
  simp [this]

/-- C24, the claim as stated fails: the first process of a booted machine is given
100 tickets (stride 100) and has the pass value `2^63 - 1`; `update_pass_value`
stores the sum in a `long long`, it wraps to `-2^63 + 99`, and the pass value
has not grown although the tickets are in 1..10000. -/
theorem C24_counterexample :
    ¬ ∀ (n : Int) (c c1 : cpu) (pn : proc), 1 ≤ n →
      assign_tickets n c = outcome.ret c1 → c1.proc = some pn →
      -9223372036854775808 ≤ pn.stride_info.pass_value →
      pn.stride_info.pass_value ≤ 9223372036854775807 →
      (pn.stride_info.pass_value < (update_pass_value pn).stride_info.pass_value
        ↔ n ≤ 10000) := by
  intro h
  have := h 100 { proc := some (ex_proc 1000 1 RUNNING 300 9223372036854775807), k := ex_one }
    { proc := some (ex_proc 1000 1 RUNNING 100 9223372036854775807), k := ex_one }
    (ex_proc 1000 1 RUNNING 100 9223372036854775807) (by decide) rfl rfl (by decide)
    (by decide)
  revert this
  decide

/-- C24 (amended): for tickets `n >= 1` the stride `assign_tickets(n)` stores is
between 0 and 10000, it does not grow with the tickets (`n <= m` gives
`stride(m) <= stride(n)`), it is at least 1 exactly for `n <= 10000` and 0 for
`n > 10000`; so, for a pass value in the range of `long long` that is at most
`2^63 - 1 - stride`, `update_pass_value` adds the stride and makes the pass value
of the process strictly larger exactly when its tickets are in 1..10000; for
`n > 10000` it leaves every pass value in the range of `long long` as it is. -/
theorem C24_stride_antitone (n m : Int) (hn : 1 ≤ n) (hnm : n ≤ m) (c : cpu) (p : proc)
    (hp : c.proc = some p) (hlo : -9223372036854775808 ≤ p.stride_info.pass_value)
    (hhi : p.stride_info.pass_value + Int.tdiv STRIDE_LARGE_NUMBER n ≤ 9223372036854775807) :
    ∃ pn pm, assign_tickets n c = outcome.ret { proc := some pn, k := c.k } ∧
      assign_tickets m c = outcome.ret { proc := some pm, k := c.k } ∧
      pn.stride_info.tickets = n ∧ pm.stride_info.tickets = m ∧
      pm.stride_info.stride ≤ pn.stride_info.stride ∧
      0 ≤ pn.stride_info.stride ∧ pn.stride_info.stride ≤ 10000 ∧
      (1 ≤ pn.stride_info.stride ↔ n ≤ 10000) ∧
      (10000 < n → pn.stride_info.stride = 0) ∧
      (update_pass_value pn).stride_info.pass_value
        = pn.stride_info.pass_value + pn.stride_info.stride ∧
      (pn.stride_info.pass_value < (update_pass_value pn).stride_info.pass_value
        ↔ n ≤ 10000) ∧
      (10000 < n →
        (update_pass_value pn).stride_info.pass_value = pn.stride_info.pass_value) := by
  obtain ⟨a1, a2, a3⟩ := stride_bounds n hn
  obtain ⟨b1, b2, b3⟩ := stride_bounds m (by omega)
  refine ⟨_, _, assign_tickets_ret n hn c p hp, assign_tickets_ret m (by omega) c p hp,
    rfl, rfl, ?_⟩
  simp only [update_pass_value]
  rw [wrap64_eq _ (by omega) hhi]
  generalize Int.tdiv STRIDE_LARGE_NUMBER n = s at a1 a2 a3 ⊢
  generalize Int.tdiv STRIDE_LARGE_NUMBER m = t at b1 b2 b3 ⊢
  have h1 : t ≤ s := by
    by_contra hc
    have hc2 : s + 1 ≤ t := by omega
    have e1 : (s + 1) * n ≤ t * n := mul_le_mul_of_nonneg_right hc2 (by omega)
    have e2 : t * n ≤ t * m := mul_le_mul_of_nonneg_left hnm b1
    omega
  have h2 : s ≤ 10000 := by
    have e1 : s * 1 ≤ s * n := mul_le_mul_of_nonneg_left hn a1
    omega
  have h3 : 1 ≤ s ↔ n ≤ 10000 := by
    constructor
    · intro hs
      have e1 : 1 * n ≤ s * n := mul_le_mul_of_nonneg_right hs (by omega)
      omega
    · intro hle
      by_contra hc
      have hs0 : s = 0 := by omega
      rw [hs0] at a3
      omega
  have h4 : 10000 < n → s = 0 := by
    intro hgt
    have : ¬ (1 ≤ s) := fun hs => by
      have := h3.mp hs
      omega
    omega
  refine ⟨h1, a1, h2, h3, h4, rfl, ?_, ?_⟩
  · constructor
    · intro h
      apply h3.mp
      omega
    · intro h
      have := h3.mpr h
      omega
  · intro hgt
    rw [h4 hgt]
    omega

/-- C24 (amended), at a concrete input: 300 and 20000 tickets for the first
process of a booted machine, whose pass value is 0. -/
theorem C24_stride_antitone_witness :
    (1 : Int) ≤ 300 ∧ (300 : Int) ≤ 20000 ∧ (ex_run 14).proc = some (ex_pick 14).1 ∧
    (ex_pick 14).1.stride_info.pass_value = 0 ∧
    ∃ pn pm, assign_tickets 300 (ex_run 14) = outcome.ret { proc := some pn, k := (ex_run 14).k } ∧
      assign_tickets 20000 (ex_run 14) = outcome.ret { proc := some pm, k := (ex_run 14).k } ∧
      pn.stride_info.tickets = 300 ∧ pm.stride_info.tickets = 20000 ∧
      pm.stride_info.stride ≤ pn.stride_info.stride ∧
      0 ≤ pn.stride_info.stride ∧ pn.stride_info.stride ≤ 10000 ∧
      (1 ≤ pn.stride_info.stride ↔ (300 : Int) ≤ 10000) ∧
      ((10000 : Int) < 300 → pn.stride_info.stride = 0) ∧
      (update_pass_value pn).stride_info.pass_value
        = pn.stride_info.pass_value + pn.stride_info.stride ∧
      (pn.stride_info.pass_value < (update_pass_value pn).stride_info.pass_value
        ↔ (300 : Int) ≤ 10000) ∧
      ((10000 : Int) < 300 →
        (update_pass_value pn).stride_info.pass_value = pn.stride_info.pass_value) :=
  ⟨by decide, by decide, rfl, by decide,
    C24_stride_antitone 300 20000 (by decide) (by decide) (ex_run 14) (ex_pick 14).1 rfl
      (by decide) (by decide)⟩

/-- C22: on a well-formed free list `(base_p, 0) :: F = s ++ x :: t` with `freep`
at `x`, `k_malloc` scans the cycle in the order `t ++ s ++ [x]`, which starts
at the successor of `freep`.  When no chunk has `nunits` units it returns 0 and
changes nothing.  Otherwise it takes the first chunk `c` of that order with at
least `nunits` units, `pv` being the chunk before `c` in the list: when `c` fits
exactly it is unlinked and the pointer is `c + 8`; otherwise `c` stays with its
size reduced by `nunits`, and the pointer is that of the chunk at
`c + 8 * (c.size - nunits)`, whose header holds `nunits`.  In both cases `freep`
is `pv` afterwards, the other chunks are as before, and the free list is well
formed. -/
theorem C22_first_fit (N : Nat) (M : memstate) (F : List (Nat × Nat)) (nbytes : Nat)
    (hinv : free_inv N M F) :
    ∃ s x t, (M.base_p, 0) :: F = s ++ x :: t ∧ x.1 = M.freep ∧
      (((∀ c ∈ (M.base_p, 0) :: F, c.2 < nunits_of nbytes) ∧
          k_malloc nbytes M = outcome.ret (0, M)) ∨
       ∃ l c r g1 g2 pv M1 F1 p, t ++ s ++ [x] = l ++ c :: r ∧
          (∀ y ∈ l, y.2 < nunits_of nbytes) ∧ nunits_of nbytes ≤ c.2 ∧
          (M.base_p, 0) :: F = g1 ++ pv :: c :: g2 ∧
          k_malloc nbytes M = outcome.ret (p, M1) ∧ free_inv N M1 F1 ∧ M1.freep = pv.1 ∧
          (c.2 = nunits_of nbytes → p = c.1 + 8 ∧ (M.base_p, 0) :: F1 = g1 ++ pv :: g2) ∧
          (c.2 ≠ nunits_of nbytes → p = c.1 + 8 * (c.2 - nunits_of nbytes) + 8 ∧
            (M.base_p, 0) :: F1 = g1 ++ pv :: (c.1, c.2 - nunits_of nbytes) :: g2 ∧
            hdr_size M1.mem (c.1 + 8 * (c.2 - nunits_of nbytes)) = nunits_of nbytes)) := by
  obtain ⟨s, x, t, hst, hxf, hcase⟩ := k_malloc_core N M F nbytes hinv
  have hu := nunits_of_pos nbytes
  refine ⟨s, x, t, hst, hxf, ?_⟩
  generalize nunits_of nbytes = u at hcase hu ⊢
  rcases hcase with h | ⟨l, c, r, g1, g2, pv, hw, hl, hc, hG, hk⟩
  · exact Or.inl h
  · right
    by_cases he : c.2 = u
    · rw [if_pos he] at hk
      obtain ⟨F1, hF1, hinv1, _⟩ := malloc_exact_inv N M F g1 g2 pv c hinv hG
      exact ⟨l, c, r, g1, g2, pv, _, F1, _, hw, hl, hc, hG, hk, hinv1, rfl,
        fun _ => ⟨rfl, hF1⟩, fun h => absurd he h⟩
    · rw [if_neg he] at hk
      obtain ⟨F1, hF1, hinv1, hsz⟩ :=
        malloc_split_inv N M F g1 g2 pv c u hinv hG hu (by omega)
      exact ⟨l, c, r, g1, g2, pv, _, F1, _, hw, hl, hc, hG, hk, hinv1, rfl,
        fun h => absurd h he, fun _ => ⟨rfl, hF1, hsz⟩⟩

/-- C22, at a concrete input: `k_malloc(100)` on the heap after `userinit`. -/
theorem C22_first_fit_witness :
    free_inv 4096 ex_heap [(2148556800, 4076)] ∧
    ∃ s x t, (ex_heap.base_p, 0) :: [(2148556800, 4076)] = s ++ x :: t ∧ x.1 = ex_heap.freep ∧
      (((∀ c ∈ (ex_heap.base_p, 0) :: [(2148556800, 4076)], c.2 < nunits_of 100) ∧
          k_malloc 100 ex_heap = outcome.ret (0, ex_heap)) ∨
       ∃ l c r g1 g2 pv M1 F1 p, t ++ s ++ [x] = l ++ c :: r ∧
          (∀ y ∈ l, y.2 < nunits_of 100) ∧ nunits_of 100 ≤ c.2 ∧
          (ex_heap.base_p, 0) :: [(2148556800, 4076)] = g1 ++ pv :: c :: g2 ∧
          k_malloc 100 ex_heap = outcome.ret (p, M1) ∧ free_inv 4096 M1 F1 ∧
          M1.freep = pv.1 ∧
          (c.2 = nunits_of 100 → p = c.1 + 8 ∧ (ex_heap.base_p, 0) :: F1 = g1 ++ pv :: g2) ∧
          (c.2 ≠ nunits_of 100 → p = c.1 + 8 * (c.2 - nunits_of 100) + 8 ∧
            (ex_heap.base_p, 0) :: F1 = g1 ++ pv :: (c.1, c.2 - nunits_of 100) :: g2 ∧
            hdr_size M1.mem (c.1 + 8 * (c.2 - nunits_of 100)) = nunits_of 100)) :=
  ⟨by decide, C22_first_fit 4096 ex_heap [(2148556800, 4076)] 100 (by decide)⟩

theorem kalloc_step (M : memstate) (f : Nat) (t : List Nat)
    (h : is_free_list M.mem M.freelist (f :: t)) :
    kalloc M = (f, { M with freelist := read32 M.mem f }) := by
  obtain ⟨h1, h2, _⟩ := h
  unfold kalloc
  simp only
  rw [h1, if_pos h2]

/-- The nine calls of `kalloc` in `k_malloc` on a page free list that starts with
the frames `L`: they pop `L`, and `sbrk_addr` and `base_p` are the eighth and
the ninth frame popped. -/
theorem k_malloc_frames_spec : ∀ (L : List Nat) (i : Nat) (M : memstate) (rest : List Nat),
    is_free_list M.mem M.freelist (L ++ rest) →
    (k_malloc_frames L.length i M).mem = M.mem ∧
    is_free_list M.mem (k_malloc_frames L.length i M).freelist rest ∧
    (k_malloc_frames L.length i M).freep = M.freep ∧
    (k_malloc_frames L.length i M).first = M.first ∧
    (k_malloc_frames L.length i M).sbrk_addr
      = (if i ≤ 7 ∧ 7 < i + L.length then L.getD (7 - i) 0 else M.sbrk_addr) ∧
    (k_malloc_frames L.length i M).base_p
      = (if i ≤ 8 ∧ 8 < i + L.length then L.getD (8 - i) 0 else M.base_p) := by
  intro L
  induction L with
  | nil =>
    intro i M rest h
    have e : k_malloc_frames ([] : List Nat).length i M = M := rfl
    rw [e]
    refine ⟨rfl, h, rfl, rfl, ?_, ?_⟩
    · rw [if_neg (by simp)]
    · rw [if_neg (by simp)]
  | cons f t ih =>
    intro i M rest h
    have hk := kalloc_step M f (t ++ rest) h
    obtain ⟨_, _, h3⟩ := h
    simp only [List.length_cons, k_malloc_frames, hk]
    by_cases h7 : i = 7
    · subst h7
      have := ih 8 { M with freelist := read32 M.mem f, sbrk_addr := f } rest h3
      simp only [if_true, (by decide : ¬ (7 = 8)), if_false] at this ⊢
      obtain ⟨a1, a2, a3, a4, a5, a6⟩ := this
      refine ⟨a1, a2, a3, a4, ?_, ?_⟩
      · rw [a5, if_neg (by omega), if_pos (by omega)]
        rfl
      · rw [a6]
        by_cases hl : 8 < 8 + t.length
        · rw [if_pos ⟨Nat.le_refl _, hl⟩, if_pos (by omega)]
          rfl
        · rw [if_neg (by omega), if_neg (by omega)]
    · by_cases h8 : i = 8
      · subst h8
        have := ih 9 { M with freelist := read32 M.mem f, base_p := f } rest h3
        simp only [if_true, (by decide : ¬ (8 = 7)), if_false] at this ⊢
        obtain ⟨a1, a2, a3, a4, a5, a6⟩ := this
        refine ⟨a1, a2, a3, a4, ?_, ?_⟩
        · rw [a5, if_neg (by omega), if_neg (by omega)]
        · rw [a6, if_neg (by omega), if_pos (by omega)]
          rfl
      · have := ih (i + 1) { M with freelist := read32 M.mem f } rest h3
        simp only [h7, h8, if_false] at this ⊢
        obtain ⟨a1, a2, a3, a4, a5, a6⟩ := this
        refine ⟨a1, a2, a3, a4, ?_, ?_⟩
        · rw [a5]
          by_cases hc : i ≤ 7 ∧ 7 < i + (t.length + 1)
          · rw [if_pos hc, if_pos (by omega)]
            have e : 7 - i = (7 - (i + 1)) + 1 := by omega
            rw [e, List.getD_cons_succ]
          · rw [if_neg hc, if_neg (by omega)]
        · rw [a6]
          by_cases hc : i ≤ 8 ∧ 8 < i + (t.length + 1)
          · rw [if_pos hc, if_pos (by omega)]
            have e : 8 - i = (8 - (i + 1)) + 1 := by omega
            rw [e, List.getD_cons_succ]
          · rw [if_neg hc, if_neg (by omega)]

theorem kmorecore_first (nu : Nat) (M : memstate) (hfirst : M.first = true)
    (hS1 : M.sbrk_addr ≠ 4294967295) (hS0 : M.sbrk_addr ≠ 0) :
    kmorecore nu M =
      (k_free (hdr_add M.sbrk_addr 1) { M with first := false, mem := set_size M.mem M.sbrk_addr (if nu < 4096 then 4096 else nu) }).bind
        fun M3 => outcome.ret (M3.freep, M3) := by
  unfold kmorecore
  rw [if_pos hfirst]
  simp only
  rw [if_neg hS1, if_neg hS0]

theorem kmorecore_later (nu : Nat) (M : memstate) (hfirst : M.first = false) :
    kmorecore nu M = outcome.ret (0, M) := by
  unfold kmorecore
  rw [if_neg (by simp [hfirst])]

/-- The first-time initialisation of `k_malloc` followed by the first call of
`kmorecore`, for at most 4096 units, on a state whose `sbrk_addr` lies one
page above `base_p`: the result is the fresh heap of 4096 units; only the two
headers were written. -/
theorem kmorecore_fresh (nu : Nat) (M : memstate) (hnu : nu ≤ 4096)
    (hfirst : M.first = true) (hB : 0 < M.base_p) (hS : M.sbrk_addr = M.base_p + 4096)
    (htop : M.sbrk_addr + 32768 < 4294967296) :
    ∃ M2, kmorecore nu { M with freep := M.base_p, mem := set_size (set_ptr M.mem M.base_p M.base_p) M.base_p 0 }
        = outcome.ret (M.base_p, M2) ∧
      fresh_heap 4096 M2 ∧ M2.sbrk_addr = M.sbrk_addr ∧ M2.base_p = M.base_p ∧
      M2.freelist = M.freelist ∧
      ∀ z, (z < M.base_p ∨ M.base_p + 8 ≤ z) → (z < M.sbrk_addr ∨ M.sbrk_addr + 8 ≤ z) →
        M2.mem z = M.mem z := by
  have e : (if nu < 4096 then 4096 else nu) = 4096 := by
    split <;> omega
  rw [kmorecore_first nu { M with freep := M.base_p, mem := set_size (set_ptr M.mem M.base_p M.base_p) M.base_p 0 }
    hfirst (by simp only; omega) (by simp only; omega), e,
    hdr_add_eq _ _ (by simp only; omega)]
  have hinv : free_inv 4096 { M with freep := M.base_p, first := false, mem := set_size (set_size (set_ptr M.mem M.base_p M.base_p) M.base_p 0) M.sbrk_addr 4096 } [] := by
    refine ⟨hB, by simp only; omega, by simp only; omega, rfl, ⟨?_, ?_, trivial⟩, by simp,
      by simp, by simp⟩
    · simp only [head_addr]
      rw [hdr_ptr_set_size _ _ _ _ (by omega), hdr_ptr_set_size _ _ _ _ (by omega),
        hdr_ptr_set_ptr _ _ _ (by omega)]
    · simp only
      rw [hdr_size_set_size_ne _ _ _ _ (by omega), hdr_size_set_size _ _ _ (by omega)]
  obtain ⟨M3, F1, hk, hF1, hinv3, e1, e2, e3, e4, hfr⟩ := k_free_core 4096 _ [] [] []
    (M.base_p, 0) M.sbrk_addr 4096 hinv rfl
    (by
      intro x hx
      simp only [List.nil_append, List.mem_singleton] at hx
      subst hx
      simp only
      omega)
    (by simp) (hdr_size_set_size _ _ _ (by omega)) (by omega)
    ⟨Nat.le_refl _, Nat.le_refl _⟩
  have hm : merge2 (M.base_p, 0) (merge2 (M.sbrk_addr, 4096) [])
      = [(M.base_p, 0), (M.sbrk_addr, 4096)] := by
    rw [merge2_of_ne]
    · rfl
    · intro y hy
      simp only [merge2, List.mem_singleton] at hy
      subst hy
      simp only
      omega
  rw [hm] at hF1
  have hF : F1 = [(M.sbrk_addr, 4096)] := (List.cons.inj hF1).2
  rw [hF] at hinv3
  refine ⟨M3, ?_, ⟨?_, ?_⟩, e3, e2, e4, ?_⟩
  rotate_left 3
  · intro z hz1 hz2
    rw [hfr z hz2 hz1]
    show set_size (set_size (set_ptr M.mem M.base_p M.base_p) M.base_p 0) M.sbrk_addr 4096 z
      = M.mem z
    rw [set_size_out _ _ _ _ hz2, set_size_out _ _ _ _ hz1, set_ptr_out _ _ _ _ hz1]
  · have hk2 : k_free (M.sbrk_addr + 8 * 1) { M with freep := M.base_p, first := false, mem := set_size (set_size (set_ptr M.mem M.base_p M.base_p) M.base_p 0) M.sbrk_addr 4096 } = outcome.ret M3 := hk
    rw [hk2]
    simp only [outcome.bind]
    rw [e1]
  · rw [e3]
    exact hinv3
  · rw [e1, e2]

/-- C23: when the page free list starts with nine frames at consecutive descending
addresses `f, f - 4096, .., f - 32768` (below 2^32, the lowest above 0), the
first-time initialisation of `k_malloc` sets `sbrk_addr` to the eighth,
`f - 28672`, the lowest of the first eight, and `base_p` to the ninth, the frame
immediately below; the first call of `kmorecore`, for at most 4096 units, then
leaves the fresh heap: the anchor linked to one chunk of 4096 units at
`sbrk_addr`.  Every byte of that chunk lies in one of the first eight frames
and none lies in the frame of the anchor. -/
theorem C23_heap_layout (M : memstate) (f nu : Nat) (rest : List Nat)
    (hL : is_free_list M.mem M.freelist
      ([f, f - 4096, f - 8192, f - 12288, f - 16384, f - 20480, f - 24576, f - 28672,
        f - 32768] ++ rest))
    (hf : 32768 < f) (htop : f + 4096 < 4294967296) (hfirst : M.first = true)
    (hnu : nu ≤ 4096) :
    ∃ M1 M2, k_malloc_init M = outcome.ret M1 ∧
      M1.sbrk_addr = f - 28672 ∧ M1.base_p = f - 32768 ∧ M1.base_p = M1.sbrk_addr - 4096 ∧
      M1.freep = M1.base_p ∧ is_free_list M.mem M1.freelist rest ∧
      kmorecore nu M1 = outcome.ret (M1.base_p, M2) ∧ fresh_heap 4096 M2 ∧
      M2.sbrk_addr = M1.sbrk_addr ∧ M2.base_p = M1.base_p ∧ M2.freelist = M1.freelist ∧
      hdr_size M2.mem M2.sbrk_addr = 4096 ∧
      ∀ x, M2.sbrk_addr ≤ x → x < M2.sbrk_addr + 8 * 4096 →
        (∃ i, i < 8 ∧ f - 4096 * i ≤ x ∧ x < f - 4096 * i + 4096) ∧
        ¬ (M2.base_p ≤ x ∧ x < M2.base_p + 4096) := by
  obtain ⟨a1, a2, a3, a4, a5, a6⟩ := k_malloc_frames_spec _ 0 M rest hL
  rw [if_pos (by simp)] at a5 a6
  have e9 : [f, f - 4096, f - 8192, f - 12288, f - 16384, f - 20480, f - 24576, f - 28672,
      f - 32768].length = 9 := rfl
  rw [e9] at a1 a2 a4 a5 a6
  have a5b : (k_malloc_frames 9 0 M).sbrk_addr = f - 28672 := by
    rw [a5, Nat.sub_zero, List.getD_cons_succ, List.getD_cons_succ, List.getD_cons_succ,
      List.getD_cons_succ, List.getD_cons_succ, List.getD_cons_succ, List.getD_cons_succ,
      List.getD_cons_zero]
  have a6b : (k_malloc_frames 9 0 M).base_p = f - 32768 := by
    rw [a6, Nat.sub_zero, List.getD_cons_succ, List.getD_cons_succ, List.getD_cons_succ,
      List.getD_cons_succ, List.getD_cons_succ, List.getD_cons_succ, List.getD_cons_succ,
      List.getD_cons_succ, List.getD_cons_zero]
  have hinit : k_malloc_init M = outcome.ret { k_malloc_frames 9 0 M with freep := (k_malloc_frames 9 0 M).base_p, mem := set_size (set_ptr (k_malloc_frames 9 0 M).mem (k_malloc_frames 9 0 M).base_p (k_malloc_frames 9 0 M).base_p) (k_malloc_frames 9 0 M).base_p 0 } := by
    unfold k_malloc_init
    simp only
    rw [if_neg (by rw [a6b]; omega)]
  generalize k_malloc_frames 9 0 M = R at a5b a6b a1 a2 a4 hinit
  have a4b := a4
  have a2b := a2
  obtain ⟨M2, hk, hfresh, e1, e2, e3, _⟩ := kmorecore_fresh nu R hnu (a4b.trans hfirst)
    (by omega) (by omega) (by omega)
  refine ⟨_, M2, hinit, a5b, a6b, by simp only; omega, rfl, a2b, hk, hfresh, e1, e2, e3, ?_, ?_⟩
  · have := hfresh.1.2.2.2.2.1
    exact this.2.2.2.1
  · intro x hx1 hx2
    rw [e1, a5b] at hx1 hx2
    rw [e2, a6b]
    refine ⟨⟨(f + 4095 - x) / 4096, ?_, ?_, ?_⟩, ?_⟩
    · omega
    · omega
    · omega
    · omega

/-- C23, at a concrete input: a machine with 14 free frames, whose page free list
descends from 0x8010d000. -/
theorem C23_heap_layout_witness :
    is_free_list (ex_mem 14).mem (ex_mem 14).freelist
      ([2148585472, 2148585472 - 4096, 2148585472 - 8192, 2148585472 - 12288,
        2148585472 - 16384, 2148585472 - 20480, 2148585472 - 24576, 2148585472 - 28672,
        2148585472 - 32768] ++
        [2148548608, 2148544512, 2148540416, 2148536320, 2148532224]) ∧
    ∃ M1 M2, k_malloc_init (ex_mem 14) = outcome.ret M1 ∧
      M1.sbrk_addr = 2148585472 - 28672 ∧ M1.base_p = 2148585472 - 32768 ∧ M1.base_p = M1.sbrk_addr - 4096 ∧
      M1.freep = M1.base_p ∧ is_free_list (ex_mem 14).mem M1.freelist [2148548608, 2148544512, 2148540416, 2148536320, 2148532224] ∧
      kmorecore 1 M1 = outcome.ret (M1.base_p, M2) ∧ fresh_heap 4096 M2 ∧
      M2.sbrk_addr = M1.sbrk_addr ∧ M2.base_p = M1.base_p ∧ M2.freelist = M1.freelist ∧
      hdr_size M2.mem M2.sbrk_addr = 4096 ∧
      ∀ x, M2.sbrk_addr ≤ x → x < M2.sbrk_addr + 8 * 4096 →
        (∃ i, i < 8 ∧ 2148585472 - 4096 * i ≤ x ∧ x < 2148585472 - 4096 * i + 4096) ∧
        ¬ (M2.base_p ≤ x ∧ x < M2.base_p + 4096) :=
  ⟨by simp only [is_free_list, List.cons_append, List.nil_append]; decide,
    C23_heap_layout (ex_mem 14) 2148585472 1 [2148548608, 2148544512, 2148540416, 2148536320, 2148532224]
      (by simp only [is_free_list, List.cons_append, List.nil_append]; decide)
      (by decide) (by decide) (by decide) (by decide)⟩

/-- C21, the code at the failing input.  On the uninitialised heap of a machine
with 14 free frames the first request is `k_malloc(40000)`, that is 5001 units:
`kmorecore` installs a chunk of 5001 units at `sbrk_addr` and `k_malloc` hands
it out whole, although the eight frames behind `sbrk_addr` hold 4096 units; the
chunk ends 7240 bytes above the last of these frames, and it is more than
9 x 4096 bytes.  Freed again, it is a free chunk of 5001 units. -/
theorem C21_first_request_over_capacity :
    (ex_mem 14).freep = 0 ∧ (ex_mem 14).first = true ∧ (ex_mem 14).freelist = 2148585472 ∧
    nunits_of 40000 = 5001 ∧
    (k_malloc 40000 (ex_mem 14)).returns = true ∧
    ((k_malloc 40000 (ex_mem 14)).get_or (0, ex_mem0)).1 = 2148556800 + 8 ∧
    ((k_malloc 40000 (ex_mem 14)).get_or (0, ex_mem0)).2.sbrk_addr = 2148556800 ∧
    ((k_malloc 40000 (ex_mem 14)).get_or (0, ex_mem0)).2.base_p = 2148556800 - 4096 ∧
    hdr_size ((k_malloc 40000 (ex_mem 14)).get_or (0, ex_mem0)).2.mem 2148556800 = 5001 ∧
    2148556800 + 8 * 4096 = 2148585472 + 4096 ∧
    2148556800 + 8 * 5001 = 2148585472 + 4096 + 7240 ∧
    9 * 4096 < 8 * 5001 ∧
    free_chunks 8 ((k_free (2148556800 + 8)
      ((k_malloc 40000 (ex_mem 14)).get_or (0, ex_mem0)).2).get_or ex_mem0)
      = [(2148552704, 0), (2148556800, 5001)] := by
  decide

theorem bind_ret {α β : Type} (x : outcome α) (f : α → outcome β) (a : α)
    (h : x = outcome.ret a) : x.bind f = f a := by
  rw [h]
  rfl

/-- A well-formed heap stays well formed when the globals of the heap and the
bytes of its memory stay the same. -/
theorem heap_inv_same (N : Nat) (M M1 : memstate) (F A : List (Nat × Nat))
    (hinv : heap_inv N M F A) (hs : heap_same N M M1) : heap_inv N M1 F A := by
  obtain ⟨hfree, hA, hFA, hAA⟩ := hinv
  have hbd := free_inv_bounds N M F hfree
  obtain ⟨hB0, hBS, hSN, hfirst, hchain, hpw, hF, hfreep⟩ := hfree
  obtain ⟨e1, e2, e3, e4, hmem⟩ := hs
  refine ⟨⟨by omega, by omega, by omega, e4.trans hfirst, ?_, ?_, ?_, ?_⟩, ?_, hFA, hAA⟩
  · rw [e1]
    refine chain_frame M.mem M1.mem _ _ ?_ hchain
    intro c hc x hx1 hx2
    apply hmem
    have := hbd c hc
    by_cases hcB : M.base_p < c.1
    · right
      have := this.2.2 hcB
      omega
    · left
      omega
  · rw [e1]
    exact hpw
  · rw [e2]
    exact hF
  · rw [e1, e3]
    exact hfreep
  · intro a ha
    obtain ⟨a1, a2, a3, a4⟩ := hA a ha
    rw [e2]
    refine ⟨?_, a2, a3, a4⟩
    rw [← a1]
    refine (hdr_congr _ _ a.1 ?_).2
    intro x hx1 hx2
    apply hmem
    right
    omega

/-- The function `kfree` on a valid frame outside the memory of the heap returns and
leaves the heap as it is. -/
theorem kfree_heap_same (cfg : layout) (N v : Nat) (M : memstate) (hv : valid_frame cfg v)
    (ho : frame_outside M.base_p M.sbrk_addr N v) :
    ∃ M1, kfree cfg v M = outcome.ret M1 ∧ heap_same N M M1 := by
  obtain ⟨h1, h2, h3⟩ := hv
  obtain ⟨o1, o2⟩ := ho
  unfold PGSIZE at o1 o2
  refine ⟨{ M with mem := write32 (memset M.mem v 1 PGSIZE) v M.freelist, freelist := v }, ?_,
    rfl, rfl, rfl, rfl, ?_⟩
  · unfold kfree
    rw [if_neg (by omega)]
  · intro x hx
    simp only
    rw [write32_out _ _ _ _ (by omega)]
    unfold memset PGSIZE
    rw [if_neg (by omega)]

/-- The scan of `wait` finds the first child of the list when it is a ZOMBIE. -/
theorem wait_scan_first (cur : Nat) (p : proc) (post : List proc) (hp : p.parent = cur)
    (hz : p.state = ZOMBIE) : ∀ (pre : List proc) (i : Nat) (hk : Bool),
    (∀ q ∈ pre, q.parent ≠ cur) →
    wait_scan cur (pre ++ p :: post) i hk = (some (i + pre.length, p), true) := by
  intro pre
  induction pre with
  | nil =>
    intro i hk _
    simp [wait_scan, hp, hz]
  | cons a t ih =>
    intro i hk h
    have ha := h a (List.mem_cons_self _ _)
    rw [List.cons_append]
    unfold wait_scan
    rw [if_pos ha, ih (i + 1) hk fun q hq => h q (List.mem_cons_of_mem _ hq)]
    simp only [List.length_cons]
    congr 3
    omega

/-- One call of `wait` that reaps the first child of the list, a ZOMBIE whose slot
is a chunk in use of a well-formed heap. -/
theorem wait_step (cfg : config) (co : collab) (N : Nat) (c : cpu) (cur p : proc)
    (pre post : List proc) (F A : List (Nat × Nat)) (a : Nat × Nat)
    (hcur : c.proc = some cur) (hq : c.k.queue = pre ++ p :: post)
    (hpre : ∀ q ∈ pre, q.parent ≠ cur.addr) (hp : p.parent = cur.addr)
    (hz : p.state = ZOMBIE) (hheap : heap_inv N c.k.M F (a :: A)) (ha : p.addr = a.1 + 8)
    (hks : valid_frame cfg.lay p.kstack ∧
      frame_outside c.k.M.base_p c.k.M.sbrk_addr N p.kstack)
    (hvm : ∀ M, M.base_p = c.k.M.base_p → M.sbrk_addr = c.k.M.sbrk_addr →
      heap_same N M (co.freevm M p.pgdir)) :
    ∃ M3 F1, wait cfg co c = outcome.ret (some p.pid, { c with k := { c.k with M := M3, queue := pre ++ post } }) ∧
      heap_inv N M3 F1 A ∧ M3.base_p = c.k.M.base_p ∧ M3.sbrk_addr = c.k.M.sbrk_addr := by
  obtain ⟨M1, hk1, hs1⟩ := kfree_heap_same cfg.lay N p.kstack c.k.M hks.1 hks.2
  have hs2 := hvm M1 hs1.1 hs1.2.1
  have hinv2 : heap_inv N (co.freevm M1 p.pgdir) F (a :: A) :=
    heap_inv_same N _ _ F _ (heap_inv_same N _ _ F _ hheap hs1) hs2
  obtain ⟨M3, F1, hk3, hinv3, _, _, _, e1, e2⟩ :=
    heap_free N (co.freevm M1 p.pgdir) F (a :: A) a hinv2 (List.mem_cons_self _ _)
  rw [List.erase_cons_head] at hinv3
  refine ⟨M3, F1, ?_, hinv3, ?_, ?_⟩
  · unfold wait
    rw [hcur]
    simp only
    rw [hq, wait_scan_first cur.addr p post hp hz pre 0 false hpre]
    simp only
    rw [bind_ret _ _ M1 hk1]
    have hk4 : k_free (wait_reap p).addr (co.freevm M1 p.pgdir) = outcome.ret M3 := by
      rw [← ha] at hk3
      exact hk3
    rw [bind_ret _ _ M3 hk4]
    have e : (pre ++ p :: post).eraseIdx (0 + pre.length) = pre ++ post := by
      simp [List.eraseIdx_append_of_length_le]
    rw [e]
  · rw [e1, hs2.1, hs1.1]
  · rw [e2, hs2.2.1, hs1.2.1]

/-- Successive calls of `wait` by a process all of whose children are ZOMBIE, their
slots being chunks in use of a well-formed heap: the calls reap the children in
the order of the list, and once no child is left `wait` returns -1. -/
theorem wait_n_spec (cfg : config) (co : collab) (N : Nat) (cur : proc) (B0 S0 : Nat) :
    ∀ (kids : List proc) (c : cpu) (F A : List (Nat × Nat)),
      c.proc = some cur →
      c.k.queue.filter (fun p => decide (p.parent = cur.addr)) = kids →
      (∀ p ∈ kids, p.state = ZOMBIE) →
      heap_inv N c.k.M F A → kids.map (fun p => p.addr) = A.map (fun a => a.1 + 8) →
      c.k.M.base_p = B0 → c.k.M.sbrk_addr = S0 →
      (∀ p ∈ kids, valid_frame cfg.lay p.kstack ∧ frame_outside B0 S0 N p.kstack) →
      (∀ M, ∀ p ∈ kids, M.base_p = B0 → M.sbrk_addr = S0 →
        heap_same N M (co.freevm M p.pgdir)) →
      ∀ j, j ≤ kids.length →
        ∃ cj, wait_n cfg co j c = outcome.ret ((kids.take j).map (fun p => some p.pid), cj) ∧
          cj.proc = c.proc ∧
          cj.k.queue.filter (fun p => decide (p.parent = cur.addr)) = kids.drop j ∧
          cj.k.queue.filter (fun p => !decide (p.parent = cur.addr))
            = c.k.queue.filter (fun p => !decide (p.parent = cur.addr)) ∧
          (j = kids.length → wait cfg co cj = outcome.ret (some (-1), cj)) := by
  intro kids
  induction kids with
  | nil =>
    intro c F A hcur hf _ _ _ _ _ _ _ j hj
    have hj0 : j = 0 := by simpa using hj
    subst hj0
    refine ⟨c, rfl, rfl, hf, rfl, ?_⟩
    intro _
    have hno : ∀ q ∈ c.k.queue, q.parent ≠ cur.addr := by
      intro q hq
      have := List.filter_eq_nil_iff.mp hf q hq
      simpa using this
    exact (wait_no_zombie cfg co c cur hcur (fun q hq hp => absurd hp (hno q hq))).1
      (Or.inl hno)
  | cons p rest ih =>
    intro c F A hcur hf hz hheap hslots hB hS hks hvm j hj
    obtain ⟨pre, post, hq, hpre, hp, hpost⟩ := List.filter_eq_cons_iff.mp hf
    have hp2 : p.parent = cur.addr := by simpa using hp
    have hpre2 : ∀ q ∈ pre, q.parent ≠ cur.addr := by
      intro q hq2
      simpa using hpre q hq2
    cases A with
    | nil => simp at hslots
    | cons a A2 =>
      simp only [List.map_cons, List.cons.injEq] at hslots
      obtain ⟨ha, hslots2⟩ := hslots
      cases j with
      | zero =>
        refine ⟨c, rfl, rfl, hf, rfl, ?_⟩
        intro h
        simp at h
      | succ j2 =>
        have hj2 : j2 ≤ rest.length := by simpa using hj
        obtain ⟨M3, F1, hw, hinv3, e1, e2⟩ := wait_step cfg co N c cur p pre post F A2 a hcur
          hq hpre2 hp2 (hz p (List.mem_cons_self _ _)) hheap ha
          (by rw [hB, hS]; exact hks p (List.mem_cons_self _ _))
          (fun M h1 h2 => hvm M p (List.mem_cons_self _ _) (h1.trans hB) (h2.trans hS))
        have hfpre : pre.filter (fun p => decide (p.parent = cur.addr)) = [] := by
          refine List.filter_eq_nil_iff.mpr ?_
          intro q hq2
          simpa using hpre2 q hq2
        obtain ⟨cj, hwn, hproc, hkids, hother, hlast⟩ :=
          ih { c with k := { c.k with M := M3, queue := pre ++ post } } F1 A2 hcur
            (by
              show (pre ++ post).filter (fun p => decide (p.parent = cur.addr)) = rest
              rw [List.filter_append, hfpre, hpost]
              rfl)
            (fun q hq2 => hz q (List.mem_cons_of_mem _ hq2)) hinv3 hslots2
            (e1.trans hB) (e2.trans hS)
            (fun q hq2 => hks q (List.mem_cons_of_mem _ hq2))
            (fun M q hq2 => hvm M q (List.mem_cons_of_mem _ hq2)) j2 hj2
        refine ⟨cj, ?_, hproc, ?_, ?_, ?_⟩
        · show (wait cfg co c).bind _ = _
          rw [bind_ret _ _ _ hw]
          simp only
          rw [bind_ret _ _ _ hwn]
          rfl
        · rw [hkids]
          rfl
        · rw [hother, hq]
          show (pre ++ post).filter (fun p => !decide (p.parent = cur.addr))
            = (pre ++ p :: post).filter (fun p => !decide (p.parent = cur.addr))
          rw [List.filter_append, List.filter_append, List.filter_cons]
          simp [hp2]
        · intro h
          exact hlast (by simpa using h)

/-- C11: the caller's children are the entries of the list whose parent it is; all
of them are ZOMBIE, they have distinct positive pids, their slots are chunks in
use of a well-formed heap, and their kernel stacks and what `freevm` touches
lie outside the memory of the heap.  Then for every `j` up to their number `n`
the first `j` calls of `wait` return, with the pids of the first `j` children
of the list: distinct, positive, each the pid of a child.  After these calls
the children left in the list are the other `n - j`, the reaped ones are not in
the list and their slots were left UNUSED, and the entries of other parents are
as before.  After `n` calls, one more call returns -1 and changes nothing. -/
theorem C11_wait_collects (cfg : config) (co : collab) (N : Nat) (c : cpu) (cur : proc)
    (F A : List (Nat × Nat)) (hcur : c.proc = some cur)
    (hz : ∀ p ∈ c.k.queue, p.parent = cur.addr → p.state = ZOMBIE)
    (hpid : ((c.k.queue.filter fun p => decide (p.parent = cur.addr)).map
      fun p => p.pid).Nodup)
    (hpos : ∀ p ∈ c.k.queue, p.parent = cur.addr → 0 < p.pid)
    (hheap : heap_inv N c.k.M F A)
    (hslots : (c.k.queue.filter fun p => decide (p.parent = cur.addr)).map (fun p => p.addr)
      = A.map fun a => a.1 + 8)
    (hks : ∀ p ∈ c.k.queue, p.parent = cur.addr → valid_frame cfg.lay p.kstack ∧
      frame_outside c.k.M.base_p c.k.M.sbrk_addr N p.kstack)
    (hvm : ∀ M, ∀ p ∈ c.k.queue, p.parent = cur.addr → M.base_p = c.k.M.base_p →
      M.sbrk_addr = c.k.M.sbrk_addr → heap_same N M (co.freevm M p.pgdir)) :
    ∀ j, j ≤ (c.k.queue.filter fun p => decide (p.parent = cur.addr)).length →
      ∃ cj, wait_n cfg co j c = outcome.ret
          (((c.k.queue.filter fun p => decide (p.parent = cur.addr)).take j).map
            (fun p => some p.pid), cj) ∧
        cj.proc = c.proc ∧
        (((c.k.queue.filter fun p => decide (p.parent = cur.addr)).take j).map
          fun p => p.pid).Nodup ∧
        (∀ p ∈ (c.k.queue.filter fun p => decide (p.parent = cur.addr)).take j,
          p ∈ c.k.queue ∧ p.parent = cur.addr ∧ 0 < p.pid ∧ p ∉ cj.k.queue ∧
            (wait_reap p).state = UNUSED) ∧
        cj.k.queue.filter (fun p => decide (p.parent = cur.addr))
          = (c.k.queue.filter fun p => decide (p.parent = cur.addr)).drop j ∧
        cj.k.queue.filter (fun p => !decide (p.parent = cur.addr))
          = c.k.queue.filter (fun p => !decide (p.parent = cur.addr)) ∧
        (j = (c.k.queue.filter fun p => decide (p.parent = cur.addr)).length →
          wait cfg co cj = outcome.ret (some (-1), cj)) := by
  intro j hj
  have hmem : ∀ p ∈ c.k.queue.filter (fun p => decide (p.parent = cur.addr)),
      p ∈ c.k.queue ∧ p.parent = cur.addr := by
    intro p hp
    have := List.mem_filter.mp hp
    exact ⟨this.1, by simpa using this.2⟩
  obtain ⟨cj, h1, h2, h3, h4, h5⟩ := wait_n_spec cfg co N cur c.k.M.base_p c.k.M.sbrk_addr
    (c.k.queue.filter fun p => decide (p.parent = cur.addr)) c F A hcur rfl
    (fun p hp => hz p (hmem p hp).1 (hmem p hp).2) hheap hslots rfl rfl
    (fun p hp => hks p (hmem p hp).1 (hmem p hp).2)
    (fun M p hp => hvm M p (hmem p hp).1 (hmem p hp).2) j hj
  generalize c.k.queue.filter (fun p => decide (p.parent = cur.addr)) = kids at *
  have hsplit : kids = kids.take j ++ kids.drop j := (List.take_append_drop j kids).symm
  have hnd : ((kids.take j).map fun p => p.pid).Nodup := by
    rw [hsplit, List.map_append] at hpid
    exact (List.nodup_append.mp hpid).1
  refine ⟨cj, h1, h2, hnd, ?_, h3, h4, h5⟩
  intro p hp
  have hpk : p ∈ kids := List.mem_of_mem_take hp
  refine ⟨(hmem p hpk).1, (hmem p hpk).2, hpos p (hmem p hpk).1 (hmem p hpk).2, ?_, rfl⟩
  intro hin
  have hpd : p ∈ kids.drop j := by
    rw [← h3]
    exact List.mem_filter.mpr ⟨hin, by simpa using (hmem p hpk).2⟩
  rw [hsplit, List.map_append] at hpid
  have hdis := (List.nodup_append.mp hpid).2.2
  exact hdis (List.mem_map_of_mem _ hp) (List.mem_map_of_mem _ hpd)

/-- The collaborator `freevm` of the concrete machines leaves the heap as it is
when the page directory is no valid frame or lies outside the memory of the
heap. -/
theorem ex_co_freevm_same (N : Nat) (M : memstate) (pg : Nat)
    (h : frame_outside M.base_p M.sbrk_addr N pg) : heap_same N M (ex_co.freevm M pg) := by
  show heap_same N M ((kfree ex_lay pg M).get_or M)
  by_cases hv : valid_frame ex_lay pg
  · obtain ⟨M1, hk, hs⟩ := kfree_heap_same ex_lay N pg M hv h
    rw [hk]
    exact hs
  · have hk : kfree ex_lay pg M = outcome.fault := by
      unfold kfree
      unfold valid_frame at hv
      rw [if_pos (by omega)]
    rw [hk]
    exact ⟨rfl, rfl, rfl, rfl, fun _ _ => rfl⟩

theorem ex_zombie_freevm : ∀ M, ∀ p ∈ ex_zombie.k.queue, p.parent = ex_parent.addr →
    M.base_p = ex_zombie.k.M.base_p → M.sbrk_addr = ex_zombie.k.M.sbrk_addr →
    heap_same 4096 M (ex_co.freevm M p.pgdir) := by
  intro M p hp hpar hB hS
  have h : ∀ p ∈ ex_zombie.k.queue, p.parent = ex_parent.addr →
      frame_outside ex_zombie.k.M.base_p ex_zombie.k.M.sbrk_addr 4096 p.pgdir := by decide
  apply ex_co_freevm_same
  rw [hB, hS]
  exact h p hp hpar

/-- C11, at a concrete input: the first process has forked one child, which has
run, called `exit` and is a ZOMBIE in the list; the first `wait` returns its
pid 2, the second -1. -/
theorem C11_wait_collects_witness :
    ex_zombie.proc = some ex_parent ∧
    heap_inv 4096 ex_zombie.k.M [(2148556800, 4056)] [(2148589248, 20)] ∧
    (ex_zombie.k.queue.filter fun p => decide (p.parent = ex_parent.addr)).map
      (fun p => (p.pid, p.state)) = [(2, ZOMBIE)] ∧
    ∃ cj, wait_n ex_cfg ex_co 1 ex_zombie = outcome.ret
          (((ex_zombie.k.queue.filter fun p => decide (p.parent = ex_parent.addr)).take 1).map
            (fun p => some p.pid), cj) ∧
        cj.proc = ex_zombie.proc ∧
        (((ex_zombie.k.queue.filter fun p => decide (p.parent = ex_parent.addr)).take 1).map
          fun p => p.pid).Nodup ∧
        (∀ p ∈ (ex_zombie.k.queue.filter fun p => decide (p.parent = ex_parent.addr)).take 1,
          p ∈ ex_zombie.k.queue ∧ p.parent = ex_parent.addr ∧ 0 < p.pid ∧ p ∉ cj.k.queue ∧
            (wait_reap p).state = UNUSED) ∧
        cj.k.queue.filter (fun p => decide (p.parent = ex_parent.addr))
          = (ex_zombie.k.queue.filter fun p => decide (p.parent = ex_parent.addr)).drop 1 ∧
        cj.k.queue.filter (fun p => !decide (p.parent = ex_parent.addr))
          = ex_zombie.k.queue.filter (fun p => !decide (p.parent = ex_parent.addr)) ∧
        (1 = (ex_zombie.k.queue.filter fun p => decide (p.parent = ex_parent.addr)).length →
          wait ex_cfg ex_co cj = outcome.ret (some (-1), cj)) :=
  ⟨by decide, by decide, by decide,
    C11_wait_collects ex_cfg ex_co 4096 ex_zombie ex_parent [(2148556800, 4056)]
      [(2148589248, 20)] (by decide) (by decide) (by decide) (by decide) (by decide)
      (by decide) (by decide) ex_zombie_freevm 1 (by decide)⟩

/-- More steps do not change what the loop of `k_malloc` returns. -/
theorem k_malloc_loop_mono (u : Nat) : ∀ (fuel prevp p : Nat) (M : memstate)
    (r : Nat × memstate), k_malloc_loop u fuel prevp p M = outcome.ret r →
    k_malloc_loop u (fuel + 1) prevp p M = outcome.ret r := by
  intro fuel
  induction fuel with
  | zero =>
    intro prevp p M r h
    exact absurd h (by simp [k_malloc_loop])
  | succ n ih =>
    intro prevp p M r h
    rw [k_malloc_loop_succ] at h ⊢
    by_cases h1 : hdr_size M.mem p ≥ u
    · rw [if_pos h1] at h ⊢
      exact h
    · rw [if_neg h1] at h ⊢
      by_cases h2 : p = M.freep
      · rw [if_pos h2] at h ⊢
        generalize kmorecore u M = km at h ⊢
        cases km with
        | fault => exact h
        | out_of_fuel => exact h
        | ret x =>
          obtain ⟨p1, M1⟩ := x
          simp only at h ⊢
          by_cases h3 : p1 = 0
          · rw [if_pos h3] at h ⊢
            exact h
          · rw [if_neg h3] at h ⊢
            exact ih _ _ _ _ h
      · rw [if_neg h2] at h ⊢
        exact ih _ _ _ _ h

/-- The first call of `k_malloc`, on the uninitialised heap with a page free list
that starts with nine frames at consecutive descending addresses, for at most
4096 units: it is the first-time initialisation, the call of `kmorecore` that
installs the chunk of 4096 units, and then `k_malloc` on the fresh heap, whose
page free list holds the frames after the nine; only the two headers were
written. -/
theorem k_malloc_first (M : memstate) (f nbytes : Nat) (rest : List Nat)
    (hL : is_free_list M.mem M.freelist
      ([f, f - 4096, f - 8192, f - 12288, f - 16384, f - 20480, f - 24576, f - 28672,
        f - 32768] ++ rest))
    (hf : 32768 < f) (htop : f + 4096 < 4294967296) (hfirst : M.first = true)
    (hfreep : M.freep = 0) (hnu : nunits_of nbytes ≤ 4096) :
    ∃ M2, fresh_heap 4096 M2 ∧ M2.sbrk_addr = f - 28672 ∧ M2.base_p = f - 32768 ∧
      is_free_list M.mem M2.freelist rest ∧
      (∀ z, (z < f - 32768 ∨ f - 32768 + 8 ≤ z) → (z < f - 28672 ∨ f - 28672 + 8 ≤ z) →
        M2.mem z = M.mem z) ∧
      k_malloc nbytes M = k_malloc nbytes M2 := by
  obtain ⟨a1, a2, a3, a4, a5, a6⟩ := k_malloc_frames_spec _ 0 M rest hL
  rw [if_pos (by simp)] at a5 a6
  have e9 : [f, f - 4096, f - 8192, f - 12288, f - 16384, f - 20480, f - 24576, f - 28672,
      f - 32768].length = 9 := rfl
  rw [e9] at a1 a2 a4 a5 a6
  have a5b : (k_malloc_frames 9 0 M).sbrk_addr = f - 28672 := by
    rw [a5, Nat.sub_zero, List.getD_cons_succ, List.getD_cons_succ, List.getD_cons_succ,
      List.getD_cons_succ, List.getD_cons_succ, List.getD_cons_succ, List.getD_cons_succ,
      List.getD_cons_zero]
  have a6b : (k_malloc_frames 9 0 M).base_p = f - 32768 := by
    rw [a6, Nat.sub_zero, List.getD_cons_succ, List.getD_cons_succ, List.getD_cons_succ,
      List.getD_cons_succ, List.getD_cons_succ, List.getD_cons_succ, List.getD_cons_succ,
      List.getD_cons_succ, List.getD_cons_zero]
  have hinit : k_malloc_init M = outcome.ret { k_malloc_frames 9 0 M with freep := (k_malloc_frames 9 0 M).base_p, mem := set_size (set_ptr (k_malloc_frames 9 0 M).mem (k_malloc_frames 9 0 M).base_p (k_malloc_frames 9 0 M).base_p) (k_malloc_frames 9 0 M).base_p 0 } := by
    unfold k_malloc_init
    simp only
    rw [if_neg (by rw [a6b]; omega)]
  generalize k_malloc_frames 9 0 M = R at a5b a6b a1 a2 a4 hinit
  obtain ⟨M2, hk, hfresh, e1, e2, e3, efr⟩ := kmorecore_fresh (nunits_of nbytes) R hnu
    (a4.trans hfirst) (by omega) (by omega) (by omega)
  refine ⟨M2, hfresh, e1.trans a5b, e2.trans a6b, ?_, ?_, ?_⟩
  · rw [e3]
    exact a2
  · intro z hz1 hz2
    rw [efr z (by rw [a6b]; exact hz1) (by rw [a5b]; exact hz2), a1]
  have hu := nunits_of_pos nbytes
  have hB : R.base_p ≠ 0 := by omega
  have hBlt : R.base_p < 4294967296 := by omega
  -- the call on the fresh heap
  have hfp : M2.freep ≠ 0 := free_inv_freep 4096 M2 _ hfresh.1
  obtain ⟨r, hr⟩ : ∃ r, k_malloc_loop (nunits_of nbytes) 17179869183 M2.freep
      (hdr_ptr M2.mem M2.freep) M2 = outcome.ret r := by
    obtain ⟨s, x, t, _, _, hcase⟩ := k_malloc_walk 4096 M2 _ (nunits_of nbytes) 17179869183
      hfresh.1 hu (by simp)
    rcases hcase with ⟨_, hk2⟩ | ⟨l, c, r2, g1, g2, pv, _, _, _, _, hk2⟩
    · exact ⟨_, hk2⟩
    · by_cases he : c.2 = nunits_of nbytes
      · rw [if_pos he] at hk2
        exact ⟨_, hk2⟩
      · rw [if_neg he] at hk2
        exact ⟨_, hk2⟩
  have hS : HEAP_STEPS = 17179869183 + 1 := rfl
  have h2 : k_malloc nbytes M2 = outcome.ret r := by
    rw [k_malloc_eq nbytes M2 hfp, hS]
    exact k_malloc_loop_mono _ _ _ _ _ _ hr
  rw [h2]
  -- the call on the uninitialised heap
  unfold k_malloc
  rw [if_pos hfreep, bind_ret _ _ _ hinit]
  simp only
  rw [hS, k_malloc_loop_succ]
  have hsz : hdr_size (set_size (set_ptr R.mem R.base_p R.base_p) R.base_p 0) (hdr_ptr (set_size (set_ptr R.mem R.base_p R.base_p) R.base_p 0) R.base_p) = 0 := by
    rw [hdr_ptr_set_size _ _ _ _ (Or.inl (Nat.le_refl _)), hdr_ptr_set_ptr _ _ _ hBlt,
      hdr_size_set_size _ _ _ (by omega)]
  have hpp : hdr_ptr (set_size (set_ptr R.mem R.base_p R.base_p) R.base_p 0) R.base_p
      = R.base_p := by
    rw [hdr_ptr_set_size _ _ _ _ (Or.inl (Nat.le_refl _)), hdr_ptr_set_ptr _ _ _ hBlt]
  simp only
  rw [hsz, if_neg (by omega), hpp, if_pos rfl, hk]
  simp only
  rw [if_neg hB]
  have e4 : M2.freep = R.base_p := hfresh.2.trans e2
  rw [e4] at hr
  exact hr

/-- Following the page free list does not depend on the bytes of the heap. -/
theorem pages_safe_frame (B S N : Nat) (m m1 : Mem)
    (h : ∀ z, (z < B ∨ B + 8 ≤ z) → (z < S ∨ S + 8 * N ≤ z) → m1 z = m z) :
    ∀ (n r : Nat), pages_safe B S N m n r → pages_safe B S N m1 n r := by
  intro n
  induction n with
  | zero =>
    intro r _
    trivial
  | succ n ih =>
    intro r hr
    simp only [pages_safe] at hr ⊢
    rcases hr with h0 | ⟨hp, hn⟩
    · exact Or.inl h0
    · refine Or.inr ⟨hp, ?_⟩
      obtain ⟨p1, p2, p3, p4⟩ := hp
      unfold PGSIZE at p1 p3 p4
      have e : read32 m1 r = read32 m r :=
        read32_congr _ _ _ (fun x h1 h2 => h x (by omega) (by omega))
      rw [e]
      exact ih _ hn

theorem pages_ok_frame (B S N : Nat) (M M1 : memstate) (hfl : M1.freelist = M.freelist)
    (h : ∀ z, (z < B ∨ B + 8 ≤ z) → (z < S ∨ S + 8 * N ≤ z) → M1.mem z = M.mem z)
    (hp : pages_ok B S N M) : pages_ok B S N M1 := by
  refine ⟨hp.1, fun n => ?_⟩
  rw [hfl]
  exact pages_safe_frame B S N M.mem M1.mem h n _ (hp.2 n)

/-- The function `kalloc` hands out a page outside the heap (or 0) and keeps the
page allocator off the heap; it leaves the heap as it is. -/
theorem pages_kalloc (B S N : Nat) (M : memstate) (hp : pages_ok B S N M) :
    pages_ok B S N (kalloc M).2 ∧ page_ok B S N (kalloc M).1 ∧ heap_same N M (kalloc M).2 := by
  unfold kalloc
  simp only
  by_cases h0 : M.freelist = 0
  · rw [if_neg (by simp [h0]), h0]
    exact ⟨hp, hp.1, rfl, rfl, rfl, rfl, fun _ _ => rfl⟩
  · rw [if_pos h0]
    have h1 := hp.2 1
    simp only [pages_safe] at h1
    rcases h1 with h1 | ⟨h1, _⟩
    · exact absurd h1 h0
    · refine ⟨⟨hp.1, fun n => ?_⟩, h1, rfl, rfl, rfl, rfl, fun _ _ => rfl⟩
      have h2 := hp.2 (n + 1)
      simp only [pages_safe] at h2
      rcases h2 with h2 | ⟨_, h2⟩
      · exact absurd h2 h0
      · exact h2

/-- The page free list after `kfree` of a page outside the heap, followed from any
frame of the list before. -/
theorem pages_safe_kfree (B S N : Nat) (m : Mem) (v fl : Nat) (hv : page_ok B S N v)
    (hfl : fl < 4294967296) (hs : ∀ n, pages_safe B S N m n fl) :
    ∀ (n r : Nat), (∀ k, pages_safe B S N m k r) →
      pages_safe B S N (write32 (memset m v 1 PGSIZE) v fl) n r := by
  intro n
  induction n with
  | zero =>
    intro r _
    trivial
  | succ n ih =>
    intro r hr
    simp only [pages_safe]
    by_cases h0 : r = 0
    · exact Or.inl h0
    · have hr1 : page_ok B S N r ∧ ∀ k, pages_safe B S N m k (read32 m r) := by
        have h1 := hr 1
        simp only [pages_safe] at h1
        rcases h1 with h1 | ⟨h1, _⟩
        · exact absurd h1 h0
        · refine ⟨h1, fun k => ?_⟩
          have h2 := hr (k + 1)
          simp only [pages_safe] at h2
          rcases h2 with h2 | ⟨_, h2⟩
          · exact absurd h2 h0
          · exact h2
      refine Or.inr ⟨hr1.1, ?_⟩
      by_cases hrv : r = v
      · rw [hrv, read32_write32_same _ _ _ hfl]
        exact ih fl hs
      · have a1 := hr1.1.1
        have a2 := hv.1
        unfold PGSIZE at a1 a2 ⊢
        rw [read32_write32_ne _ _ _ _ (by omega), read32_memset_out _ _ _ _ _ (by omega)]
        exact ih _ hr1.2

/-- The function `kfree` on a page outside the heap: when it returns, the page
allocator still keeps off the heap, and the heap is as it was. -/
theorem pages_kfree (cfg : layout) (B S N v : Nat) (M M1 : memstate)
    (hB : M.base_p = B) (hS : M.sbrk_addr = S) (hp : pages_ok B S N M)
    (hv : page_ok B S N v) (h : kfree cfg v M = outcome.ret M1) :
    pages_ok B S N M1 ∧ heap_same N M M1 := by
  have hval : valid_frame cfg v := by
    unfold kfree at h
    unfold valid_frame
    by_contra hc
    rw [if_pos (by omega)] at h
    exact absurd h (by simp)
  obtain ⟨M2, hk, hs⟩ := kfree_heap_same cfg N v M hval (by rw [hB, hS]; exact hv.2.2)
  have e : M1 = M2 := outcome.ret.inj (h.symm.trans hk)
  subst e
  refine ⟨⟨hp.1, ?_⟩, hs⟩
  have e2 : M1 = { M with mem := write32 (memset M.mem v 1 PGSIZE) v M.freelist, freelist := v } := by
    unfold kfree at h
    unfold valid_frame at hval
    rw [if_neg (by omega)] at h
    exact (outcome.ret.inj h).symm
  rw [e2]
  have hflt : M.freelist < 4294967296 := by
    have h1 := hp.2 1
    simp only [pages_safe] at h1
    rcases h1 with h1 | ⟨h1, _⟩
    · omega
    · exact h1.2.1
  intro n
  cases n with
  | zero => trivial
  | succ n =>
    simp only [pages_safe]
    refine Or.inr ⟨hv, ?_⟩
    rw [read32_write32_same _ _ _ hflt]
    exact pages_safe_kfree B S N M.mem v M.freelist hv hflt hp.2 n M.freelist hp.2

/-- A page free list that holds pages outside the heap can be followed safely. -/
theorem pages_of_list (B S N : Nat) (m : Mem) (L : List Nat) : ∀ (r : Nat),
    is_free_list m r L → (∀ x ∈ L, page_ok B S N x) → ∀ n, pages_safe B S N m n r := by
  induction L with
  | nil =>
    intro r h _ n
    simp only [is_free_list] at h
    cases n with
    | zero => trivial
    | succ n => exact Or.inl h
  | cons f t ih =>
    intro r h hL n
    obtain ⟨h1, _, h3⟩ := h
    cases n with
    | zero => trivial
    | succ n =>
      simp only [pages_safe]
      rw [h1]
      exact Or.inr ⟨hL f (List.mem_cons_self _ _),
        ih _ h3 (fun x hx => hL x (List.mem_cons_of_mem _ hx)) n⟩

/-- The invariant of memory is kept by a step that keeps the heap. -/
theorem mem_inv_same (B S N : Nat) (M M1 : memstate) (A : List (Nat × Nat))
    (h : mem_inv B S N M A) (hk : keeps_heap B S N M M1) : mem_inv B S N M1 A := by
  obtain ⟨⟨F, hinv⟩, hB, hS, _⟩ := h
  exact ⟨⟨F, heap_inv_same N M M1 F A hinv hk.1⟩, hk.1.1.trans hB, hk.1.2.1.trans hS, hk.2⟩

theorem mem_inv_kalloc (B S N : Nat) (M : memstate) (A : List (Nat × Nat))
    (h : mem_inv B S N M A) :
    mem_inv B S N (kalloc M).2 A ∧ page_ok B S N (kalloc M).1 := by
  obtain ⟨a, b, c⟩ := pages_kalloc B S N M h.2.2.2
  exact ⟨mem_inv_same B S N M _ A h ⟨c, a⟩, b⟩

theorem mem_inv_kfree (cfg : layout) (B S N v : Nat) (M M1 : memstate) (A : List (Nat × Nat))
    (h : mem_inv B S N M A) (hv : page_ok B S N v) (hk : kfree cfg v M = outcome.ret M1) :
    mem_inv B S N M1 A := by
  obtain ⟨a, b⟩ := pages_kfree cfg B S N v M M1 h.2.1 h.2.2.1 h.2.2.2 hv hk
  exact mem_inv_same B S N M _ A h ⟨b, a⟩

/-- A call of `k_malloc` keeps the invariant of memory: it fails and changes
nothing, or the chunk behind the pointer joins the chunks in use. -/
theorem mem_inv_malloc (B S N : Nat) (M : memstate) (A : List (Nat × Nat)) (nbytes : Nat)
    (r : Nat × memstate) (h : mem_inv B S N M A) (hk : k_malloc nbytes M = outcome.ret r) :
    (r.1 = 0 ∧ r.2 = M) ∨
    (r.1 ≠ 0 ∧ 8 ≤ r.1 ∧ mem_inv B S N r.2 ((r.1 - 8, nunits_of nbytes) :: A)) := by
  obtain ⟨⟨F, hinv⟩, hB, hS, hp⟩ := h
  by_cases h0 : r.1 = 0
  · exact Or.inl ⟨h0, (k_malloc_zero N M F nbytes r hinv.1 hk h0).1⟩
  · right
    obtain ⟨F1, hinv1, _, h8⟩ := heap_malloc N M F A nbytes r hinv hk h0
    obtain ⟨F2, c, _, _, _, _, _, _, hframe, _, e1, e2, e3, _⟩ :=
      k_malloc_success N M F nbytes r hinv.1 hk h0
    refine ⟨h0, h8, ⟨F1, hinv1⟩, e1.trans hB, e2.trans hS, ?_⟩
    refine pages_ok_frame B S N M r.2 e3 ?_ hp
    intro z hz1 hz2
    apply hframe
    intro y hy
    rcases List.mem_cons.mp hy with rfl | hy
    · simp only
      omega
    · have := hinv.1.2.2.2.2.2.2.1 y hy
      omega

/-- A call of `k_free` on the pointer of a chunk in use keeps the invariant of
memory; the chunk leaves the chunks in use. -/
theorem mem_inv_free (B S N : Nat) (M : memstate) (A : List (Nat × Nat)) (a : Nat × Nat)
    (h : mem_inv B S N M A) (ha : a ∈ A) :
    ∃ M1, k_free (a.1 + 8) M = outcome.ret M1 ∧ mem_inv B S N M1 (A.erase a) := by
  obtain ⟨⟨F, hinv⟩, hB, hS, hp⟩ := h
  obtain ⟨M1, F1, hk, hinv1, _, e3, hframe, e1, e2⟩ := heap_free N M F A a hinv ha
  refine ⟨M1, hk, ⟨F1, hinv1⟩, e1.trans hB, e2.trans hS, ?_⟩
  refine pages_ok_frame B S N M M1 e3 ?_ hp
  intro z hz1 hz2
  exact hframe z (by omega) (by omega)

/-- The pointers of the chunks in use are distinct. -/
theorem mem_inv_nodup (B S N : Nat) (M : memstate) (A : List (Nat × Nat))
    (h : mem_inv B S N M A) : (A.map fun a => a.1 + 8).Nodup := by
  obtain ⟨⟨F, _, hA, _, hAA⟩, _⟩ := h
  unfold List.Nodup
  rw [List.pairwise_map]
  refine List.Pairwise.imp_of_mem ?_ hAA
  intro a b ha hb hab
  have h1 := (hA a ha).2.1
  have h2 := (hA b hb).2.1
  unfold no_overlap at hab
  omega

/-- The first call of `k_malloc`, from `allocproc` in `userinit`: the heap is set up
on the first nine frames of the page free list, and the invariant of memory
holds with the one chunk handed out. -/
theorem mem_inv_first (M : memstate) (f nbytes : Nat) (rest : List Nat) (r : Nat × memstate)
    (hL : is_free_list M.mem M.freelist
      ([f, f - 4096, f - 8192, f - 12288, f - 16384, f - 20480, f - 24576, f - 28672,
        f - 32768] ++ rest))
    (hf : 36864 ≤ f) (htop : f + 4096 < 4294967296) (hfirst : M.first = true)
    (hfreep : M.freep = 0) (hnu : nunits_of nbytes ≤ 4096)
    (hrest : ∀ x ∈ rest, page_ok (f - 32768) (f - 28672) 4096 x)
    (hk : k_malloc nbytes M = outcome.ret r) (h0 : r.1 ≠ 0) :
    8 ≤ r.1 ∧ mem_inv (f - 32768) (f - 28672) 4096 r.2 [(r.1 - 8, nunits_of nbytes)] := by
  obtain ⟨M2, hfresh, eS, eB, hfl, hframe, hkk⟩ :=
    k_malloc_first M f nbytes rest hL (by omega) htop hfirst hfreep hnu
  have h2 : mem_inv (f - 32768) (f - 28672) 4096 M2 [] := by
    refine ⟨⟨_, hfresh.1, by simp, by simp, List.Pairwise.nil⟩, eB, eS, ?_, ?_⟩
    · unfold page_ok frame_outside PGSIZE
      omega
    · intro n
      refine pages_safe_frame _ _ _ M.mem M2.mem ?_ n _
        (pages_of_list _ _ _ M.mem rest _ hfl hrest n)
      intro z hz1 hz2
      exact hframe z hz1 (by omega)
  rw [hkk] at hk
  rcases mem_inv_malloc _ _ _ M2 [] nbytes r h2 hk with ⟨h1, _⟩ | ⟨_, h8, h3⟩
  · exact absurd h1 h0
  · exact ⟨h8, h3⟩

/-- What `allocproc` does to memory and to the list when it returns. -/
theorem allocproc_full (cfg : config) (k : kernel) (r : Option proc × kernel)
    (h : allocproc cfg k = outcome.ret r) :
    ∃ m, k_malloc cfg.sizeof_proc k.M = outcome.ret m ∧
      ((m.1 = 0 ∧ r.1 = none ∧ r.2.queue = k.queue ∧ r.2.M = m.2) ∨
       (m.1 ≠ 0 ∧ ∃ p, p.addr = m.1 ∧ p.kstack = (kalloc m.2).1 ∧ p.pgdir = 0 ∧
         r.2.M = (kalloc m.2).2 ∧ r.2.queue = k.queue ++ [p] ∧
         (r.1 = none ∨ r.1 = some p))) := by
  unfold allocproc at h
  obtain ⟨m, hm, h⟩ := bind_ret_inv _ _ _ h
  refine ⟨m, hm, ?_⟩
  simp only at h
  split at h
  · rename_i h0
    simp only [outcome.ret.injEq] at h
    subst h
    exact Or.inl ⟨h0, rfl, rfl, rfl⟩
  · rename_i h0
    split at h
    · simp only [outcome.ret.injEq] at h
      subst h
      exact Or.inr ⟨h0, _, rfl, rfl, rfl, rfl, rfl, Or.inl rfl⟩
    · simp only [outcome.ret.injEq] at h
      subst h
      exact Or.inr ⟨h0, _, rfl, rfl, rfl, rfl, rfl, Or.inr rfl⟩

/-- What `userinit` does to memory and to the list when it returns. -/
theorem userinit_full (cfg : config) (k k1 : kernel) (h : userinit cfg k = outcome.ret k1) :
    ∃ ar p q, allocproc cfg { k with queue := [] } = outcome.ret ar ∧ ar.1 = some p ∧
      k1.queue = set_last ar.2.queue q ∧ q.addr = p.addr ∧ q.kstack = p.kstack ∧
      q.pgdir = (cfg.setupkvm ar.2.M).1 ∧
      k1.M = cfg.inituvm (cfg.setupkvm ar.2.M).2 (cfg.setupkvm ar.2.M).1 := by
  unfold userinit at h
  obtain ⟨ar, ha, h⟩ := bind_ret_inv _ _ _ h
  cases h1 : ar.1 with
  | none =>
    rw [h1] at h
    simp at h
  | some p =>
    rw [h1] at h
    simp only at h
    split at h
    · simp at h
    · simp only [outcome.ret.injEq] at h
      subst h
      exact ⟨ar, p, _, ha, h1, rfl, rfl, rfl, rfl, rfl⟩

/-- What `fork` does to memory and to the list when it returns. -/
theorem fork_full (cfg : config) (c : cpu) (r : Int × cpu) (h : fork cfg c = outcome.ret r) :
    ∃ cur ar, c.proc = some cur ∧ allocproc cfg c.k = outcome.ret ar ∧ r.2.proc = c.proc ∧
      ((ar.1 = none ∧ r.2.k = ar.2) ∨
       ∃ np q, ar.1 = some np ∧ r.2.k.queue = set_last ar.2.queue q ∧ q.addr = np.addr ∧
         q.pgdir = (cfg.copyuvm ar.2.M cur.pgdir cur.sz).1 ∧
         ((q.kstack = 0 ∧ kfree cfg.lay np.kstack (cfg.copyuvm ar.2.M cur.pgdir cur.sz).2
             = outcome.ret r.2.k.M) ∨
          (q.kstack = np.kstack ∧ r.2.k.M = (cfg.copyuvm ar.2.M cur.pgdir cur.sz).2))) := by
  unfold fork at h
  cases hc : c.proc with
  | none => rw [hc] at h; simp at h
  | some cur =>
    rw [hc] at h
    simp only at h
    obtain ⟨ar, ha, h⟩ := bind_ret_inv _ _ _ h
    refine ⟨cur, ar, rfl, ha, ?_⟩
    cases h1 : ar.1 with
    | none =>
      rw [h1] at h
      simp only [outcome.ret.injEq] at h
      subst h
      exact ⟨rfl, Or.inl ⟨rfl, rfl⟩⟩
    | some np =>
      rw [h1] at h
      simp only at h
      split at h
      · obtain ⟨M3, hf, h⟩ := bind_ret_inv _ _ _ h
        simp only [outcome.ret.injEq] at h
        subst h
        exact ⟨rfl, Or.inr ⟨np, _, rfl, rfl, rfl, rfl, Or.inl ⟨rfl, hf⟩⟩⟩
      · cases ht : cur.tf with
        | none => rw [ht] at h; simp at h
        | some t =>
          rw [ht] at h
          simp only [outcome.ret.injEq] at h
          subst h
          exact ⟨rfl, Or.inr ⟨np, _, rfl, rfl, rfl, rfl, Or.inr ⟨rfl, rfl⟩⟩⟩

/-- The slot, the kernel stack and the page directory of every entry are as
before `wakeup1`, and so is memory. -/
theorem wakeup1_slots (chan : Nat) (k : kernel) :
    (wakeup1 chan k).queue.map (fun p => (p.addr, p.kstack, p.pgdir))
      = k.queue.map (fun p => (p.addr, p.kstack, p.pgdir)) ∧
    (wakeup1 chan k).M = k.M := by
  refine ⟨?_, rfl⟩
  simp only [wakeup1, List.map_map]
  apply List.map_congr_left
  intro p _
  simp only [Function.comp]
  split <;> simp [assign_min_pass_value]

theorem exit_loop_slots (cur : Nat) (n : Nat) : ∀ (i : Nat) (k : kernel),
    (exit_loop cur n i k).queue.map (fun p => (p.addr, p.kstack, p.pgdir))
      = k.queue.map (fun p => (p.addr, p.kstack, p.pgdir)) ∧
    (exit_loop cur n i k).M = k.M := by
  induction n with
  | zero =>
    intro i k
    exact ⟨rfl, rfl⟩
  | succ n ih =>
    intro i k
    unfold exit_loop
    cases hq : k.queue[i]? with
    | none => exact ⟨rfl, rfl⟩
    | some p =>
      simp only
      have hset : (k.queue.set i { p with parent := k.initproc }).map
            (fun p => (p.addr, p.kstack, p.pgdir))
          = k.queue.map (fun p => (p.addr, p.kstack, p.pgdir)) := by
        apply List.ext_getElem?
        intro j
        simp only [List.getElem?_map, List.getElem?_set]
        by_cases hij : i = j
        · subst hij
          simp only [if_true, hq, Option.map_some']
          have hlt : i < k.queue.length := by
            rcases Nat.lt_or_ge i k.queue.length with h | h
            · exact h
            · rw [List.getElem?_eq_none h] at hq
              exact absurd hq (by simp)
          simp [hlt]
        · simp [hij]
      split
      · split
        · obtain ⟨a, b⟩ := ih (i + 1) (wakeup1 k.initproc
            { k with queue := k.queue.set i { p with parent := k.initproc } })
          rw [a, b]
          obtain ⟨w1, w2⟩ := wakeup1_slots k.initproc
            { k with queue := k.queue.set i { p with parent := k.initproc } }
          rw [w1, w2]
          exact ⟨hset, rfl⟩
        · obtain ⟨a, b⟩ := ih (i + 1)
            { k with queue := k.queue.set i { p with parent := k.initproc } }
          rw [a, b]
          exact ⟨hset, rfl⟩
      · exact ih (i + 1) k

/-- What `exit` does to memory and to the list when it returns. -/
theorem exit_full (co : collab) (p : proc) (k : kernel) (r : proc × kernel)
    (h : exit co p k = outcome.ret r) :
    r.1.addr = p.addr ∧ r.1.kstack = p.kstack ∧ r.1.pgdir = p.pgdir ∧
    r.2.queue.map (fun p => (p.addr, p.kstack, p.pgdir))
      = k.queue.map (fun p => (p.addr, p.kstack, p.pgdir)) ∧
    r.2.M = co.iput (exit_close co p.ofile k.M) p.cwd := by
  unfold exit at h
  split at h
  · simp at h
  · simp only [outcome.ret.injEq] at h
    subst h
    refine ⟨rfl, rfl, rfl, ?_, ?_⟩
    · rw [(exit_loop_slots _ _ _ _).1, (wakeup1_slots _ _).1]
    · rw [(exit_loop_slots _ _ _ _).2, (wakeup1_slots _ _).2]

/-- What `wait` does to memory and to the list when it returns or goes to sleep. -/
theorem wait_full (cfg : config) (co : collab) (c : cpu) (r : Option Int × cpu)
    (h : wait cfg co c = outcome.ret r) :
    ∃ cur, c.proc = some cur ∧
      ((wait_slot c = none ∧ r.2.k = c.k ∧
          (r.2.proc = c.proc ∨ r.2.proc = some { cur with chan := cur.addr, state := SLEEPING })) ∨
       ∃ pre p post M1, c.k.queue = pre ++ p :: post ∧ wait_slot c = some p.addr ∧
         kfree cfg.lay p.kstack c.k.M = outcome.ret M1 ∧
         k_free p.addr (co.freevm M1 p.pgdir) = outcome.ret r.2.k.M ∧
         r.2.k.queue = pre ++ post ∧ r.2.proc = c.proc) := by
  unfold wait at h
  unfold wait_slot
  cases hc : c.proc with
  | none => rw [hc] at h; simp at h
  | some cur =>
    rw [hc] at h
    simp only at h ⊢
    refine ⟨cur, rfl, ?_⟩
    cases hs : wait_scan cur.addr c.k.queue 0 false with
    | mk found hk =>
      rw [hs] at h
      cases found with
      | none =>
        simp only at h
        left
        split at h
        · simp only [outcome.ret.injEq] at h
          subst h
          exact ⟨rfl, rfl, Or.inl hc⟩
        · simp only [outcome.ret.injEq] at h
          subst h
          exact ⟨rfl, rfl, Or.inr rfl⟩
      | some ip =>
        obtain ⟨i, p⟩ := ip
        simp only at h
        right
        obtain ⟨pre, post, e, ej, _, _, _⟩ := wait_scan_some _ _ _ _ _ _ _ hs
        obtain ⟨M1, hf, h⟩ := bind_ret_inv _ _ _ h
        obtain ⟨M3, hg, h⟩ := bind_ret_inv _ _ _ h
        simp only [outcome.ret.injEq] at h
        subst h
        refine ⟨pre, p, post, M1, e, rfl, hf, hg, ?_, rfl⟩
        simp only [zero_add] at ej
        subst ej
        simp [e, List.eraseIdx_append_of_length_le]

/-- What `allocproc` does to the invariant of memory: it fails and links nothing,
or it links one slot whose chunk joins the chunks in use. -/
theorem alloc_ok (cfg : config) (B S N : Nat) (k : kernel) (A : List (Nat × Nat))
    (r : Option proc × kernel) (hm : mem_inv B S N k.M A)
    (h : allocproc cfg k = outcome.ret r) :
    (r.1 = none ∧ r.2.queue = k.queue ∧ mem_inv B S N r.2.M A) ∨
    ∃ p, r.2.queue = k.queue ++ [p] ∧ (r.1 = none ∨ r.1 = some p) ∧ slot_ok B S N p ∧
      8 ≤ p.addr ∧ mem_inv B S N r.2.M ((p.addr - 8, nunits_of cfg.sizeof_proc) :: A) := by
  obtain ⟨m, hk, hcase⟩ := allocproc_full cfg k r h
  rcases hcase with ⟨h0, h1, h2, h3⟩ | ⟨h0, p, e1, e2, e3, e4, e5, e6⟩
  · left
    rcases mem_inv_malloc B S N k.M A _ m hm hk with ⟨_, hM⟩ | ⟨hne, _⟩
    · refine ⟨h1, h2, ?_⟩
      rw [h3, hM]
      exact hm
    · exact absurd h0 hne
  · right
    rcases mem_inv_malloc B S N k.M A _ m hm hk with ⟨hz, _⟩ | ⟨_, h8, hm2⟩
    · exact absurd hz h0
    · obtain ⟨hm3, hpg⟩ := mem_inv_kalloc B S N m.2 _ hm2
      refine ⟨p, e5, e6, ⟨?_, ?_⟩, ?_, ?_⟩
      · rw [e2]
        exact hpg
      · rw [e3]
        exact hm3.2.2.2.1
      · rw [e1]
        exact h8
      · rw [e4, e1]
        exact hm3

/-- The invariant is kept by a step that keeps the invariant of memory, the
slots of the list and of the dispatched process up to order, and the pages of
the slots outside the heap. -/
theorem life_ok_of (B S N : Nat) (c c1 : cpu) (live : List Nat) (h : life_ok B S N c live)
    (hM : ∀ A, mem_inv B S N c.k.M A → mem_inv B S N c1.k.M A)
    (hq : (c1.k.queue.map (fun p => p.addr) ++ c1.proc.toList.map fun p => p.addr).Perm
      (c.k.queue.map (fun p => p.addr) ++ c.proc.toList.map fun p => p.addr))
    (hs : ∀ q ∈ c1.k.queue, slot_ok B S N q)
    (hsp : ∀ q, c1.proc = some q → slot_ok B S N q) : life_ok B S N c1 live := by
  obtain ⟨A, hm, hA, hQ, _, _⟩ := h
  exact ⟨A, hM A hm, hA, hq.trans hQ, hs, hsp⟩

/-- The invariant after a slot was linked at the tail whose chunk joined the
chunks in use. -/
theorem life_ok_push (B S N u : Nat) (c c1 : cpu) (live : List Nat) (p : proc)
    (A : List (Nat × Nat)) (hA : (A.map fun a => a.1 + 8).Perm live)
    (hQ : (c.k.queue.map (fun p => p.addr) ++ c.proc.toList.map fun p => p.addr).Perm live)
    (hsl : ∀ p ∈ c.k.queue, slot_ok B S N p) (hsp : ∀ p, c.proc = some p → slot_ok B S N p)
    (hM : mem_inv B S N c1.k.M ((p.addr - 8, u) :: A))
    (h8 : 8 ≤ p.addr) (hq : c1.k.queue = c.k.queue ++ [p]) (hproc : c1.proc = c.proc)
    (hs : slot_ok B S N p) : life_ok B S N c1 (live ++ [p.addr]) := by
  refine ⟨_, hM, ?_, ?_, ?_, ?_⟩
  · simp only [List.map_cons]
    have e : p.addr - 8 + 8 = p.addr := by omega
    rw [e]
    exact (hA.cons p.addr).trans (List.perm_append_singleton _ _).symm
  · rw [hq, hproc, List.map_append, List.append_assoc]
    refine (List.Perm.append_left _ List.perm_append_comm).trans ?_
    rw [← List.append_assoc]
    exact List.Perm.append_right _ hQ
  · intro q hqm
    rw [hq] at hqm
    rcases List.mem_append.mp hqm with hqm | hqm
    · exact hsl q hqm
    · simp only [List.mem_singleton] at hqm
      rw [hqm]
      exact hs
  · intro q hqp
    rw [hproc] at hqp
    exact hsp q hqp

theorem life_ok_alloc (cfg : config) (B S N : Nat) (c : cpu) (live : List Nat)
    (r : Option proc × kernel) (h : life_ok B S N c live)
    (ha : allocproc cfg c.k = outcome.ret r) :
    life_ok B S N { c with k := r.2 }
      (live ++ (r.2.queue.drop c.k.queue.length).map fun p => p.addr) := by
  obtain ⟨A, hm, hA, hQ, hsl, hsp⟩ := h
  rcases alloc_ok cfg B S N c.k A r hm ha with ⟨_, hq, hm2⟩ | ⟨p, hq, _, hs, h8, hm2⟩
  · rw [hq]
    simp only [List.drop_length, List.map_nil, List.append_nil]
    exact ⟨A, hm2, hA, by rw [hq]; exact hQ, by rw [hq]; exact hsl, hsp⟩
  · rw [hq]
    simp only [List.drop_left, List.map_cons, List.map_nil]
    exact life_ok_push B S N (nunits_of cfg.sizeof_proc) c _ live p A hA hQ hsl hsp hm2 h8 hq
      rfl hs

theorem life_ok_fork (cfg : config) (co : collab) (B S N : Nat) (c : cpu) (live : List Nat)
    (r : Int × cpu) (hco : collab_ok cfg co B S N) (h : life_ok B S N c live)
    (hf : fork cfg c = outcome.ret r) :
    life_ok B S N r.2 (live ++ (r.2.k.queue.drop c.k.queue.length).map fun p => p.addr) := by
  obtain ⟨cur, ar, hc, ha, hproc, hcase⟩ := fork_full cfg c r hf
  rcases hcase with ⟨_, hk⟩ | ⟨np, q, hnp, hq, hqa, hqpg, hmemcase⟩
  · obtain ⟨A, m1, a1, q1, s1, p1⟩ := life_ok_alloc cfg B S N c live ar h ha
    rw [hk]
    exact ⟨A, by rw [hk]; exact m1, a1, by rw [hk, hproc]; exact q1, by rw [hk]; exact s1,
      by rw [hproc]; exact p1⟩
  · obtain ⟨A, hm, hA, hQ, hsl, hsp⟩ := h
    rcases alloc_ok cfg B S N c.k A ar hm ha with ⟨hn, _, _⟩ | ⟨p, hq0, hr1, hs, h8, hm2⟩
    · rw [hnp] at hn
      simp at hn
    · have hpn : p = np := by
        rcases hr1 with hr1 | hr1
        · rw [hnp] at hr1
          simp at hr1
        · rw [hnp] at hr1
          exact (Option.some.inj hr1).symm
      subst hpn
      have hq2 : r.2.k.queue = c.k.queue ++ [q] := by rw [hq, hq0, set_last_append]
      have hcur : slot_ok B S N cur := hsp cur hc
      obtain ⟨hkeep, hpg⟩ := hco.2.1 ar.2.M cur.pgdir cur.sz hm2.2.1 hm2.2.2.1 hm2.2.2.2 hcur.2
      have hm3 := mem_inv_same B S N _ _ _ hm2 hkeep
      have hm4 : mem_inv B S N r.2.k.M ((p.addr - 8, nunits_of cfg.sizeof_proc) :: A) ∧
          page_ok B S N q.kstack := by
        rcases hmemcase with ⟨hk0, hkf⟩ | ⟨hks, hM⟩
        · exact ⟨mem_inv_kfree cfg.lay B S N p.kstack _ _ _ hm3 hs.1 hkf,
            by rw [hk0]; exact hm.2.2.2.1⟩
        · exact ⟨by rw [hM]; exact hm3, by rw [hks]; exact hs.1⟩
      rw [hq2]
      simp only [List.drop_left, List.map_cons, List.map_nil]
      refine life_ok_push B S N (nunits_of cfg.sizeof_proc) c r.2 live q A hA hQ hsl hsp ?_
        (by rw [hqa]; exact h8) hq2 hproc ⟨hm4.2, by rw [hqpg]; exact hpg⟩
      rw [hqa]
      exact hm4.1

theorem life_ok_pick (B S N : Nat) (c : cpu) (live : List Nat) (p : proc) (k1 : kernel)
    (h : life_ok B S N c live) (hn : c.proc = none)
    (hp : scheduler_pick c.k = some (p, k1)) :
    life_ok B S N { proc := some p, k := k1 } live := by
  unfold scheduler_pick at hp
  rcases remove_min_split c.k.queue with ⟨_, h2⟩ | ⟨pre, p0, post, h1, h2, _⟩
  · rw [h2] at hp
    simp at hp
  · rw [h2] at hp
    simp only [Option.some.injEq, Prod.mk.injEq] at hp
    obtain ⟨e1, e2⟩ := hp
    subst e1 e2
    have hsl := h.choose_spec.2.2.2.1
    refine life_ok_of B S N c _ live h (fun A hA => hA) ?_ ?_ ?_
    · show ((pre ++ post).map (fun p => p.addr) ++ [p0.addr]).Perm
        (c.k.queue.map (fun p => p.addr) ++ c.proc.toList.map fun p => p.addr)
      rw [h1, hn]
      simp only [Option.toList, List.map_nil, List.append_nil, List.map_append, List.map_cons]
      exact (List.perm_append_singleton _ _).trans List.perm_middle.symm
    · intro q hq
      apply hsl
      rw [h1]
      simp only [List.mem_append, List.mem_cons] at hq ⊢
      tauto
    · intro q hq
      simp only [Option.some.injEq] at hq
      subst hq
      exact hsl p0 (by rw [h1]; simp)

theorem life_ok_back (B S N : Nat) (c : cpu) (live : List Nat) (p q : proc)
    (h : life_ok B S N c live) (hp : c.proc = some p)
    (hq : q.addr = p.addr ∧ q.kstack = p.kstack ∧ q.pgdir = p.pgdir) :
    life_ok B S N { proc := none, k := scheduler_back q c.k } live := by
  obtain ⟨A, hm, hA, hQ, hsl, hsp⟩ := h
  have hps := hsp p hp
  refine ⟨A, hm, hA, ?_, ?_, by simp⟩
  · refine List.Perm.trans ?_ hQ
    rw [hp]
    simp [scheduler_back, update_min_pass_value, insert, update_pass_value, hq.1]
  · intro x hx
    simp only [scheduler_back, update_min_pass_value, insert, List.mem_append,
      List.mem_singleton] at hx
    rcases hx with hx | hx
    · exact hsl x hx
    · subst hx
      unfold slot_ok at hps ⊢
      simp only [update_pass_value]
      rw [hq.2.1, hq.2.2]
      exact hps

/-- The loop of `exit` that closes the files keeps the invariant of memory. -/
theorem exit_close_inv (cfg : config) (co : collab) (B S N : Nat)
    (hco : collab_ok cfg co B S N) (A : List (Nat × Nat)) : ∀ (l : List Nat) (M : memstate),
    mem_inv B S N M A → mem_inv B S N (exit_close co l M) A := by
  intro l
  induction l with
  | nil =>
    intro M h
    exact h
  | cons f rest ih =>
    intro M h
    unfold exit_close
    by_cases hf : f ≠ 0
    · rw [if_pos hf]
      exact ih _ (mem_inv_same B S N _ _ _ h (hco.2.2.2.2.1 M f h.2.1 h.2.2.1 h.2.2.2))
    · rw [if_neg hf]
      exact ih _ h

theorem slots_of_map (B S N : Nat) (l l1 : List proc)
    (h : l1.map (fun p => (p.addr, p.kstack, p.pgdir))
      = l.map (fun p => (p.addr, p.kstack, p.pgdir)))
    (hs : ∀ p ∈ l, slot_ok B S N p) :
    (∀ q ∈ l1, slot_ok B S N q) ∧ l1.map (fun p => p.addr) = l.map fun p => p.addr := by
  constructor
  · intro q hq
    have hm : (q.addr, q.kstack, q.pgdir) ∈ l.map (fun p => (p.addr, p.kstack, p.pgdir)) := by
      rw [← h]
      exact List.mem_map_of_mem _ hq
    obtain ⟨q0, hq0, he⟩ := List.mem_map.mp hm
    simp only [Prod.mk.injEq] at he
    have := hs q0 hq0
    unfold slot_ok at this ⊢
    rw [← he.2.1, ← he.2.2]
    exact this
  · have := congrArg (List.map Prod.fst) h
    simpa [List.map_map, Function.comp] using this

theorem life_ok_exit (cfg : config) (co : collab) (B S N : Nat) (c : cpu) (live : List Nat)
    (p : proc) (r : proc × kernel) (hco : collab_ok cfg co B S N) (h : life_ok B S N c live)
    (hp : c.proc = some p) (he : exit co p c.k = outcome.ret r) :
    life_ok B S N { proc := none, k := scheduler_back r.1 r.2 } live := by
  obtain ⟨e1, e2, e3, e4, e5⟩ := exit_full co p c.k r he
  obtain ⟨A, hm, hA, hQ, hsl, hsp⟩ := h
  obtain ⟨s1, s2⟩ := slots_of_map B S N _ _ e4 hsl
  have hm1 := exit_close_inv cfg co B S N hco A p.ofile c.k.M hm
  have hm2 : mem_inv B S N r.2.M A := by
    rw [e5]
    exact mem_inv_same B S N _ _ _ hm1 (hco.2.2.2.2.2 _ p.cwd hm1.2.1 hm1.2.2.1 hm1.2.2.2)
  refine life_ok_back B S N { proc := some p, k := r.2 } live p r.1 ⟨A, hm2, hA, ?_, s1, ?_⟩ rfl
    ⟨e1, e2, e3⟩
  · show (r.2.queue.map (fun p => p.addr) ++ [p.addr]).Perm live
    rw [s2]
    rw [hp] at hQ
    exact hQ
  · intro q hq
    exact hsp q (by rw [hp]; exact hq)

theorem erase_chunk_perm : ∀ (A : List (Nat × Nat)) (a : Nat × Nat), a ∈ A →
    A.Perm (a :: A.erase a) := by
  intro A
  induction A with
  | nil =>
    intro a h
    simp at h
  | cons b t ih =>
    intro a h
    by_cases hb : b = a
    · subst hb
      rw [List.erase_cons_head]
    · rcases List.mem_cons.mp h with e | e
      · exact absurd e.symm hb
      · rw [List.erase_cons_tail (by simpa using hb)]
        exact ((ih a e).cons b).trans (List.Perm.swap a b _)

theorem life_ok_wait (cfg : config) (co : collab) (B S N : Nat) (c : cpu) (live : List Nat)
    (r : Option Int × cpu) (hco : collab_ok cfg co B S N) (h : life_ok B S N c live)
    (hw : wait cfg co c = outcome.ret r) :
    life_ok B S N r.2
      (match wait_slot c with
        | some a => live.erase a
        | none => live) := by
  obtain ⟨cur, hc, hcase⟩ := wait_full cfg co c r hw
  obtain ⟨A, hm, hA, hQ, hsl, hsp⟩ := h
  rcases hcase with ⟨hs, hk, hpr⟩ | ⟨pre, p, post, M1, hq, hs, hkf, hfree, hq2, hpr⟩
  · rw [hs]
    simp only
    refine ⟨A, by rw [hk]; exact hm, hA, ?_, by rw [hk]; exact hsl, ?_⟩
    · rw [hk]
      rcases hpr with hpr | hpr
      · rw [hpr]
        exact hQ
      · rw [hpr]
        rw [hc] at hQ
        exact hQ
    · intro q hq
      rcases hpr with hpr | hpr
      · rw [hpr] at hq
        exact hsp q hq
      · rw [hpr] at hq
        simp only [Option.some.injEq] at hq
        subst hq
        exact hsp cur hc
  · rw [hs]
    simp only
    have hpin : p ∈ c.k.queue := by
      rw [hq]
      simp
    have hps := hsl p hpin
    have hm1 := mem_inv_kfree cfg.lay B S N p.kstack c.k.M M1 A hm hps.1 hkf
    have hm2 := mem_inv_same B S N M1 _ A hm1
      (hco.2.2.2.1 M1 p.pgdir hm1.2.1 hm1.2.2.1 hm1.2.2.2 hps.2)
    have hlive : p.addr ∈ live :=
      hQ.subset (List.mem_append_left _ (List.mem_map_of_mem _ hpin))
    obtain ⟨a, haA, hap⟩ := List.mem_map.mp (hA.symm.subset hlive)
    obtain ⟨M3, hk3, hm3⟩ := mem_inv_free B S N _ A a hm2 haA
    rw [hap] at hk3
    have e : r.2.k.M = M3 := outcome.ret.inj (hfree.symm.trans hk3)
    refine ⟨A.erase a, by rw [e]; exact hm3, ?_, ?_, ?_, ?_⟩
    · have h1 : (A.map fun a => a.1 + 8).Perm (p.addr :: (A.erase a).map fun a => a.1 + 8) := by
        have := (erase_chunk_perm A a haA).map fun a => a.1 + 8
        rw [List.map_cons, hap] at this
        exact this
      have h2 := (hA.symm.trans h1).erase p.addr
      rw [List.erase_cons_head] at h2
      exact h2.symm
    · have h1 : (c.k.queue.map (fun p => p.addr) ++ c.proc.toList.map fun p => p.addr).Perm
          (p.addr :: ((pre ++ post).map (fun p => p.addr)
            ++ c.proc.toList.map fun p => p.addr)) := by
        rw [hq]
        simp only [List.map_append, List.map_cons, List.append_assoc, List.cons_append]
        exact List.perm_middle
      have h2 := (hQ.symm.trans h1).erase p.addr
      rw [List.erase_cons_head] at h2
      rw [hq2, hpr]
      exact h2.symm
    · intro x hx
      apply hsl
      rw [hq2] at hx
      rw [hq]
      simp only [List.mem_append, List.mem_cons] at hx ⊢
      rcases hx with hx | hx
      · exact Or.inl hx
      · exact Or.inr (Or.inr hx)
    · intro x hx
      rw [hpr] at hx
      exact hsp x hx

/-- After `userinit` on a machine whose heap is not set up and whose page free
list starts with nine frames at consecutive descending addresses, the other
frames being pages outside these: the heap is on the nine frames, the slot of
the first process is its one chunk in use, and the invariant holds. -/
theorem life_ok_init (cfg : config) (co : collab) (M0 : memstate) (f : Nat) (rest : List Nat)
    (k1 : kernel)
    (hL : is_free_list M0.mem M0.freelist
      ([f, f - 4096, f - 8192, f - 12288, f - 16384, f - 20480, f - 24576, f - 28672,
        f - 32768] ++ rest))
    (hf : 36864 ≤ f) (htop : f + 4096 < 4294967296) (hfirst : M0.first = true)
    (hfreep : M0.freep = 0) (hsz : nunits_of cfg.sizeof_proc ≤ 4096)
    (hrest : ∀ x ∈ rest, page_ok (f - 32768) (f - 28672) 4096 x)
    (hco : collab_ok cfg co (f - 32768) (f - 28672) 4096)
    (h : userinit cfg (boot M0) = outcome.ret k1) :
    life_ok (f - 32768) (f - 28672) 4096 { proc := none, k := k1 }
      (k1.queue.map fun p => p.addr) := by
  obtain ⟨ar, p, q, ha, hp, hq, hqa, hqk, hqpg, hM⟩ := userinit_full cfg _ k1 h
  obtain ⟨m, hk, hcase⟩ := allocproc_full cfg _ ar ha
  have hk2 : k_malloc cfg.sizeof_proc M0 = outcome.ret m := hk
  rcases hcase with ⟨_, hn, _, _⟩ | ⟨h0, p2, e1, e2, e3, e4, e5, e6⟩
  · rw [hp] at hn
    simp at hn
  · have hpp : p2 = p := by
      rcases e6 with e6 | e6
      · rw [hp] at e6
        simp at e6
      · rw [hp] at e6
        exact (Option.some.inj e6).symm
    subst hpp
    obtain ⟨h8, hm1⟩ := mem_inv_first M0 f cfg.sizeof_proc rest m hL hf htop hfirst hfreep hsz
      hrest hk2 h0
    obtain ⟨hm2, hpg⟩ := mem_inv_kalloc _ _ _ m.2 _ hm1
    rw [← e4] at hm2
    obtain ⟨hk3, hpg3⟩ := hco.1 ar.2.M hm2.2.1 hm2.2.2.1 hm2.2.2.2
    have hm3 := mem_inv_same _ _ _ _ _ _ hm2 hk3
    have hm4 := mem_inv_same _ _ _ _ _ _ hm3
      (hco.2.2.1 _ (cfg.setupkvm ar.2.M).1 hm3.2.1 hm3.2.2.1 hm3.2.2.2 hpg3)
    rw [← hM] at hm4
    have hq3 : k1.queue = [q] := by
      rw [hq, e5]
      exact set_last_append [] p2 q
    have e : m.1 - 8 + 8 = q.addr := by
      rw [hqa, e1]
      omega
    refine ⟨_, hm4, ?_, ?_, ?_, by simp⟩
    · rw [hq3]
      simp only [List.map_cons, List.map_nil]
      rw [e]
    · rw [hq3]
      simp
    · intro x hx
      rw [hq3] at hx
      simp only [List.mem_singleton] at hx
      subst hx
      exact ⟨by rw [hqk, e2]; exact hpg, by rw [hqpg]; exact hpg3⟩

/-- In every state of `life` on such a machine, with collaborators that keep off
the heap: the heap is well formed, the slots allocated and not reaped are its
chunks in use, and they are, up to order, the slots of the list together with
the slot of the dispatched process. -/
theorem life_heap (cfg : config) (co : collab) (M0 : memstate) (f : Nat) (rest : List Nat)
    (c : cpu) (live : List Nat)
    (hL : is_free_list M0.mem M0.freelist
      ([f, f - 4096, f - 8192, f - 12288, f - 16384, f - 20480, f - 24576, f - 28672,
        f - 32768] ++ rest))
    (hf : 36864 ≤ f) (htop : f + 4096 < 4294967296) (hfirst : M0.first = true)
    (hfreep : M0.freep = 0) (hsz : nunits_of cfg.sizeof_proc ≤ 4096)
    (hrest : ∀ x ∈ rest, page_ok (f - 32768) (f - 28672) 4096 x)
    (hco : collab_ok cfg co (f - 32768) (f - 28672) 4096)
    (h : life cfg co M0 c live) :
    life_ok (f - 32768) (f - 28672) 4096 c live := by
  induction h with
  | init k1 h1 => exact life_ok_init cfg co M0 f rest k1 hL hf htop hfirst hfreep hsz hrest hco h1
  | alloc c live r _ ha ih => exact life_ok_alloc cfg _ _ _ c live r ih ha
  | fork c live r _ hfk ih => exact life_ok_fork cfg co _ _ _ c live r hco ih hfk
  | pick c live p k1 _ hn hp ih => exact life_ok_pick _ _ _ c live p k1 ih hn hp
  | back c live p st chan _ hp _ ih =>
    exact life_ok_back _ _ _ c live p _ ih hp ⟨rfl, rfl, rfl⟩
  | exit c live p r _ hp he ih => exact life_ok_exit cfg co _ _ _ c live p r hco ih hp he
  | wait c live r _ hw ih => exact life_ok_wait cfg co _ _ _ c live r hco ih hw

theorem heap_same_refl (N : Nat) (M : memstate) : heap_same N M M :=
  ⟨rfl, rfl, rfl, rfl, fun _ _ => rfl⟩

/-- The collaborators of the concrete machines keep off the heap. -/
theorem ex_collab_ok (B S N : Nat) : collab_ok ex_cfg ex_co B S N := by
  refine ⟨?_, ?_, ?_, ?_, ?_, ?_⟩
  · intro M _ _ hp
    obtain ⟨a, b, c⟩ := pages_kalloc B S N M hp
    exact ⟨⟨c, a⟩, b⟩
  · intro M pg sz _ _ hp _
    obtain ⟨a, b, c⟩ := pages_kalloc B S N M hp
    exact ⟨⟨c, a⟩, b⟩
  · intro M pg _ _ hp _
    exact ⟨heap_same_refl N M, hp⟩
  · intro M pg hB hS hp hpg
    show keeps_heap B S N M ((kfree ex_lay pg M).get_or M)
    cases hk : kfree ex_lay pg M with
    | ret M1 =>
      obtain ⟨a, b⟩ := pages_kfree ex_lay B S N pg M M1 hB hS hp hpg hk
      exact ⟨b, a⟩
    | fault => exact ⟨heap_same_refl N M, hp⟩
    | out_of_fuel => exact ⟨heap_same_refl N M, hp⟩
  · intro M f _ _ hp
    exact ⟨heap_same_refl N M, hp⟩
  · intro M i _ _ hp
    exact ⟨heap_same_refl N M, hp⟩

/-- The state after boot and the first dispatch is a state of `life`; the slot of
the first process is the one allocated. -/
theorem life_ex_run : life ex_cfg ex_co (ex_mem 14) (ex_run 14) [2148589416] := by
  have r0 : life ex_cfg ex_co (ex_mem 14) { proc := none, k := ex_init 14 }
      ((ex_init 14).queue.map fun p => p.addr) :=
    life.init (ex_init 14) (outcome_returns _ _ (by decide))
  have e : (ex_init 14).queue.map (fun p => p.addr) = [2148589416] := by decide
  rw [e] at r0
  exact life.pick _ _ (ex_pick 14).1 (ex_pick 14).2 r0 rfl
    (option_getD_some (scheduler_pick (ex_init 14)) (ex_proc 0 0 UNUSED 1 0, ex_init 14)
      (by decide))

/-- The state after the first process has forked is a state of `life`, with the
slots of the parent and of the child. -/
theorem life_ex_fork_run :
    life ex_cfg ex_co (ex_mem 14) ex_fork_run.2 [2148589416, 2148589256] := by
  have r0 := life.fork (ex_run 14) _ ex_fork_run life_ex_run (outcome_returns _ _ (by decide))
  have e : (ex_fork_run.2.k.queue.drop (ex_run 14).k.queue.length).map (fun p => p.addr)
      = [2148589256] := by decide
  rw [e] at r0
  exact r0

/-- C15, the claim as stated fails: after boot the scheduler dispatches the first
process; its slot is allocated, not reaped and RUNNING, and it is in the process
list zero times. -/
theorem C15_counterexample :
    ¬ ∀ (c : cpu) (live : List Nat), life ex_cfg ex_co (ex_mem 14) c live →
      ∀ a ∈ live,
        (∀ p, (p ∈ c.k.queue ∨ c.proc = some p) → p.addr = a → p.state ≠ UNUSED) →
        (c.k.queue.map fun p => p.addr).count a = 1 := by
  intro h
  have h1 := h (ex_run 14) [2148589416] life_ex_run 2148589416 (by decide)
  have h2 : (ex_run 14).k.queue = [] := by decide
  have h3 : (ex_run 14).proc.map (fun p => p.state) = some RUNNING := by decide
  rw [h2] at h1
  have h4 : ((([] : List proc).map fun p => p.addr).count 2148589416 = 1) → False := by simp
  apply h4
  apply h1
  intro p hp _ hu
  rcases hp with hp | hp
  · simp at hp
  · rw [hp] at h3
    simp only [Option.map_some', Option.some.injEq] at h3
    rw [hu] at h3
    exact absurd h3 (by decide)

/-- C15 (amended): on a machine that boots with the heap not set up and a page
free list that starts with nine frames at consecutive descending addresses, the
other frames being pages outside these nine, with `sizeof(struct proc)` at most
4096 units and with collaborators (address spaces, files, inodes) that keep off
the heap: in every state reached through `userinit`, `allocproc`, `fork`, the
scheduler loop, `exit` and `wait`, the slots that have been allocated and not
reaped are at distinct addresses, and each of them is either in the process
list exactly once and not dispatched, or is the dispatched process and then not
in the list (`remove_min` has unlinked it until the switch back); and every
entry of the list and the dispatched process are such slots. -/
theorem C15_list_membership (cfg : config) (co : collab) (M0 : memstate) (f : Nat)
    (rest : List Nat) (c : cpu) (live : List Nat)
    (hL : is_free_list M0.mem M0.freelist
      ([f, f - 4096, f - 8192, f - 12288, f - 16384, f - 20480, f - 24576, f - 28672,
        f - 32768] ++ rest))
    (hf : 36864 ≤ f) (htop : f + 4096 < 4294967296) (hfirst : M0.first = true)
    (hfreep : M0.freep = 0) (hsz : nunits_of cfg.sizeof_proc ≤ 4096)
    (hrest : ∀ x ∈ rest, page_ok (f - 32768) (f - 28672) 4096 x)
    (hco : collab_ok cfg co (f - 32768) (f - 28672) 4096)
    (h : life cfg co M0 c live) :
    live.Nodup ∧
    (∀ a ∈ live, (c.k.queue.map fun p => p.addr).count a
        + (c.proc.toList.map fun p => p.addr).count a = 1) ∧
    (∀ p ∈ c.k.queue, p.addr ∈ live) ∧ ∀ p, c.proc = some p → p.addr ∈ live := by
  obtain ⟨A, hm, hA, hQ, _, _⟩ :=
    life_heap cfg co M0 f rest c live hL hf htop hfirst hfreep hsz hrest hco h
  have hnd : live.Nodup := hA.nodup_iff.mp (mem_inv_nodup _ _ _ _ A hm)
  refine ⟨hnd, ?_, ?_, ?_⟩
  · intro a ha
    rw [← List.count_append, hQ.count_eq]
    exact List.count_eq_one_of_mem hnd ha
  · intro p hp
    apply hQ.subset
    exact List.mem_append_left _ (List.mem_map_of_mem _ hp)
  · intro p hp
    apply hQ.subset
    rw [hp]
    simp

/-- C15 (amended), at a concrete input: a machine with 14 free frames after boot,
the first dispatch and a `fork` by the first process: the slot of the parent is
dispatched and not in the list, the slot of the child is in the list once. -/
theorem C15_list_membership_witness :
    (ex_fork_run.2.k.queue.map fun p => (p.addr, p.pid)) = [(2148589256, 2)] ∧
    (ex_fork_run.2.proc.map fun p => (p.addr, p.pid)) = some (2148589416, 1) ∧
    ([2148589416, 2148589256] : List Nat).Nodup ∧
    (∀ a ∈ ([2148589416, 2148589256] : List Nat),
      (ex_fork_run.2.k.queue.map fun p => p.addr).count a
        + (ex_fork_run.2.proc.toList.map fun p => p.addr).count a = 1) ∧
    (∀ p ∈ ex_fork_run.2.k.queue, p.addr ∈ ([2148589416, 2148589256] : List Nat)) ∧
    ∀ p, ex_fork_run.2.proc = some p → p.addr ∈ ([2148589416, 2148589256] : List Nat) :=
  ⟨by decide, by decide,
    C15_list_membership ex_cfg ex_co (ex_mem 14) 2148585472
      [2148548608, 2148544512, 2148540416, 2148536320, 2148532224] ex_fork_run.2
      [2148589416, 2148589256]
      (by simp only [is_free_list, List.cons_append, List.nil_append]; decide)
      (by decide) (by decide) (by decide) (by decide) (by decide) (by decide)
      (ex_collab_ok _ _ _) life_ex_fork_run⟩

end Stride
